import Mathlib

/-! # minotaur-cpp: navigation and motion-control core

A shallow embedding of

* `code/controller/astar.cpp`   (`nrg::search_path` and its helpers,
  `nrg::grid_kernelize`, `nrg::scale_path_pixels`),
* `code/compstate/objectline.cpp` (`ObjectLine::movement_loop`),
* `code/compstate/procedure.cpp`  (`Procedure::movement_loop`),
* `code/controller/actuator.cpp`  (`Actuator::convertDataToBytes`,
  `Actuator::moveActuator`),

followed by the properties proved about them.

Conventions of the embedding:

* `int` coordinates and terrain values of `astar.cpp` are `Int`; in
  `actuator.cpp`, where the products of `intPow` reach the limits of `int`, an
  overflow is undefined behaviour and modelled as such.  The `double` cost sums of
  `search_path` only ever hold sums of `int` values and are `Int` as well
  (a `double` holds such sums exactly up to 2^53 in magnitude).
* A `double` of the two controllers is the rational number it holds.
  `objectline.cpp` only stores and compares such numbers, which is exact.
  `procedure.cpp` computes with them: the operations whose results are rounded
  are arguments of `Procedure.movement_loop` (`Procedure.double_ops`), and
  `Procedure.round_double` is the rounding of the machine.
* `std::map<vector2i, T>` is a function `vector2i → Option T`,
  `std::set<associated_cost>` is a duplicate-free list from which `begin()`
  takes the least element.
* `while` loops take a fuel argument that bounds the number of iterations; a
  run that uses up its fuel is reported as such, never as a result.
-/

namespace nrg

/-! ## `astar.cpp` -/

/-- The `vector2i` of the source: a pair of `int` coordinates. -/
structure vector2i where
  x : Int
  y : Int
deriving DecidableEq, Repr

/-- The `array2d<int>` of the source: `x` rows of `y` cells; `get i j` is
`terrain[i][j]`, meaningful for `0 ≤ i < x` and `0 ≤ j < y` only. -/
structure array2d where
  x : Nat
  y : Nat
  get : Int → Int → Int

/-- Source `#define TERRAIN_WALL -1` -/
def TERRAIN_WALL : Int := -1

/-- Source `typedef std::pair<double, vector2i> associated_cost;` -/
abbrev associated_cost := Int × vector2i

/-- Modelled from the spec: `operator<` of `vector2i`, which `astar.cpp` uses
through `std::set` and `std::map` without defining it; "the coordinate's
natural ordering", `x` first, then `y`.  The search takes the ordering as an
argument, and every property below is proved for all orderings. -/
def vector2i_lt (a b : vector2i) : Bool :=
  decide (a.x < b.x) || (decide (a.x = b.x) && decide (a.y < b.y))

/-- Source `manhattan_dist` (astar.cpp:19). -/
def manhattan_dist (cur dest : vector2i) : Int :=
  |dest.x - cur.x| + |dest.y - cur.y|

/-- Source `is_valid` (astar.cpp:26). -/
def is_valid (x y max_row max_col : Int) : Bool :=
  decide (x ≥ 0) && decide (x < max_row) && decide (y ≥ 0) && decide (y < max_col)

/-- Source `get_neighbors` (astar.cpp:33): the four axis neighbours, in the order of
the source, each kept only when `is_valid`. -/
def get_neighbors (c : vector2i) (max_row max_col : Int) : List vector2i :=
  let cur_x := c.x
  let cur_y := c.y
  (if is_valid (cur_x - 1) cur_y max_row max_col then [⟨cur_x - 1, cur_y⟩] else []) ++
  (if is_valid (cur_x + 1) cur_y max_row max_col then [⟨cur_x + 1, cur_y⟩] else []) ++
  (if is_valid cur_x (cur_y - 1) max_row max_col then [⟨cur_x, cur_y - 1⟩] else []) ++
  (if is_valid cur_x (cur_y + 1) max_row max_col then [⟨cur_x, cur_y + 1⟩] else [])

/-- Assignment `m[k] = v` on a `std::map` keyed by `vector2i`. -/
def map_set {α : Type} (m : vector2i → Option α) (k : vector2i) (v : α) :
    vector2i → Option α :=
  fun c => if c = k then some v else m c

/-- The three containers of `search_path` (astar.cpp:75-77). -/
structure search_state where
  parent : vector2i → Option vector2i
  cost : vector2i → Option Int
  open_set : List associated_cost

/-- Ordering of `std::pair<double, vector2i>`: first component, then second. -/
def assoc_lt (lt : vector2i → vector2i → Bool) (a b : associated_cost) : Bool :=
  decide (a.1 < b.1) || (decide (a.1 = b.1) && lt a.2 b.2)

/-- Least element of `e :: es` for `assoc_lt`. -/
def set_min (lt : vector2i → vector2i → Bool) (e : associated_cost) :
    List associated_cost → associated_cost
  | [] => e
  | e1 :: es => set_min lt (if assoc_lt lt e1 e then e1 else e) es

/-- Source `open_set.begin()`: `none` when the set is empty. -/
def set_begin (lt : vector2i → vector2i → Bool) : List associated_cost → Option associated_cost
  | [] => none
  | e :: es => some (set_min lt e es)

/-- Source `open_set.emplace(f, c)`: a `std::set` keeps one copy of each element. -/
def set_emplace (e : associated_cost) (s : List associated_cost) : List associated_cost :=
  if e ∈ s then s else e :: s

/-- The body of the `for` loop of `search_path` (astar.cpp:94-101) for one
neighbour `next` of `cur`.  `cost[cur]` is `std::map::operator[]`, which
inserts a zero entry when the key is absent. -/
def relax (terrain : array2d) (dest cur : vector2i) (st : search_state)
    (next : vector2i) : search_state :=
  if terrain.get next.x next.y ≠ TERRAIN_WALL then
    let cost1 := match st.cost cur with
      | some _ => st.cost
      | none => map_set st.cost cur 0
    let new_cost := (cost1 cur).getD 0 + terrain.get next.x next.y
    if (cost1 next).isNone || decide (new_cost < (cost1 next).getD 0) then
      { parent := map_set st.parent next cur
        cost := map_set cost1 next new_cost
        open_set := set_emplace (new_cost + manhattan_dist next dest, next) st.open_set }
    else { st with cost := cost1 }
  else st

/-- Lines 91-102 of astar.cpp: all neighbours of `cur` are relaxed in turn. -/
def expand (terrain : array2d) (dest cur : vector2i) (st : search_state) : search_state :=
  (get_neighbors cur terrain.x terrain.y).foldl (relax terrain dest cur) st

/-- The `while (!open_set.empty())` loop (astar.cpp:86-103).  `none` means that
the fuel ran out before the loop ended. -/
def search_loop (lt : vector2i → vector2i → Bool) (terrain : array2d) (dest : vector2i) :
    Nat → search_state → Option search_state
  | 0, _ => none
  | fuel + 1, st =>
    match set_begin lt st.open_set with
    | none => some st
    | some b =>
      let st1 := { st with open_set := st.open_set.erase b }
      if b.2 = dest then some st1
      else search_loop lt terrain dest fuel (expand terrain dest b.2 st1)

/-- What a call of `search_path` comes to. -/
inductive search_result where
  /-- Normal return; the argument is the content of the `path` vector. -/
  | found (path : List vector2i)
  /-- `parent.at(cur)` threw `std::out_of_range`; the argument is the content
  of the `path` vector at the throw. -/
  | out_of_range (path : List vector2i)
  /-- The fuel ran out in one of the two loops. -/
  | out_of_fuel
deriving DecidableEq, Repr

/-- The `while (cur != start)` loop of `backtrack` with the two statements
that follow it (astar.cpp:61-66); `path.push_back` appends. -/
def backtrack_loop (start : vector2i) (parent : vector2i → Option vector2i) :
    Nat → vector2i → List vector2i → search_result
  | 0, _, _ => search_result.out_of_fuel
  | fuel + 1, cur, path =>
    if cur = start then search_result.found (path ++ [start]).reverse
    else
      let path1 := path ++ [cur]
      match parent cur with
      | none => search_result.out_of_range path1
      | some p => backtrack_loop start parent fuel p path1

/-- Source `backtrack` (astar.cpp:54): `cur` walks the `parent` links from `dest`
until it meets `start`. -/
def backtrack (fuel : Nat) (start dest : vector2i) (parent : vector2i → Option vector2i)
    (path : List vector2i) : search_result :=
  backtrack_loop start parent fuel dest path

/-- The state at astar.cpp:82, before the loop. -/
def search_init (start : vector2i) : search_state :=
  { parent := map_set (fun _ => none) start start
    cost := map_set (fun _ => none) start 0
    open_set := set_emplace (0, start) [] }

/-- Source `nrg::search_path` (astar.cpp:69).  `path` is the caller's vector on
entry (`grid_path` passes an empty one). -/
def search_path (lt : vector2i → vector2i → Bool) (fuel : Nat) (terrain : array2d)
    (start dest : vector2i) (path : List vector2i) : search_result :=
  match search_loop lt terrain dest fuel (search_init start) with
  | none => search_result.out_of_fuel
  | some st => backtrack fuel start dest st.parent path

/-! ### Vocabulary of the path properties -/

/-- The cell `b` is one of the four axis neighbours of `a`. -/
def adjacent (a b : vector2i) : Bool :=
  (decide (b.x = a.x - 1) && decide (b.y = a.y)) ||
  (decide (b.x = a.x + 1) && decide (b.y = a.y)) ||
  (decide (b.x = a.x) && decide (b.y = a.y - 1)) ||
  (decide (b.x = a.x) && decide (b.y = a.y + 1))

/-- The cell `c` lies inside the terrain. -/
def in_bounds (terrain : array2d) (c : vector2i) : Bool :=
  is_valid c.x c.y terrain.x terrain.y

/-- The terrain value of a cell. -/
def cell_cost (terrain : array2d) (c : vector2i) : Int :=
  terrain.get c.x c.y

/-- One move of a walk: to an adjacent cell that is in bounds and not a wall. -/
def walk_step (terrain : array2d) (a b : vector2i) : Bool :=
  adjacent a b && in_bounds terrain b && decide (cell_cost terrain b ≠ TERRAIN_WALL)

/-- The list `p` is a 4-connected wall-free walk from `start` to `dest`:
it begins with `start`, ends with `dest`, and every move is a `walk_step`. -/
def is_walk (terrain : array2d) (start dest : vector2i) (p : List vector2i) : Prop :=
  p.head? = some start ∧ p.getLast? = some dest ∧ List.Chain' (fun a b => walk_step terrain a b = true) p

/-- Total weight of a path: the terrain costs of every cell after the first. -/
def path_weight (terrain : array2d) (p : List vector2i) : Int :=
  (p.tail.map (cell_cost terrain)).sum

/-- The cell `dest` can be reached from `start` through 4-connected non-wall cells. -/
def reachable (terrain : array2d) (start dest : vector2i) : Prop :=
  ∃ p, is_walk terrain start dest p

/-- Every cell of the terrain that is not a wall has a cost of at least 0. -/
def costs_nonneg (terrain : array2d) : Prop :=
  ∀ c, in_bounds terrain c = true → cell_cost terrain c ≠ TERRAIN_WALL → 0 ≤ cell_cost terrain c

/-- Every cell of the terrain that is not a wall has a cost of at least 1. -/
def costs_pos (terrain : array2d) : Prop :=
  ∀ c, in_bounds terrain c = true → cell_cost terrain c ≠ TERRAIN_WALL → 1 ≤ cell_cost terrain c

/-- The cell `a` is met when the `parent` links are followed from `v`, the way
`backtrack` follows them (it stops at `start`). -/
inductive Anc (parent : vector2i → Option vector2i) (start a : vector2i) : vector2i → Prop
  | refl : Anc parent start a a
  | step {v p : vector2i} : v ≠ start → parent v = some p → Anc parent start a p →
      Anc parent start a v

/-- The state after a successful test at astar.cpp:96: lines 97-99. -/
def improve (dest cur next : vector2i) (new_cost : Int) (st : search_state) : search_state :=
  { parent := map_set st.parent next cur
    cost := map_set st.cost next new_cost
    open_set := set_emplace (new_cost + manhattan_dist next dest, next) st.open_set }

/-- Loop invariant of `search_path`, on the three containers. -/
structure Inv (terrain : array2d) (start : vector2i) (st : search_state) : Prop where
  start_cost : st.cost start = some 0
  start_parent : st.parent start = some start
  link : ∀ v p, st.parent v = some p → v ≠ start →
    walk_step terrain p v = true ∧
      ∃ cv cp, st.cost v = some cv ∧ st.cost p = some cp ∧ cp + cell_cost terrain v ≤ cv
  cost_nonneg : ∀ v c, st.cost v = some c → 0 ≤ c
  anc : ∀ v c, st.cost v = some c → Anc st.parent start start v
  open_cost : ∀ f v, (f, v) ∈ st.open_set → ∃ c, st.cost v = some c ∧ c ≤ f

/-- The cell `v` is either waiting in the open set with its current cost, or
all its moves have been relaxed with its current cost. -/
def Settled (terrain : array2d) (dest : vector2i) (st : search_state) (v : vector2i) : Prop :=
  ∀ c, st.cost v = some c →
    (∃ f, (f, v) ∈ st.open_set ∧ f ≤ c + manhattan_dist v dest) ∨
    (∀ w, walk_step terrain v w = true → ∃ cw, st.cost w = some cw ∧ cw ≤ c + cell_cost terrain w)

/-- Costs only go down from `st` to `st1`, and no cell loses its cost. -/
def cost_decr (st st1 : search_state) : Prop :=
  ∀ u cu, st.cost u = some cu → ∃ cu1, st1.cost u = some cu1 ∧ cu1 ≤ cu

/-- The cells of the terrain. -/
def cells (terrain : array2d) : Finset vector2i :=
  (Finset.range terrain.x ×ˢ Finset.range terrain.y).image
    (fun p => (⟨(p.1 : Int), (p.2 : Int)⟩ : vector2i))

/-- Number of cells of the terrain without a recorded cost. -/
def unassigned (terrain : array2d) (st : search_state) : Nat :=
  ∑ v ∈ cells terrain, (if st.cost v = none then 1 else 0)

/-- Sum of the recorded costs of the cells of the terrain. -/
def cost_sum (terrain : array2d) (st : search_state) : Nat :=
  ∑ v ∈ cells terrain, ((st.cost v).getD 0).toNat

/-- Termination measure of the search loop, ordered lexicographically. -/
def search_measure (terrain : array2d) (st : search_state) : Lex (Nat × Nat) :=
  toLex (unassigned terrain st, 2 * cost_sum terrain st + st.open_set.length)

/-- What holds of the state `st1` in which the loop has ended: its maps are
those of a state `st0` met at the loop head, in which the invariant held and
either the open set was empty or its least element was an entry of `dest`. -/
def loop_exit (terrain : array2d) (start dest : vector2i) (st1 : search_state) : Prop :=
  ∃ st0, Inv terrain start st0 ∧ (∀ v, Settled terrain dest st0 v) ∧
    st1.parent = st0.parent ∧ st1.cost = st0.cost ∧
    (st0.open_set = [] ∨ ∃ f, (f, dest) ∈ st0.open_set ∧ ∀ e ∈ st0.open_set, f ≤ e.1)

/-- A 2 x 2 terrain in which every cell costs 1. -/
def terrain_unit : array2d := { x := 2, y := 2, get := fun _ _ => 1 }

/-- The `nrg::dir` of the source, with the four values `objectline.cpp` names. -/
inductive dir where
  | RIGHT
  | LEFT
  | DOWN
  | UP
deriving DecidableEq, Repr

end nrg

namespace ObjectLine

/-! ## `objectline.cpp` -/

/-- Source `ObjectLine::State`, the nine values of the `switch` of `movement_loop`. -/
inductive State where
  | REQUIRE_READY_MOVE
  | DOING_READY_MOVE
  | REQUIRE_OBJECT_MOVE
  | DOING_OBJECT_MOVE
  | REQUIRE_CORRECTION
  | REQUIRE_CORRECTION_READY_MOVE
  | DOING_CORRECTION_READY_MOVE
  | REQUIRE_CORRECTION_OBJECT_MOVE
  | DOING_CORRECTION_OBJECT_MOVE
deriving DecidableEq, Repr

/-- Source `ObjectMove::Stop`. -/
inductive Stop where
  | OKAY
  | AT_TARGET
  | WRONG_SIDE
  | EXCEEDED_NORM
deriving DecidableEq, Repr

/-- A live `ReadyMove`: its constructor argument, and whether `start()` was called. -/
structure ReadyMove where
  side_dir : nrg.dir
  started : Bool
deriving DecidableEq, Repr

/-- A live `ObjectMove`: its constructor arguments, and whether `start()` was called. -/
structure ObjectMove where
  dir : nrg.dir
  target : Rat
  norm_base : Rat
  norm_dev : Rat
  started : Bool
deriving DecidableEq, Repr

/-- The members of `ObjectLine`.  The two `std::unique_ptr` handles are options
(`none` is the null pointer); `timer_active` is the state of `m_timer`. -/
structure object_line where
  m_dir : nrg.dir
  m_target : Rat
  m_base : Rat
  m_done : Bool
  m_state : State
  m_correction_dir : nrg.dir
  m_ready_move : Option ReadyMove
  m_object_move : Option ObjectMove
  timer_active : Bool
deriving DecidableEq, Repr

/-- What one call of `movement_loop` reads from outside the object: the four
flags of `CompetitionState`, the centre of the object box, and the answers of
the live sub-procedure to `is_done()` and `get_stop()`. -/
structure tick_input where
  robot_box_fresh : Bool
  robot_box_valid : Bool
  object_box_fresh : Bool
  object_box_valid : Bool
  object_center_x : Rat
  object_center_y : Rat
  ready_move_done : Bool
  object_move_done : Bool
  object_move_stop : Stop
deriving DecidableEq, Repr

/-- The constructor (objectline.cpp:5).  `m_correction_dir` is not initialised
by it; `garbage` stands for the value it happens to hold.  The timer is started
by `start()`. -/
def init (dir : nrg.dir) (target base : Rat) (garbage : nrg.dir) : object_line :=
  { m_dir := dir, m_target := target, m_base := base, m_done := false,
    m_state := State.REQUIRE_READY_MOVE, m_correction_dir := garbage,
    m_ready_move := none, m_object_move := none, timer_active := false }

/-- Source `ObjectLine::start` (objectline.cpp:20). -/
def start (s : object_line) : object_line := { s with timer_active := true }

/-- Source `do_require_ready_move` (objectline.cpp:82).  `move_dir_to_side` comes from
`utility/algorithm.h` and is an argument here. -/
def do_require_ready_move (move_dir_to_side : nrg.dir → nrg.dir) (s : object_line) :
    object_line :=
  let side_dir := move_dir_to_side s.m_dir
  { s with m_ready_move := some { side_dir := side_dir, started := true }
           m_state := State.DOING_READY_MOVE }

/-- Source `do_doing_ready_move` (objectline.cpp:89).  `none`: the handle is null (the
assertion fails, or the null pointer is dereferenced). -/
def do_doing_ready_move (inp : tick_input) (s : object_line) : Option object_line :=
  match s.m_ready_move with
  | none => none
  | some _ =>
    if inp.ready_move_done then
      some { s with m_ready_move := none, m_state := State.REQUIRE_OBJECT_MOVE }
    else some s

/-- Source `do_require_object_move` (objectline.cpp:99). -/
def do_require_object_move (s : object_line) : object_line :=
  { s with m_object_move := some { dir := s.m_dir, target := s.m_target,
                                    norm_base := s.m_base, norm_dev := 10, started := true }
           m_state := State.DOING_OBJECT_MOVE }

/-- Source `do_doing_object_move` (objectline.cpp:109).  `ndebug` tells whether the
assertions are compiled out; `none`: null handle, or failed assertion. -/
def do_doing_object_move (ndebug : Bool) (inp : tick_input) (s : object_line) :
    Option object_line :=
  match s.m_object_move with
  | none => none
  | some _ =>
    if !inp.object_move_done then some s
    else
      let stop_cond := inp.object_move_stop
      if !ndebug && decide (stop_cond = Stop.OKAY) then none
      else
        let s1 := { s with m_object_move := none }
        match stop_cond with
        | Stop.AT_TARGET => some { s1 with timer_active := false, m_done := true }
        | Stop.WRONG_SIDE => some { s1 with m_state := State.REQUIRE_READY_MOVE }
        | Stop.EXCEEDED_NORM => some { s1 with m_state := State.REQUIRE_CORRECTION }
        | Stop.OKAY => some s1

/-- Source `do_require_correction` (objectline.cpp:138). -/
def do_require_correction (inp : tick_input) (s : object_line) : object_line :=
  let correction_dir :=
    match s.m_dir with
    | nrg.dir.RIGHT | nrg.dir.LEFT =>
      if inp.object_center_y < s.m_base then nrg.dir.DOWN else nrg.dir.UP
    | nrg.dir.DOWN | nrg.dir.UP =>
      if inp.object_center_x < s.m_base then nrg.dir.RIGHT else nrg.dir.LEFT
  { s with m_correction_dir := correction_dir
           m_state := State.REQUIRE_CORRECTION_READY_MOVE }

/-- Source `do_require_correction_ready_move` (objectline.cpp:157). -/
def do_require_correction_ready_move (move_dir_to_side : nrg.dir → nrg.dir)
    (s : object_line) : object_line :=
  let side_dir := move_dir_to_side s.m_correction_dir
  { s with m_ready_move := some { side_dir := side_dir, started := true }
           m_state := State.DOING_CORRECTION_READY_MOVE }

/-- Source `do_doing_correction_ready_move` (objectline.cpp:164). -/
def do_doing_correction_ready_move (inp : tick_input) (s : object_line) :
    Option object_line :=
  match s.m_ready_move with
  | none => none
  | some _ =>
    if inp.ready_move_done then
      some { s with m_ready_move := none, m_state := State.REQUIRE_CORRECTION_OBJECT_MOVE }
    else some s

/-- Source `do_require_correction_object_move` (objectline.cpp:174). -/
def do_require_correction_object_move (s : object_line) : object_line :=
  { s with m_object_move := some { dir := s.m_correction_dir, target := s.m_base,
                                    norm_base := 0, norm_dev := 10000, started := true }
           m_state := State.DOING_CORRECTION_OBJECT_MOVE }

/-- Source `do_doing_correction_object_move` (objectline.cpp:185). -/
def do_doing_correction_object_move (ndebug : Bool) (inp : tick_input) (s : object_line) :
    Option object_line :=
  match s.m_object_move with
  | none => none
  | some _ =>
    if !inp.object_move_done then some s
    else
      let stop_cond := inp.object_move_stop
      if !ndebug && (decide (stop_cond = Stop.OKAY) || decide (stop_cond = Stop.EXCEEDED_NORM))
      then none
      else some { s with m_object_move := none, m_state := State.REQUIRE_READY_MOVE }

/-- The four flags tested at objectline.cpp:40-45 are all set. -/
def fresh_valid (inp : tick_input) : Bool :=
  inp.robot_box_fresh && inp.robot_box_valid && inp.object_box_fresh && inp.object_box_valid

/-- Source `ObjectLine::movement_loop` (objectline.cpp:38): one tick.  `none` means
that the tick did not run to its end (failed assertion or null handle). -/
def movement_loop (ndebug : Bool) (move_dir_to_side : nrg.dir → nrg.dir)
    (inp : tick_input) (s : object_line) : Option object_line :=
  if !inp.robot_box_fresh || !inp.robot_box_valid ||
      !inp.object_box_fresh || !inp.object_box_valid then some s
  else
    match s.m_state with
    | State.REQUIRE_READY_MOVE => some (do_require_ready_move move_dir_to_side s)
    | State.DOING_READY_MOVE => do_doing_ready_move inp s
    | State.REQUIRE_OBJECT_MOVE => some (do_require_object_move s)
    | State.DOING_OBJECT_MOVE => do_doing_object_move ndebug inp s
    | State.REQUIRE_CORRECTION => some (do_require_correction inp s)
    | State.REQUIRE_CORRECTION_READY_MOVE =>
      some (do_require_correction_ready_move move_dir_to_side s)
    | State.DOING_CORRECTION_READY_MOVE => do_doing_correction_ready_move inp s
    | State.REQUIRE_CORRECTION_OBJECT_MOVE => some (do_require_correction_object_move s)
    | State.DOING_CORRECTION_OBJECT_MOVE => do_doing_correction_object_move ndebug inp s

/-- The state after the first `n` ticks of the sequence `inputs`, from `s`. -/
def state_at (ndebug : Bool) (move_dir_to_side : nrg.dir → nrg.dir)
    (inputs : Nat → tick_input) (s : object_line) : Nat → Option object_line
  | 0 => some s
  | n + 1 =>
    match state_at ndebug move_dir_to_side inputs s n with
    | none => none
    | some s1 => movement_loop ndebug move_dir_to_side (inputs n) s1

/-- The state after the ticks of a finite list of inputs, from `s`. -/
def run (ndebug : Bool) (move_dir_to_side : nrg.dir → nrg.dir) :
    List tick_input → object_line → Option object_line
  | [], s => some s
  | inp :: rest, s =>
    match movement_loop ndebug move_dir_to_side inp s with
    | none => none
    | some s1 => run ndebug move_dir_to_side rest s1

/-- The state that follows in the correction sequence, for the five correction
states. -/
def correction_next : State → Option State
  | State.REQUIRE_CORRECTION => some State.REQUIRE_CORRECTION_READY_MOVE
  | State.REQUIRE_CORRECTION_READY_MOVE => some State.DOING_CORRECTION_READY_MOVE
  | State.DOING_CORRECTION_READY_MOVE => some State.REQUIRE_CORRECTION_OBJECT_MOVE
  | State.REQUIRE_CORRECTION_OBJECT_MOVE => some State.DOING_CORRECTION_OBJECT_MOVE
  | State.DOING_CORRECTION_OBJECT_MOVE => some State.REQUIRE_READY_MOVE
  | _ => none

/-- The four states of a run without correction. -/
def plain_state (st : State) : Bool :=
  decide (st = State.REQUIRE_READY_MOVE) || decide (st = State.DOING_READY_MOVE) ||
  decide (st = State.REQUIRE_OBJECT_MOVE) || decide (st = State.DOING_OBJECT_MOVE)

/-- The contract of `ObjectMove` the assertions of the source state: a finished
`ObjectMove` does not report `OKAY`. -/
def stop_contract (inp : tick_input) : Prop :=
  inp.object_move_done = true → inp.object_move_stop ≠ Stop.OKAY

/-- The correspondence between the state and the two handles.  While `m_done`
is false, the ready-move handle is non-null exactly in `DOING_READY_MOVE` and
`DOING_CORRECTION_READY_MOVE`, and the object-move handle is non-null exactly
in `DOING_OBJECT_MOVE` and `DOING_CORRECTION_OBJECT_MOVE`.  Once `m_done` is
set, the state is `DOING_OBJECT_MOVE` and both handles are null. -/
def handles_inv (s : object_line) : Prop :=
  (s.m_done = false →
    (s.m_ready_move ≠ none ↔ (s.m_state = State.DOING_READY_MOVE ∨
      s.m_state = State.DOING_CORRECTION_READY_MOVE)) ∧
    (s.m_object_move ≠ none ↔ (s.m_state = State.DOING_OBJECT_MOVE ∨
      s.m_state = State.DOING_CORRECTION_OBJECT_MOVE))) ∧
  (s.m_done = true → s.m_state = State.DOING_OBJECT_MOVE ∧ s.m_ready_move = none ∧
    s.m_object_move = none)

/-- An input with all flags set, on which every sub-procedure reports done and
the `ObjectMove` reports `AT_TARGET`. -/
def input_at_target : tick_input :=
  { robot_box_fresh := true, robot_box_valid := true, object_box_fresh := true,
    object_box_valid := true, object_center_x := 0, object_center_y := 0,
    ready_move_done := true, object_move_done := true, object_move_stop := Stop.AT_TARGET }

/-- As `input_at_target`, the `ObjectMove` reporting `EXCEEDED_NORM`. -/
def input_exceeded : tick_input :=
  { input_at_target with object_move_stop := Stop.EXCEEDED_NORM }

end ObjectLine

namespace Procedure

/-! ## `procedure.cpp` -/

/-- The `vector2d` of the source.  A coordinate is a `double`; every finite
`double` is a rational number, and the coordinates are such numbers. -/
structure vector2d where
  x : Rat
  y : Rat
deriving DecidableEq, Repr

/-- Source `Procedure::Impl` (procedure.cpp:36) together with `Procedure::m_done`.
`timer_active` is the state of `Impl::timer`. -/
structure procedure where
  loc_accept : Rat
  norm_dev : Rat
  path : List vector2d
  initial : vector2d
  index : Nat
  timer_active : Bool
  m_done : Bool
deriving DecidableEq, Repr

/-- What one call of `movement_loop` reads from outside the object: whether
`m_sol` has expired, the two flags of the robot box, and the centre of the
robot box. -/
structure tick_input where
  sol_expired : Bool
  robot_box_fresh : Bool
  robot_box_valid : Bool
  center : vector2d
deriving DecidableEq, Repr

/-- What a tick sends out: the signal `finished()`, or `sol->move({x, y})`. -/
inductive event where
  | finished
  | move (x y : Int)
deriving DecidableEq, Repr

/-- The constructor (procedure.cpp:51, 60): `index` is 0, `m_done` is false.
`initial` is only set by `start()`; `garbage` stands for what it holds before. -/
def init (path : List vector2d) (loc_accept norm_dev : Rat) (garbage : vector2d) : procedure :=
  { loc_accept := loc_accept, norm_dev := norm_dev, path := path, initial := garbage,
    index := 0, timer_active := false, m_done := false }

/-- Source `Procedure::start` (procedure.cpp:96). -/
def start (robot_center : vector2d) (s : procedure) : procedure :=
  { s with timer_active := true, initial := robot_center }

/-- The arithmetic on `double` that `movement_loop` relies on and that
`procedure.cpp` does not define.  Each result is rounded to a `double`; the
fields stand for the operations as the machine and the libraries carry them
out, and nothing is assumed of their rounding.  Comparisons, `fabs` and the
conversion to `int` are exact on `double`s and need no field. -/
structure double_ops where
  /-- The difference `a - b` of two `double`s. -/
  sub : Rat → Rat → Rat
  /-- The product `a * b` of two `double`s. -/
  mul : Rat → Rat → Rat
  /-- The function `hypot` of the C library. -/
  hypot : Rat → Rat → Rat
  /-- The member `norm_sq()` of `vector2d` (utility code). -/
  norm_sq : vector2d → Rat

/-- The `operator-` of `vector2d`: the difference of each coordinate. -/
def vec_sub (fp : double_ops) (a b : vector2d) : vector2d :=
  ⟨fp.sub a.x b.x, fp.sub a.y b.y⟩

/-- Source `static_cast<int>` of a `double`: the fraction is dropped. -/
def to_int (p : Rat) : Int :=
  if 0 ≤ p then Int.floor p else Int.ceil p

/-- Source `move_right` (procedure.cpp:175): the move is sent when `m_sol.lock()` succeeds. -/
def move_right (inp : tick_input) (estimated_power : Rat) : List event :=
  if inp.sol_expired then [] else [event.move (to_int estimated_power) 0]

/-- Source `move_left` (procedure.cpp:183). -/
def move_left (inp : tick_input) (estimated_power : Rat) : List event :=
  if inp.sol_expired then [] else [event.move (-(to_int estimated_power)) 0]

/-- Source `move_up` (procedure.cpp:191). -/
def move_up (inp : tick_input) (estimated_power : Rat) : List event :=
  if inp.sol_expired then [] else [event.move 0 (-(to_int estimated_power))]

/-- Source `move_down` (procedure.cpp:199). -/
def move_down (inp : tick_input) (estimated_power : Rat) : List event :=
  if inp.sol_expired then [] else [event.move 0 (to_int estimated_power)]

/-- Source `Procedure::movement_loop` (procedure.cpp:116): one tick, giving the next
state and what was sent out.  The arithmetic on `double` and
`algo::perp_intersect` are arguments.  `none` means that `path` was read outside
its bounds.  The status labels written at lines 141, 148 and 154 are a display
sink and are left out. -/
def movement_loop (fp : double_ops)
    (perp_intersect : vector2d → vector2d → vector2d → vector2d)
    (inp : tick_input) (s : procedure) : Option (procedure × List event) :=
  if decide (s.index = s.path.length) || inp.sol_expired then
    some ({ s with timer_active := false, m_done := true }, [event.finished])
  else if !inp.robot_box_fresh || !inp.robot_box_valid then some (s, [])
  else
    let center := inp.center
    match s.path[s.index]? with
    | none => none
    | some target =>
      match (if s.index > 0 then s.path[s.index - 1]? else some s.initial) with
      | none => none
      | some source =>
        let err_x := fp.sub target.x center.x
        let err_y := fp.sub target.y center.y
        if fp.hypot err_x err_y < s.loc_accept then
          some ({ s with index := s.index + 1 }, [])
        else
          let intersect := perp_intersect center source target
          let norm_diff : vector2d := vec_sub fp intersect center
          let norm_diff_sq := fp.norm_sq norm_diff
          let over := decide (norm_diff_sq > fp.mul s.norm_dev s.norm_dev)
          let target1 := if over then intersect else target
          let err_x1 := if over then norm_diff.x else err_x
          let err_y1 := if over then norm_diff.y else err_y
          if |err_x1| > |err_y1| then
            let estimated_power := |err_x1|
            if target1.x > center.x then some (s, move_right inp estimated_power)
            else some (s, move_left inp estimated_power)
          else
            let estimated_power := |err_y1|
            if target1.y > center.y then some (s, move_down inp estimated_power)
            else some (s, move_up inp estimated_power)

/-- The ticks of a list of inputs, from `s`: the last state and all that was
sent out, in order. -/
def run (fp : double_ops) (perp_intersect : vector2d → vector2d → vector2d → vector2d) :
    List tick_input → procedure → Option (procedure × List event)
  | [], s => some (s, [])
  | inp :: rest, s =>
    match movement_loop fp perp_intersect inp s with
    | none => none
    | some (s1, ev) =>
      match run fp perp_intersect rest s1 with
      | none => none
      | some (s2, ev2) => some (s2, ev ++ ev2)

/-- The segment start of procedure.cpp:136: the previous waypoint, or the
initial position for the first waypoint. -/
def source_of (s : procedure) : Option vector2d :=
  if s.index > 0 then s.path[s.index - 1]? else some s.initial

/-- The error the move of a tick is computed from (procedure.cpp:139-159), as
the code computes it: `intersect - center` when `norm_sq()` of that difference
exceeds `norm_dev * norm_dev`, and `target - center` otherwise. -/
def effective_error (fp : double_ops)
    (perp_intersect : vector2d → vector2d → vector2d → vector2d)
    (norm_dev : Rat) (center source target : vector2d) : vector2d :=
  let intersect := perp_intersect center source target
  let norm_diff : vector2d := vec_sub fp intersect center
  if fp.norm_sq norm_diff > fp.mul norm_dev norm_dev then norm_diff
  else vec_sub fp target center

/-- The difference of two `double`s is not negative when the first is the
larger, and not positive when it is not: rounding keeps the order. -/
def sub_keeps_sign (fp : double_ops) : Prop :=
  ∀ a b : Rat, (b < a → 0 ≤ fp.sub a b) ∧ (a ≤ b → fp.sub a b ≤ 0)

/-- The nearest integer, the even one of the two when `q` is half-way. -/
def round_even (q : Rat) : Int :=
  if q - Int.floor q < 1 / 2 then Int.floor q
  else if 1 / 2 < q - Int.floor q then Int.floor q + 1
  else if Int.floor q % 2 = 0 then Int.floor q else Int.floor q + 1

/-- The exponent of the unit in the last place of the `double`s around `q`:
53 significant bits, and no exponent below that of the subnormal numbers. -/
def ulp_exp (q : Rat) : Int := max (Int.log 2 |q| - 52) (-1074)

/-- The `double` an exact result is rounded to (IEEE 754 binary64, to nearest,
ties to even: the mode a C program runs in).  The overflow to infinity, from
2^1024 on, is not modelled. -/
def round_double (q : Rat) : Rat := round_even (q / 2 ^ ulp_exp q) * 2 ^ ulp_exp q

/-- The arithmetic of the machine: `-` and `*` are the exact results rounded.
`hypot` and `norm_sq` are library code and stay arguments. -/
def ieee_ops (hypot : Rat → Rat → Rat) (norm_sq : vector2d → Rat) : double_ops :=
  { sub := fun a b => round_double (a - b), mul := fun a b => round_double (a * b),
    hypot := hypot, norm_sq := norm_sq }

/-- The exact Euclidean distance between the two points is strictly below `r`:
the condition as the specification words it, for comparison with the test of
procedure.cpp:144. -/
def euclidean_distance_lt (target center : vector2d) (r : Rat) : Prop :=
  Real.sqrt (((target.x - center.x : Rat) : Real) ^ 2 +
    ((target.y - center.y : Rat) : Real) ^ 2) < (r : Real)

/-- The event is a motion command. -/
def is_move : event → Bool
  | event.move _ _ => true
  | event.finished => false

/-- A stand-in for `algo::perp_intersect` in the examples: the target itself. -/
def perp_target (_center _source target : vector2d) : vector2d := target

/-- A stand-in for `hypot` in the examples.  It is the Euclidean norm when one
of the two arguments is 0, as in the examples; elsewhere it is the sum of the
magnitudes. -/
def hypot_axis (x y : Rat) : Rat :=
  if y = 0 then |x| else if x = 0 then |y| else |x| + |y|

/-- A stand-in for `norm_sq()` in the examples: the sum of the squares, each
operation rounded. -/
def norm_sq_rounded (v : vector2d) : Rat :=
  round_double (round_double (v.x * v.x) + round_double (v.y * v.y))

/-- The arithmetic of the examples. -/
def ops_example : double_ops := ieee_ops hypot_axis norm_sq_rounded

/-- A controller that has walked its one-point path and not yet noticed. -/
def procedure_at_end : procedure :=
  { loc_accept := 1, norm_dev := 1, path := [⟨0, 0⟩], initial := ⟨0, 0⟩,
    index := 1, timer_active := true, m_done := false }

/-- A controller on its way to the one point of its path. -/
def procedure_on_way : procedure :=
  { loc_accept := 1, norm_dev := 1, path := [⟨0, 0⟩], initial := ⟨5, 0⟩,
    index := 0, timer_active := true, m_done := false }

/-- A tick on which the robot box is not fresh. -/
def input_stale : tick_input :=
  { sol_expired := false, robot_box_fresh := false, robot_box_valid := true, center := ⟨3, 0⟩ }

/-- A fresh and valid tick with the robot at the waypoint. -/
def input_reached : tick_input :=
  { sol_expired := false, robot_box_fresh := true, robot_box_valid := true, center := ⟨0, 0⟩ }

/-- A fresh and valid tick with the robot off the waypoint, to its right. -/
def input_far : tick_input :=
  { sol_expired := false, robot_box_fresh := true, robot_box_valid := true,
    center := ⟨7 / 2, 0⟩ }

/-- A controller whose one waypoint is (1.1, 1), the abscissa being the `double`
nearest to 1.1, and that started from (0.1, 0), the abscissa being the `double`
nearest to 0.1; acceptance radius 1, deviation 1. -/
def procedure_tenth : procedure :=
  { loc_accept := 1, norm_dev := 1,
    path := [⟨2476979795053773 / 2251799813685248, 1⟩],
    initial := ⟨3602879701896397 / 36028797018963968, 0⟩,
    index := 0, timer_active := true, m_done := false }

/-- A fresh and valid tick with the robot still at (0.1, 0), where it started. -/
def input_tenth : tick_input :=
  { sol_expired := false, robot_box_fresh := true, robot_box_valid := true,
    center := ⟨3602879701896397 / 36028797018963968, 0⟩ }

end Procedure

namespace Actuator

/-! ## `actuator.cpp`

`BYTE_RANGE`, `STEP_FACTOR` and `ZaberCmd::REL_MOVE` come from `actuator.h` and
are arguments here.  An `int` is a 32-bit integer: a product that does not fit
is undefined behaviour and makes the result `none`.  A `char` is an 8-bit
signed integer; what the serial port transmits is its bit pattern, a byte. -/

/-- Modelled from the spec: `DATA_SIZE` of `actuator.h`; the step count is
decomposed "into 4 positional digits". -/
def DATA_SIZE : Nat := 4

/-- Modelled from the spec: `CMD_SIZE` of `actuator.h`; the frame is
`[device_id, relative-move-opcode, 4-byte signed step-count]`, two bytes
before the data. -/
def CMD_SIZE : Nat := 2

/-- The value fits an `int`. -/
def int_range (x : Int) : Bool :=
  decide (-2147483648 ≤ x) && decide (x ≤ 2147483647)

/-- Multiplication of two `int`s; `none` when the product does not fit. -/
def int_mul (a b : Int) : Option Int :=
  if int_range (a * b) then some (a * b) else none

/-- Conversion of an integer to `char`: the value modulo 256, in -128 .. 127. -/
def to_char (x : Int) : Int :=
  (x + 128) % 256 - 128

/-- The byte a `char` is transmitted as: its value modulo 256, in 0 .. 255. -/
def to_byte (c : Int) : Int :=
  c % 256

/-- Source `Actuator::intPow` (actuator.cpp:57), for the exponents it is called
with, which are not negative. -/
def intPow (x : Int) (p : Nat) : Option Int :=
  if p = 0 then some 1
  else if p = 1 then some x
  else
    match intPow x (p / 2) with
    | none => none
    | some tmp =>
      if p % 2 = 0 then int_mul tmp tmp
      else
        match int_mul x tmp with
        | none => none
        | some t => int_mul t tmp
termination_by p
decreasing_by omega

/-- The test and assignment of actuator.cpp:33-35. -/
def fold_negative (byte_range : Int) (data : Int) : Option Int :=
  if data < 0 then
    match intPow byte_range 4 with
    | none => none
    | some q => some (q + data)
  else some data

/-- The loop of actuator.cpp:39-43, entered with `i = n - 1`: the content of
`result[0 .. n - 1]` when it ends.  `none` when `intPow` or the product
overflows, or when `temp` is zero. -/
def convert_loop (byte_range : Int) : Nat → Int → Option (List Int)
  | 0, _ => some []
  | i + 1, data =>
    match intPow byte_range i with
    | none => none
    | some temp =>
      if temp = 0 then none
      else
        let digit := to_char (Int.tdiv data temp)
        match int_mul temp digit with
        | none => none
        | some prod =>
          match convert_loop byte_range i (data - prod) with
          | none => none
          | some rest => some (rest ++ [digit])

/-- Source `Actuator::convertDataToBytes` (actuator.cpp:32): the content of the
array `result`, index 0 first.  (The source returns the address of this local
array.) -/
def convertDataToBytes (byte_range : Int) (data : Int) : Option (List Int) :=
  match fold_negative byte_range data with
  | none => none
  | some data1 => convert_loop byte_range DATA_SIZE data1

/-- The decoding of four digits in radix `r`, the lowest first; the sum stands
for a negative value when it reaches half of `r ^ 4`. -/
def decode (r : Int) (digits : List Int) : Int :=
  let sum := digits.getD 0 0 + digits.getD 1 0 * r + digits.getD 2 0 * r ^ 2 +
    digits.getD 3 0 * r ^ 3
  if 2 * sum ≥ r ^ 4 then sum - r ^ 4 else sum

/-- The number a list of digits stands for in radix `r`, the lowest digit first. -/
def digits_value (r : Int) : List Int → Int
  | [] => 0
  | d :: ds => d + r * digits_value r ds

/-- What a call of `moveActuator` has done when it is left. -/
structure move_trace where
  /-- The value of `sleep_step`, in milliseconds. -/
  sleep_step : Int
  /-- The frames handed to `m_serial_port->write`, in order, as bytes. -/
  frames : List (List Int)
  /-- The number of calls of `sleep_for`. -/
  sleeps : Nat
  /-- The call was left by the exception of actuator.cpp:165. -/
  failed : Bool
deriving DecidableEq, Repr

/-- The loop of actuator.cpp:159-169 with `n` iterations to go; `step` counts
the iterations done, and `is_open step` is what `isOpen()` answers then.
It gives the frames written, the number of sleeps, and whether it threw. -/
def send_loop (frame : List Int) (is_open : Nat → Bool) : Nat → Nat → List (List Int) × Nat × Bool
  | 0, _ => ([], 0, false)
  | n + 1, step =>
    if is_open step then
      let r := send_loop frame is_open n (step + 1)
      (frame :: r.1, r.2.1 + 1, r.2.2)
    else ([], 0, true)

/-- A block of chars in memory, and whether its lifetime still runs. -/
structure char_block where
  cells : List Int
  alive : Bool
deriving DecidableEq, Repr

/-- Source `new char(n)` (actuator.cpp:146): one char, which holds `n`.  (An
array of `n` chars would be `new char[n]`.) -/
def new_char (n : Int) : char_block :=
  { cells := [to_char n], alive := true }

/-- The assignment `block[i] = c`; `none`, undefined behaviour, outside the
block or after the end of its lifetime. -/
def block_write (b : char_block) (i : Nat) (c : Int) : Option char_block :=
  if b.alive && decide (i < b.cells.length) then some { b with cells := b.cells.set i c }
  else none

/-- The read `block[i]`; `none`, undefined behaviour, outside the block or
after the end of its lifetime. -/
def block_read (b : char_block) (i : Nat) : Option Int :=
  if b.alive then b.cells[i]? else none

/-- What `convertDataToBytes` returns (actuator.cpp:45): the address of its
local array `result`, whose lifetime ends with the call. -/
def convertDataToBytes_result (byte_range : Int) (data : Int) : Option char_block :=
  match convertDataToBytes byte_range data with
  | none => none
  | some l => some { cells := l, alive := false }

/-- The loop of actuator.cpp:154-156 from index `i` on, `n` chars to go:
`instr[i + 2] = data[i]`. -/
def copy_data (data : char_block) : Nat → Nat → char_block → Option char_block
  | 0, _, instr => some instr
  | n + 1, i, instr =>
    match block_read data i with
    | none => none
    | some c =>
      match block_write instr (i + 2) c with
      | none => none
      | some instr1 => copy_data data n (i + 1) instr1

/-- Lines 146-156 of `moveActuator` under the rules of the language: the
allocation of `instr` and the writes that fill it.  `none` is undefined
behaviour. -/
def fill_instr (byte_range step_factor rel_move device : Int) : Option char_block :=
  match block_write (new_char (CMD_SIZE + DATA_SIZE)) 0 (to_char device) with
  | none => none
  | some i0 =>
    match block_write i0 1 (to_char rel_move) with
    | none => none
    | some i1 =>
      match convertDataToBytes_result byte_range step_factor with
      | none => none
      | some data => copy_data data DATA_SIZE 0 i1

/-- Source `Actuator::moveActuator` (actuator.cpp:140), from `sleep_step` to the
loop that sends the frames, on an implementation on which the writes to
`instr` and the reads of `data` act as on arrays of `CMD_SIZE + DATA_SIZE` and
of `DATA_SIZE` chars: under the rules of the language they are undefined, see
`fill_instr`.  `none` when `convertDataToBytes(STEP_FACTOR)` is undefined. -/
def moveActuator (byte_range step_factor rel_move : Int) (is_open : Nat → Bool)
    (device value time : Int) : Option move_trace :=
  let sleep_step := if value ≠ 0 then Int.tdiv time value else 0
  match convertDataToBytes byte_range step_factor with
  | none => none
  | some data =>
    let instr := [to_char device, to_char rel_move] ++ data
    let r := send_loop (instr.map to_byte) is_open value.toNat 0
    some { sleep_step := sleep_step, frames := r.1, sleeps := r.2.1, failed := r.2.2 }

end Actuator

namespace nrg

/-! ## `astar.cpp`: the terrain reads and the cost field -/

/-- The cells whose terrain value the body of the `for` loop of `search_path`
(astar.cpp:94-101) reads for the neighbour `next`: `terrain[next.x()][next.y()]`
in the test of line 95, and once more in `new_cost` when the test holds. -/
def relax_reads (terrain : array2d) (next : vector2i) : List vector2i :=
  if terrain.get next.x next.y ≠ TERRAIN_WALL then [next, next] else [next]

/-- The cells whose terrain value is read while `cur` is expanded
(astar.cpp:91-102). -/
def expand_reads (terrain : array2d) (cur : vector2i) : List vector2i :=
  (get_neighbors cur terrain.x terrain.y).foldr (fun next acc => relax_reads terrain next ++ acc) []

/-- The cells whose terrain value the `while` loop of `search_path` reads, in
order, in its first `fuel` iterations from the state `st`. -/
def search_reads (lt : vector2i → vector2i → Bool) (terrain : array2d) (dest : vector2i) :
    Nat → search_state → List vector2i
  | 0, _ => []
  | fuel + 1, st =>
    match set_begin lt st.open_set with
    | none => []
    | some b =>
      let st1 := { st with open_set := st.open_set.erase b }
      if b.2 = dest then []
      else expand_reads terrain b.2 ++
        search_reads lt terrain dest fuel (expand terrain dest b.2 st1)

/-- The cells whose terrain value a call of `search_path` reads in the first
`fuel` iterations of its loop; `backtrack` reads none. -/
def search_path_reads (lt : vector2i → vector2i → Bool) (fuel : Nat) (terrain : array2d)
    (start dest : vector2i) : List vector2i :=
  search_reads lt terrain dest fuel (search_init start)

/-- Assignment `a[i][j] = v` on an `array2d`. -/
def array_set (a : array2d) (i j : Int) (v : Int) : array2d :=
  { a with get := fun p q => if p = i ∧ q = j then v else a.get p q }

/-- The inner `for` loop of `kernelize` (astar.cpp:149-158) for the row `x`. -/
def kernelize_row (source : array2d) (wall : Int) (x : Nat) (target : array2d) : array2d :=
  (List.range source.y).foldl
    (fun (t : array2d) (y : Nat) =>
      if source.get x y = wall then array_set t x y TERRAIN_WALL else t) target

/-- Source `kernelize` (astar.cpp:138): the content of `target` when it returns.
The call of `apply_kernel` is commented out in the source, and the three
penalties are not used.  `ndebug` tells whether the assertions are compiled
out; `none`: failed assertion. -/
def kernelize (ndebug : Bool) (source target : array2d) (wall wp0 wp1 wp2 : Int) :
    Option array2d :=
  if !ndebug && !(decide (source.x = target.x) && decide (source.y = target.y)) then none
  else some ((List.range source.x).foldl
    (fun (t : array2d) (x : Nat) => kernelize_row source wall x t) target)

/-- What `grid_kernelize` reads of the `GridDisplay`. -/
structure grid_display where
  num_cols : Nat
  num_rows : Nat
  selected : array2d

/-- The `memcpy` of astar.cpp:173: the first `my` cells of row `x` of `selected`
are copied to `source`. -/
def copy_row (selected : array2d) (my : Nat) (x : Nat) (source : array2d) : array2d :=
  { source with get := fun p q => if p = x ∧ 0 ≤ q ∧ q < my then selected.get p q
                                    else source.get p q }

/-- Source `nrg::grid_kernelize` (astar.cpp:161).  The class `array2d` is not part of
`astar.cpp`: `fresh_source` and `fresh_terrain` stand for the content of the
two arrays its constructor has made.  `wall` is `GridDisplay::DEFAULT_WEIGHT`, and
`wp0`, `wp1`, `wp2` are the three penalties of the `param_manager`. -/
def grid_kernelize (ndebug : Bool) (fresh_source fresh_terrain : Int → Int → Int)
    (wall wp0 wp1 wp2 : Int) (grid : grid_display) : Option array2d :=
  let mx := grid.num_cols
  let my := grid.num_rows
  let source : array2d := { x := mx, y := my, get := fresh_source }
  let terrain : array2d := { x := mx, y := my, get := fresh_terrain }
  let source1 := (List.range mx).foldl
    (fun (s : array2d) (x : Nat) => copy_row grid.selected my x s) source
  kernelize ndebug source1 terrain wall wp0 wp1 wp2

/-- A 3 x 3 terrain in which every cell carries the cost `c`. -/
def uniform_terrain (c : Int) : array2d := { x := 3, y := 3, get := fun _ _ => c }

/-- A grid of one cell that holds `v`. -/
def grid_one (v : Int) : grid_display :=
  { num_cols := 1, num_rows := 1, selected := { x := 1, y := 1, get := fun _ _ => v } }

/-- A grid of 2 x 2 cells: the cell (0, 0) holds -1, the others hold 7. -/
def grid_two : grid_display :=
  { num_cols := 2, num_rows := 2,
    selected := { x := 2, y := 2, get := fun p q => if p = 0 ∧ q = 0 then -1 else 7 } }

/-! ### Vocabulary of the search on a terrain without costs -/

/-- The cell `v` has been taken from the open set: it has a recorded cost, no
entry of the open set is an entry of `v`, and its distance to `dest` is above
the level `k`. -/
def popped (dest : vector2i) (st : search_state) (k : Int) (v : vector2i) : Prop :=
  st.cost v ≠ none ∧ (∀ f, (f, v) ∉ st.open_set) ∧ k < manhattan_dist v dest

/-- Loop invariant of `search_path` on a terrain whose cells all cost 0, where
the key of an entry of the open set is the distance of its cell to `dest`.
The cells taken from the open set so far lie at distances above `k`, one
parent link leads from each of them to the next distance up, and every other
cell with a recorded cost waits in the open set at a distance of at least `k`. -/
structure level_inv (T : array2d) (start dest : vector2i) (st : search_state) (k : Int) :
    Prop where
  cost0 : ∀ v c, st.cost v = some c → c = 0 ∧ in_bounds T v = true
  nodup : st.open_set.Nodup
  opn : ∀ e ∈ st.open_set, st.cost e.2 ≠ none ∧ e.1 = manhattan_dist e.2 dest ∧ k ≤ e.1
  par : ∀ v, st.cost v ≠ none → v ≠ start →
    ∃ p, st.parent v = some p ∧ adjacent p v = true ∧ popped dest st k p
  up : ∀ v, popped dest st k v → v ≠ start →
    ∃ p, st.parent v = some p ∧ manhattan_dist p dest = manhattan_dist v dest + 1 ∧
      popped dest st k p
  kept : ∀ v, st.cost v ≠ none →
    popped dest st k v ∨ (manhattan_dist v dest, v) ∈ st.open_set

/-! ## `astar.cpp`: the scaling of a path, and the parent links -/

/-- The body of the `for` loop of `scale_path_pixels` (astar.cpp:201-204) for one
waypoint: `v.x()` is assigned first, then `v.y()`. -/
def scale_cell (b b2 gx gy : Int) (v : vector2i) : vector2i :=
  let v1 : vector2i := { v with x := gx + b2 + v.x * b }
  { v1 with y := gy + b2 + v1.y * b }

/-- The `for` loop of `scale_path_pixels` over the vector `path`, front to back. -/
def scale_loop (b b2 gx gy : Int) : List vector2i → List vector2i
  | [] => []
  | v :: vs => scale_cell b b2 gx gy v :: scale_loop b b2 gx gy vs

/-- Source `nrg::scale_path_pixels` (astar.cpp:193): the content of `path` when it
returns.  `b` is `GridDisplay::GRID_SIZE`, which `griddisplay.h` defines, and
`gx`, `gy` are `grid->x()` and `grid->y()`; `b / 2` is the division of `int`,
which truncates. -/
def scale_path_pixels (b gx gy : Int) (path : List vector2i) : List vector2i :=
  let b2 := Int.tdiv b 2
  scale_loop b b2 gx gy path

/-- The cell reached from `v` by `n` steps along the `parent` links, each step
being `parent.at(cur)`; `none` when a link is missing on the way. -/
def follow (parent : vector2i → Option vector2i) : Nat → vector2i → Option vector2i
  | 0, v => some v
  | n + 1, v =>
    match parent v with
    | none => none
    | some p => follow parent n p

/-- The walk of `backtrack` from `v` meets `start` after exactly `n` links. -/
inductive Depth (parent : vector2i → Option vector2i) (start : vector2i) :
    vector2i → Nat → Prop
  | zero : Depth parent start start 0
  | step {v p : vector2i} {n : Nat} : v ≠ start → parent v = some p →
      Depth parent start p n → Depth parent start v (n + 1)

end nrg

namespace ObjectLine

/-! ## `objectline.cpp`: the transition table -/

/-- The handle that the handler of the current state dereferences is not null. -/
def handle_live (s : object_line) : Bool :=
  match s.m_state with
  | State.DOING_READY_MOVE => s.m_ready_move.isSome
  | State.DOING_CORRECTION_READY_MOVE => s.m_ready_move.isSome
  | State.DOING_OBJECT_MOVE => s.m_object_move.isSome
  | State.DOING_CORRECTION_OBJECT_MOVE => s.m_object_move.isSome
  | _ => true

/-- The assertions on the stop condition hold on this tick
(objectline.cpp:118 and objectline.cpp:194-195): a finished `ObjectMove` does
not report `OKAY`, nor `EXCEEDED_NORM` during the correction. -/
def stop_asserts (inp : tick_input) (s : object_line) : Bool :=
  match s.m_state with
  | State.DOING_OBJECT_MOVE =>
    !inp.object_move_done || decide (inp.object_move_stop ≠ Stop.OKAY)
  | State.DOING_CORRECTION_OBJECT_MOVE =>
    !inp.object_move_done ||
      (decide (inp.object_move_stop ≠ Stop.OKAY) &&
        decide (inp.object_move_stop ≠ Stop.EXCEEDED_NORM))
  | _ => true

/-- The transition table in the words of the specification: the state that
follows `st` on a tick with fresh and valid boxes.  On `AT_TARGET` the run is
done and the state stays. -/
def table_state (inp : tick_input) (st : State) : State :=
  match st with
  | State.REQUIRE_READY_MOVE => State.DOING_READY_MOVE
  | State.DOING_READY_MOVE =>
    if inp.ready_move_done then State.REQUIRE_OBJECT_MOVE else State.DOING_READY_MOVE
  | State.REQUIRE_OBJECT_MOVE => State.DOING_OBJECT_MOVE
  | State.DOING_OBJECT_MOVE =>
    if inp.object_move_done then
      match inp.object_move_stop with
      | Stop.WRONG_SIDE => State.REQUIRE_READY_MOVE
      | Stop.EXCEEDED_NORM => State.REQUIRE_CORRECTION
      | _ => State.DOING_OBJECT_MOVE
    else State.DOING_OBJECT_MOVE
  | State.REQUIRE_CORRECTION => State.REQUIRE_CORRECTION_READY_MOVE
  | State.REQUIRE_CORRECTION_READY_MOVE => State.DOING_CORRECTION_READY_MOVE
  | State.DOING_CORRECTION_READY_MOVE =>
    if inp.ready_move_done then State.REQUIRE_CORRECTION_OBJECT_MOVE
    else State.DOING_CORRECTION_READY_MOVE
  | State.REQUIRE_CORRECTION_OBJECT_MOVE => State.DOING_CORRECTION_OBJECT_MOVE
  | State.DOING_CORRECTION_OBJECT_MOVE =>
    if inp.object_move_done then State.REQUIRE_READY_MOVE
    else State.DOING_CORRECTION_OBJECT_MOVE

/-- The run is done after the tick, by the table: it was done before, or a
finished `ObjectMove` reports `AT_TARGET` in `DOING_OBJECT_MOVE`. -/
def table_done (inp : tick_input) (s : object_line) : Bool :=
  s.m_done || (decide (s.m_state = State.DOING_OBJECT_MOVE) && inp.object_move_done &&
    decide (inp.object_move_stop = Stop.AT_TARGET))

/-- A state in the correction with a live `ObjectMove`. -/
def state_correcting : object_line :=
  { m_dir := nrg.dir.RIGHT, m_target := 5, m_base := 1, m_done := false,
    m_state := State.DOING_CORRECTION_OBJECT_MOVE, m_correction_dir := nrg.dir.UP,
    m_ready_move := none,
    m_object_move := some { dir := nrg.dir.UP, target := 1, norm_base := 0,
                            norm_dev := 10000, started := true },
    timer_active := true }

end ObjectLine

/-! # Properties -/

namespace nrg

/-! ## The open set -/

theorem set_min_mem (lt : vector2i → vector2i → Bool) (e : associated_cost)
    (es : List associated_cost) : set_min lt e es ∈ e :: es := by
  induction es generalizing e with
  | nil => simp [set_min]
  | cons a as ih =>
    simp only [set_min]
    have h := ih (if assoc_lt lt a e then a else e)
    split_ifs at h ⊢ with hc
    · simp only [List.mem_cons] at h ⊢
      rcases h with h | h
      · exact Or.inr (Or.inl h)
      · exact Or.inr (Or.inr h)
    · simp only [List.mem_cons] at h ⊢
      rcases h with h | h
      · exact Or.inl h
      · exact Or.inr (Or.inr h)

theorem set_min_le_head (lt : vector2i → vector2i → Bool) (e : associated_cost)
    (es : List associated_cost) : (set_min lt e es).1 ≤ e.1 := by
  induction es generalizing e with
  | nil => simp [set_min]
  | cons a as ih =>
    simp only [set_min]
    have h := ih (if assoc_lt lt a e then a else e)
    split_ifs at h ⊢ with hc
    · have : a.1 ≤ e.1 := by
        simp only [assoc_lt, Bool.or_eq_true, Bool.and_eq_true, decide_eq_true_eq] at hc
        rcases hc with hc | ⟨hc, _⟩ <;> omega
      omega
    · exact h

theorem set_min_le (lt : vector2i → vector2i → Bool) (e : associated_cost)
    (es : List associated_cost) (a : associated_cost) (ha : a ∈ e :: es) :
    (set_min lt e es).1 ≤ a.1 := by
  induction es generalizing e with
  | nil =>
    simp only [List.mem_singleton] at ha
    subst ha
    simp [set_min]
  | cons b bs ih =>
    simp only [set_min]
    simp only [List.mem_cons] at ha
    rcases ha with ha | ha | ha
    · subst ha
      have h := set_min_le_head lt (if assoc_lt lt b a then b else a) bs
      split_ifs at h ⊢ with hc
      · have : b.1 ≤ a.1 := by
          simp only [assoc_lt, Bool.or_eq_true, Bool.and_eq_true, decide_eq_true_eq] at hc
          rcases hc with hc | ⟨hc, _⟩ <;> omega
        omega
      · exact h
    · subst ha
      have h := set_min_le_head lt (if assoc_lt lt a e then a else e) bs
      split_ifs at h ⊢ with hc
      · exact h
      · have : e.1 ≤ a.1 := by
          simp only [assoc_lt, Bool.or_eq_true, Bool.and_eq_true, decide_eq_true_eq, not_or,
            not_and, not_lt] at hc
          exact hc.1
        omega
    · exact ih _ (List.mem_cons_of_mem _ ha)

theorem set_begin_spec (lt : vector2i → vector2i → Bool) (s : List associated_cost)
    (b : associated_cost) (h : set_begin lt s = some b) :
    b ∈ s ∧ ∀ a ∈ s, b.1 ≤ a.1 := by
  cases s with
  | nil => simp [set_begin] at h
  | cons e es =>
    simp only [set_begin, Option.some.injEq] at h
    subst h
    exact ⟨set_min_mem lt e es, fun a ha => set_min_le lt e es a ha⟩

theorem set_begin_none (lt : vector2i → vector2i → Bool) (s : List associated_cost)
    (h : set_begin lt s = none) : s = [] := by
  cases s with
  | nil => rfl
  | cons e es => simp [set_begin] at h

theorem mem_set_emplace (e a : associated_cost) (s : List associated_cost) :
    a ∈ set_emplace e s ↔ a = e ∨ a ∈ s := by
  unfold set_emplace
  split_ifs with h
  · constructor
    · exact fun ha => Or.inr ha
    · rintro (rfl | ha)
      · exact h
      · exact ha
  · simp

theorem length_set_emplace_le (e : associated_cost) (s : List associated_cost) :
    (set_emplace e s).length ≤ s.length + 1 := by
  unfold set_emplace
  split_ifs <;> simp

/-! ## Geometry of the grid -/

theorem manhattan_dist_nonneg (a d : vector2i) : 0 ≤ manhattan_dist a d := by
  unfold manhattan_dist
  positivity

theorem manhattan_dist_self (d : vector2i) : manhattan_dist d d = 0 := by
  simp [manhattan_dist]

theorem adjacent_ne (a b : vector2i) (h : adjacent a b = true) : a ≠ b := by
  rintro rfl
  simp only [adjacent, Bool.or_eq_true, Bool.and_eq_true, decide_eq_true_eq] at h
  omega

theorem manhattan_dist_adjacent (a b d : vector2i) (h : adjacent a b = true) :
    manhattan_dist a d ≤ 1 + manhattan_dist b d := by
  simp only [adjacent, Bool.or_eq_true, Bool.and_eq_true, decide_eq_true_eq] at h
  unfold manhattan_dist
  have e1 := abs_cases (d.x - a.x)
  have e2 := abs_cases (d.x - b.x)
  have e3 := abs_cases (d.y - a.y)
  have e4 := abs_cases (d.y - b.y)
  omega

theorem mem_get_neighbors (c w : vector2i) (r k : Int) :
    w ∈ get_neighbors c r k ↔ (adjacent c w = true ∧ is_valid w.x w.y r k = true) := by
  obtain ⟨wx, wy⟩ := w
  obtain ⟨cx, cy⟩ := c
  simp only [get_neighbors, adjacent, List.mem_append, Bool.or_eq_true, Bool.and_eq_true,
    decide_eq_true_eq]
  constructor
  · rintro (((h | h) | h) | h) <;>
      · split_ifs at h with hv
        · simp only [List.mem_singleton, vector2i.mk.injEq] at h
          obtain ⟨rfl, rfl⟩ := h
          refine ⟨by simp, hv⟩
        · simp at h
  · rintro ⟨(((⟨h1, h2⟩ | ⟨h1, h2⟩) | ⟨h1, h2⟩) | ⟨h1, h2⟩), hv⟩
    · subst h1 h2
      left; left; left
      simp [hv]
    · subst h1 h2
      left; left; right
      simp [hv]
    · subst h1 h2
      left; right
      simp [hv]
    · subst h1 h2
      right
      simp [hv]

/-! ## One relaxation -/

theorem walk_step_spec (T : array2d) (a b : vector2i) (h : walk_step T a b = true) :
    adjacent a b = true ∧ in_bounds T b = true ∧ cell_cost T b ≠ TERRAIN_WALL := by
  simpa [walk_step, and_assoc] using h

theorem map_set_same {α : Type} (m : vector2i → Option α) (k : vector2i) (v : α) :
    map_set m k v k = some v := by
  simp [map_set]

theorem map_set_other {α : Type} (m : vector2i → Option α) (k c : vector2i) (v : α)
    (h : c ≠ k) : map_set m k v c = m c := by
  simp [map_set, h]

theorem relax_cases (T : array2d) (dest cur next : vector2i) (st : search_state) (c : Int)
    (hc : st.cost cur = some c) :
    (relax T dest cur st next = st ∧
      (cell_cost T next = TERRAIN_WALL ∨
        ∃ cn, st.cost next = some cn ∧ cn ≤ c + cell_cost T next)) ∨
    (relax T dest cur st next = improve dest cur next (c + cell_cost T next) st ∧
      cell_cost T next ≠ TERRAIN_WALL ∧
      (st.cost next = none ∨ ∃ cn, st.cost next = some cn ∧ c + cell_cost T next < cn)) := by
  unfold relax
  by_cases hw : T.get next.x next.y = TERRAIN_WALL
  · left
    simp [hw, cell_cost]
  · simp only [ne_eq, hw, not_false_eq_true, if_true, hc, Option.getD_some]
    cases hn : st.cost next with
    | none =>
      right
      simp [improve, cell_cost, hw]
    | some cn =>
      by_cases hlt : c + T.get next.x next.y < cn
      · right
        simp [improve, cell_cost, hw, hlt]
      · left
        simp only [Option.isNone_some, Option.getD_some, Bool.false_or, decide_eq_true_eq, hlt,
          if_false, cell_cost]
        refine ⟨trivial, Or.inr ⟨cn, rfl, ?_⟩⟩
        omega

/-! ## The parent links -/

theorem anc_trans (parent : vector2i → Option vector2i) (start a b c : vector2i)
    (h1 : Anc parent start a b) (h2 : Anc parent start b c) : Anc parent start a c := by
  induction h2 with
  | refl => exact h1
  | step hv hp _ ih => exact Anc.step hv hp ih

theorem anc_cost_le (T : array2d) (start : vector2i) (st : search_state)
    (hT : costs_nonneg T) (hI : Inv T start st) (a v : vector2i)
    (h : Anc st.parent start a v) :
    ∀ cv, st.cost v = some cv → ∃ ca, st.cost a = some ca ∧ ca ≤ cv := by
  induction h with
  | refl => exact fun cv hcv => ⟨cv, hcv, le_refl _⟩
  | step hv hp _ ih =>
    intro cv hcv
    obtain ⟨hstep, cv1, cp, h1, h2, h3⟩ := hI.link _ _ hp hv
    obtain ⟨_, hb, hw⟩ := walk_step_spec T _ _ hstep
    have ht := hT _ hb hw
    obtain ⟨ca, hca, hle⟩ := ih cp h2
    rw [h1] at hcv
    cases hcv
    exact ⟨ca, hca, by omega⟩

theorem anc_avoid (parent : vector2i → Option vector2i) (start next cur v : vector2i)
    (h : Anc parent start start v) (hn : ¬ Anc parent start next v) :
    Anc (map_set parent next cur) start start v := by
  induction h with
  | refl => exact Anc.refl
  | @step v1 p1 hv hp _ ih =>
    have hne : v1 ≠ next := by
      rintro rfl
      exact hn Anc.refl
    have hnp : ¬ Anc parent start next p1 := fun hh => hn (Anc.step hv hp hh)
    refine Anc.step hv ?_ (ih hnp)
    rw [map_set_other _ _ _ _ hne]
    exact hp

theorem anc_split (parent : vector2i → Option vector2i) (start next cur a v : vector2i)
    (h : Anc parent start a v) :
    Anc (map_set parent next cur) start next v ∨ Anc (map_set parent next cur) start a v := by
  induction h with
  | refl => exact Or.inr Anc.refl
  | @step v1 p1 hv hp _ ih =>
    by_cases hne : v1 = next
    · subst hne
      exact Or.inl Anc.refl
    · have hp1 : map_set parent next cur v1 = some p1 := by
        rw [map_set_other _ _ _ _ hne]
        exact hp
      rcases ih with ih | ih
      · exact Or.inl (Anc.step hv hp1 ih)
      · exact Or.inr (Anc.step hv hp1 ih)

/-! ## The invariant is kept -/

theorem improve_ne_start (T : array2d) (start cur next : vector2i) (st : search_state)
    (c : Int) (hT : costs_nonneg T) (hI : Inv T start st) (hc : st.cost cur = some c)
    (hstep : walk_step T cur next = true)
    (himp : st.cost next = none ∨ ∃ cn, st.cost next = some cn ∧ c + cell_cost T next < cn) :
    next ≠ start := by
  rintro rfl
  obtain ⟨_, hb, hw⟩ := walk_step_spec T _ _ hstep
  have ht := hT _ hb hw
  have h0 := hI.cost_nonneg _ _ hc
  rcases himp with h | ⟨cn, h, hlt⟩
  · rw [hI.start_cost] at h
    cases h
  · rw [hI.start_cost] at h
    cases h
    omega

theorem improve_inv (T : array2d) (start dest cur next : vector2i) (st : search_state)
    (c : Int) (hT : costs_nonneg T) (hI : Inv T start st) (hc : st.cost cur = some c)
    (hstep : walk_step T cur next = true)
    (himp : st.cost next = none ∨ ∃ cn, st.cost next = some cn ∧ c + cell_cost T next < cn) :
    Inv T start (improve dest cur next (c + cell_cost T next) st) := by
  obtain ⟨hadj, hb, hw⟩ := walk_step_spec T _ _ hstep
  have ht := hT _ hb hw
  have h0 := hI.cost_nonneg _ _ hc
  have hns : next ≠ start := improve_ne_start T start cur next st c hT hI hc hstep himp
  have hcn : cur ≠ next := adjacent_ne _ _ hadj
  have hnot : ¬ Anc st.parent start next cur := by
    intro ha
    obtain ⟨cn, h1, h2⟩ := anc_cost_le T start st hT hI next cur ha c hc
    rcases himp with h | ⟨cn1, h, hlt⟩
    · rw [h] at h1
      cases h1
    · rw [h] at h1
      cases h1
      omega
  have hcur : Anc (map_set st.parent next cur) start start cur :=
    anc_avoid st.parent start next cur cur (hI.anc _ _ hc) hnot
  have hnext : Anc (map_set st.parent next cur) start start next :=
    Anc.step hns (map_set_same _ _ _) hcur
  constructor
  · show map_set st.cost next _ start = some 0
    rw [map_set_other _ _ _ _ (Ne.symm hns)]
    exact hI.start_cost
  · show map_set st.parent next cur start = some start
    rw [map_set_other _ _ _ _ (Ne.symm hns)]
    exact hI.start_parent
  · intro v p hp hv
    show _ ∧ ∃ cv cp, map_set st.cost next _ v = some cv ∧ map_set st.cost next _ p = some cp ∧ _
    have hp1 : map_set st.parent next cur v = some p := hp
    by_cases hvn : v = next
    · subst hvn
      rw [map_set_same] at hp1
      cases hp1
      refine ⟨hstep, c + cell_cost T v, c, map_set_same _ _ _, ?_, le_refl _⟩
      rw [map_set_other _ _ _ _ hcn]
      exact hc
    · rw [map_set_other _ _ _ _ hvn] at hp1
      obtain ⟨hs, cv, cp, h1, h2, h3⟩ := hI.link v p hp1 hv
      refine ⟨hs, ?_⟩
      by_cases hpn : p = next
      · subst hpn
        refine ⟨cv, c + cell_cost T p, ?_, map_set_same _ _ _, ?_⟩
        · rw [map_set_other _ _ _ _ hvn]
          exact h1
        · rcases himp with h | ⟨cn, h, hlt⟩
          · rw [h] at h2
            cases h2
          · rw [h] at h2
            cases h2
            omega
      · refine ⟨cv, cp, ?_, ?_, h3⟩
        · rw [map_set_other _ _ _ _ hvn]
          exact h1
        · rw [map_set_other _ _ _ _ hpn]
          exact h2
  · intro v cv hv
    have hv1 : map_set st.cost next (c + cell_cost T next) v = some cv := hv
    by_cases hvn : v = next
    · subst hvn
      rw [map_set_same] at hv1
      cases hv1
      omega
    · rw [map_set_other _ _ _ _ hvn] at hv1
      exact hI.cost_nonneg _ _ hv1
  · intro v cv hv
    show Anc (map_set st.parent next cur) start start v
    have hv1 : map_set st.cost next (c + cell_cost T next) v = some cv := hv
    by_cases hvn : v = next
    · subst hvn
      exact hnext
    · rw [map_set_other _ _ _ _ hvn] at hv1
      rcases anc_split st.parent start next cur start v (hI.anc _ _ hv1) with h | h
      · exact anc_trans _ _ _ _ _ hnext h
      · exact h
  · intro f v hf
    have hf1 : (f, v) ∈ set_emplace (c + cell_cost T next + manhattan_dist next dest, next)
        st.open_set := hf
    show ∃ c1, map_set st.cost next (c + cell_cost T next) v = some c1 ∧ c1 ≤ f
    rw [mem_set_emplace] at hf1
    have hm := manhattan_dist_nonneg next dest
    by_cases hvn : v = next
    · subst hvn
      refine ⟨c + cell_cost T v, map_set_same _ _ _, ?_⟩
      rcases hf1 with h | h
      · simp only [Prod.mk.injEq] at h
        omega
      · obtain ⟨c1, h1, h2⟩ := hI.open_cost _ _ h
        rcases himp with h3 | ⟨cn, h3, hlt⟩
        · rw [h3] at h1
          cases h1
        · rw [h3] at h1
          cases h1
          omega
    · rw [map_set_other _ _ _ _ hvn]
      rcases hf1 with h | h
      · simp only [Prod.mk.injEq] at h
        exact absurd h.2 hvn
      · exact hI.open_cost _ _ h

theorem improve_settled (T : array2d) (dest cur next : vector2i) (st : search_state)
    (c : Int)
    (himp : st.cost next = none ∨ ∃ cn, st.cost next = some cn ∧ c + cell_cost T next < cn)
    (v : vector2i) (hv : Settled T dest st v) :
    Settled T dest (improve dest cur next (c + cell_cost T next) st) v := by
  intro cv hcv
  have hcv1 : map_set st.cost next (c + cell_cost T next) v = some cv := hcv
  by_cases hvn : v = next
  · subst hvn
    rw [map_set_same] at hcv1
    cases hcv1
    left
    refine ⟨c + cell_cost T v + manhattan_dist v dest, ?_, le_refl _⟩
    show _ ∈ set_emplace _ _
    rw [mem_set_emplace]
    exact Or.inl rfl
  · rw [map_set_other _ _ _ _ hvn] at hcv1
    rcases hv cv hcv1 with ⟨f, hf, hle⟩ | hr
    · left
      refine ⟨f, ?_, hle⟩
      show _ ∈ set_emplace _ _
      rw [mem_set_emplace]
      exact Or.inr hf
    · right
      intro w hw
      obtain ⟨cw, h1, h2⟩ := hr w hw
      show ∃ cw1, map_set st.cost next (c + cell_cost T next) w = some cw1 ∧ _
      by_cases hwn : w = next
      · subst hwn
        refine ⟨c + cell_cost T w, map_set_same _ _ _, ?_⟩
        rcases himp with h | ⟨cn, h, hlt⟩
        · rw [h] at h1
          cases h1
        · rw [h] at h1
          cases h1
          omega
      · rw [map_set_other _ _ _ _ hwn]
        exact ⟨cw, h1, h2⟩

/-- Removing the popped element keeps the invariant. -/
theorem erase_inv (T : array2d) (start : vector2i) (st : search_state) (b : associated_cost)
    (hI : Inv T start st) : Inv T start { st with open_set := st.open_set.erase b } :=
  { start_cost := hI.start_cost
    start_parent := hI.start_parent
    link := hI.link
    cost_nonneg := hI.cost_nonneg
    anc := hI.anc
    open_cost := fun f v hf => hI.open_cost f v (List.mem_of_mem_erase hf) }

theorem erase_settled (T : array2d) (dest : vector2i) (st : search_state) (b : associated_cost)
    (v : vector2i) (hne : v ≠ b.2) (hv : Settled T dest st v) :
    Settled T dest { st with open_set := st.open_set.erase b } v := by
  intro cv hcv
  rcases hv cv hcv with ⟨f, hf, hle⟩ | hr
  · left
    refine ⟨f, ?_, hle⟩
    show (f, v) ∈ st.open_set.erase b
    have hfb : (f, v) ≠ b := by
      rintro rfl
      exact hne rfl
    exact (List.mem_erase_of_ne hfb).mpr hf
  · exact Or.inr hr

/-! ## The termination measure -/

theorem mem_cells (T : array2d) (c : vector2i) (h : in_bounds T c = true) : c ∈ cells T := by
  simp only [in_bounds, is_valid, Bool.and_eq_true, decide_eq_true_eq] at h
  obtain ⟨⟨⟨h1, h2⟩, h3⟩, h4⟩ := h
  simp only [cells, Finset.mem_image, Finset.mem_product, Finset.mem_range, Prod.exists]
  refine ⟨c.x.toNat, c.y.toNat, ⟨by omega, by omega⟩, ?_⟩
  obtain ⟨cx, cy⟩ := c
  simp only [vector2i.mk.injEq]
  constructor
  · exact Int.toNat_of_nonneg h1
  · exact Int.toNat_of_nonneg h3

theorem improve_measure (T : array2d) (start dest cur next : vector2i) (st : search_state)
    (c : Int) (hT : costs_nonneg T) (hI : Inv T start st) (hc : st.cost cur = some c)
    (hstep : walk_step T cur next = true)
    (himp : st.cost next = none ∨ ∃ cn, st.cost next = some cn ∧ c + cell_cost T next < cn) :
    search_measure T (improve dest cur next (c + cell_cost T next) st) < search_measure T st := by
  obtain ⟨hadj, hb, hw⟩ := walk_step_spec T _ _ hstep
  have ht := hT _ hb hw
  have h0 := hI.cost_nonneg _ _ hc
  have hmem := mem_cells T next hb
  unfold search_measure
  rw [Prod.Lex.lt_iff]
  rcases himp with h | ⟨cn, h, hlt⟩
  · left
    show unassigned T _ < unassigned T st
    unfold unassigned
    apply Finset.sum_lt_sum
    · intro v _
      show (if map_set st.cost next _ v = none then 1 else 0) ≤ _
      by_cases hvn : v = next
      · subst hvn
        simp [map_set_same, h]
      · rw [map_set_other _ _ _ _ hvn]
    · refine ⟨next, hmem, ?_⟩
      show (if map_set st.cost next _ next = none then 1 else 0) < _
      simp [map_set_same, h]
  · right
    constructor
    · show unassigned T _ = unassigned T st
      unfold unassigned
      apply Finset.sum_congr rfl
      intro v _
      show (if map_set st.cost next _ v = none then 1 else 0) = _
      by_cases hvn : v = next
      · subst hvn
        simp [map_set_same, h]
      · rw [map_set_other _ _ _ _ hvn]
    · have hsum : cost_sum T (improve dest cur next (c + cell_cost T next) st) < cost_sum T st := by
        unfold cost_sum
        apply Finset.sum_lt_sum
        · intro v _
          show ((map_set st.cost next _ v).getD 0).toNat ≤ _
          by_cases hvn : v = next
          · subst hvn
            rw [map_set_same, h]
            simp only [Option.getD_some]
            omega
          · rw [map_set_other _ _ _ _ hvn]
        · refine ⟨next, hmem, ?_⟩
          show ((map_set st.cost next _ next).getD 0).toNat < _
          rw [map_set_same, h]
          simp only [Option.getD_some]
          omega
      have hlen := length_set_emplace_le
        (c + cell_cost T next + manhattan_dist next dest, next) st.open_set
      show 2 * cost_sum T _ + (set_emplace _ st.open_set).length < _
      omega

theorem erase_measure (T : array2d) (st : search_state) (b : associated_cost)
    (hb : b ∈ st.open_set) :
    search_measure T { st with open_set := st.open_set.erase b } < search_measure T st := by
  unfold search_measure
  rw [Prod.Lex.lt_iff]
  right
  refine ⟨rfl, ?_⟩
  show 2 * cost_sum T st + (st.open_set.erase b).length < 2 * cost_sum T st + st.open_set.length
  rw [List.length_erase_of_mem hb]
  have : 0 < st.open_set.length := List.length_pos_of_mem hb
  omega

/-! ## Expanding one cell -/

theorem cost_decr_refl (st : search_state) : cost_decr st st :=
  fun _ cu h => ⟨cu, h, le_refl _⟩

theorem cost_decr_trans (a b c : search_state) (h1 : cost_decr a b) (h2 : cost_decr b c) :
    cost_decr a c := by
  intro u cu hu
  obtain ⟨c1, h3, h4⟩ := h1 u cu hu
  obtain ⟨c2, h5, h6⟩ := h2 u c1 h3
  exact ⟨c2, h5, by omega⟩

theorem relax_step (T : array2d) (start dest cur w : vector2i) (st : search_state) (c : Int)
    (hT : costs_nonneg T) (hI : Inv T start st)
    (hS : ∀ v, v ≠ cur → Settled T dest st v) (hc : st.cost cur = some c)
    (hadj : adjacent cur w = true) (hb : in_bounds T w = true) :
    (Inv T start (relax T dest cur st w) ∧
      (∀ v, v ≠ cur → Settled T dest (relax T dest cur st w) v) ∧
      (relax T dest cur st w).cost cur = some c) ∧
    cost_decr st (relax T dest cur st w) ∧
    (cell_cost T w ≠ TERRAIN_WALL →
      ∃ cw, (relax T dest cur st w).cost w = some cw ∧ cw ≤ c + cell_cost T w) ∧
    search_measure T (relax T dest cur st w) ≤ search_measure T st := by
  rcases relax_cases T dest cur w st c hc with ⟨heq, hcase⟩ | ⟨heq, hw, himp⟩
  · rw [heq]
    refine ⟨⟨hI, hS, hc⟩, cost_decr_refl st, ?_, le_refl _⟩
    intro hw
    rcases hcase with h | h
    · exact absurd h hw
    · exact h
  · rw [heq]
    have hstep : walk_step T cur w = true := by
      simp [walk_step, hadj, hb, hw]
    have hcw : cur ≠ w := adjacent_ne _ _ hadj
    refine ⟨⟨improve_inv T start dest cur w st c hT hI hc hstep himp,
      fun v hv => improve_settled T dest cur w st c himp v (hS v hv), ?_⟩, ?_, ?_,
      le_of_lt (improve_measure T start dest cur w st c hT hI hc hstep himp)⟩
    · show map_set st.cost w _ cur = some c
      rw [map_set_other _ _ _ _ hcw]
      exact hc
    · intro u cu hu
      show ∃ cu1, map_set st.cost w _ u = some cu1 ∧ _
      by_cases huw : u = w
      · subst huw
        refine ⟨_, map_set_same _ _ _, ?_⟩
        rcases himp with h | ⟨cn, h, hlt⟩
        · rw [h] at hu
          cases hu
        · rw [h] at hu
          cases hu
          omega
      · rw [map_set_other _ _ _ _ huw]
        exact ⟨cu, hu, le_refl _⟩
    · intro _
      exact ⟨_, map_set_same _ _ _, le_refl _⟩

theorem relax_fold (T : array2d) (start dest cur : vector2i) (c : Int)
    (hT : costs_nonneg T) (l : List vector2i)
    (hl : ∀ w ∈ l, adjacent cur w = true ∧ in_bounds T w = true) :
    ∀ st : search_state, Inv T start st → (∀ v, v ≠ cur → Settled T dest st v) →
      st.cost cur = some c →
      (Inv T start (l.foldl (relax T dest cur) st) ∧
        (∀ v, v ≠ cur → Settled T dest (l.foldl (relax T dest cur) st) v) ∧
        (l.foldl (relax T dest cur) st).cost cur = some c) ∧
      cost_decr st (l.foldl (relax T dest cur) st) ∧
      (∀ w ∈ l, cell_cost T w ≠ TERRAIN_WALL →
        ∃ cw, (l.foldl (relax T dest cur) st).cost w = some cw ∧ cw ≤ c + cell_cost T w) ∧
      search_measure T (l.foldl (relax T dest cur) st) ≤ search_measure T st := by
  induction l with
  | nil =>
    intro st hI hS hc
    exact ⟨⟨hI, hS, hc⟩, cost_decr_refl st, fun w hw => absurd hw (List.not_mem_nil w),
      le_refl _⟩
  | cons a as ih =>
    intro st hI hS hc
    obtain ⟨ha1, ha2⟩ := hl a (List.mem_cons_self a as)
    obtain ⟨⟨hI1, hS1, hc1⟩, hd1, hq1, hm1⟩ :=
      relax_step T start dest cur a st c hT hI hS hc ha1 ha2
    obtain ⟨hP2, hd2, hq2, hm2⟩ :=
      ih (fun w hw => hl w (List.mem_cons_of_mem a hw)) (relax T dest cur st a) hI1 hS1 hc1
    simp only [List.foldl_cons]
    refine ⟨hP2, cost_decr_trans _ _ _ hd1 hd2, ?_, le_trans hm2 hm1⟩
    intro w hw hwall
    simp only [List.mem_cons] at hw
    rcases hw with hw | hw
    · subst hw
      obtain ⟨cw, h1, h2⟩ := hq1 hwall
      obtain ⟨cw2, h3, h4⟩ := hd2 _ _ h1
      exact ⟨cw2, h3, by omega⟩
    · exact hq2 w hw hwall

/-- After the `for` loop every cell is settled again, and the measure has not grown. -/
theorem expand_inv (T : array2d) (start dest cur : vector2i) (st : search_state) (c : Int)
    (hT : costs_nonneg T) (hI : Inv T start st)
    (hS : ∀ v, v ≠ cur → Settled T dest st v) (hc : st.cost cur = some c) :
    Inv T start (expand T dest cur st) ∧ (∀ v, Settled T dest (expand T dest cur st) v) ∧
      search_measure T (expand T dest cur st) ≤ search_measure T st := by
  have hl : ∀ w ∈ get_neighbors cur T.x T.y, adjacent cur w = true ∧ in_bounds T w = true := by
    intro w hw
    exact (mem_get_neighbors cur w T.x T.y).mp hw
  obtain ⟨⟨hI1, hS1, hc1⟩, _, hq, hm⟩ :=
    relax_fold T start dest cur c hT _ hl st hI hS hc
  refine ⟨hI1, ?_, hm⟩
  intro v
  by_cases hv : v = cur
  · subst hv
    intro cv hcv
    right
    intro w hw
    obtain ⟨hadj, hb, hwall⟩ := walk_step_spec T _ _ hw
    have hmem : w ∈ get_neighbors v T.x T.y :=
      (mem_get_neighbors v w T.x T.y).mpr ⟨hadj, hb⟩
    have hcv1 : (expand T dest v st).cost v = some c := hc1
    rw [hcv1] at hcv
    cases hcv
    exact hq w hmem hwall
  · exact hS1 v hv

/-! ## The search loop ends -/

theorem search_init_inv (T : array2d) (start : vector2i) : Inv T start (search_init start) := by
  constructor
  · exact map_set_same (fun _ => none) start (0 : Int)
  · exact map_set_same (fun _ => none) start start
  · intro v p hp hv
    have hp1 : map_set (fun _ => none) start start v = some p := hp
    rw [map_set_other _ _ _ _ hv] at hp1
    cases hp1
  · intro v c hc
    have hc1 : map_set (fun _ => none) start (0 : Int) v = some c := hc
    by_cases hv : v = start
    · subst hv
      rw [map_set_same] at hc1
      cases hc1
      exact le_refl _
    · rw [map_set_other _ _ _ _ hv] at hc1
      cases hc1
  · intro v c hc
    have hc1 : map_set (fun _ => none) start (0 : Int) v = some c := hc
    by_cases hv : v = start
    · subst hv
      exact Anc.refl
    · rw [map_set_other _ _ _ _ hv] at hc1
      cases hc1
  · intro f v hf
    have hf1 : (f, v) ∈ set_emplace ((0 : Int), start) [] := hf
    rw [mem_set_emplace] at hf1
    rcases hf1 with h | h
    · simp only [Prod.mk.injEq] at h
      obtain ⟨rfl, rfl⟩ := h
      exact ⟨0, map_set_same (fun _ => none) v (0 : Int), le_refl _⟩
    · cases h

theorem search_init_settled (T : array2d) (start dest : vector2i) (v : vector2i) :
    Settled T dest (search_init start) v := by
  intro c hc
  have hc1 : map_set (fun _ => none) start (0 : Int) v = some c := hc
  by_cases hv : v = start
  · subst hv
    rw [map_set_same] at hc1
    cases hc1
    left
    refine ⟨0, ?_, ?_⟩
    · show ((0 : Int), v) ∈ set_emplace ((0 : Int), v) []
      rw [mem_set_emplace]
      exact Or.inl rfl
    · have := manhattan_dist_nonneg v dest
      omega
  · rw [map_set_other _ _ _ _ hv] at hc1
    cases hc1

theorem search_loop_ends (lt : vector2i → vector2i → Bool) (T : array2d)
    (start dest : vector2i) (hT : costs_nonneg T) (m : Lex (Nat × Nat)) :
    ∀ st : search_state, search_measure T st = m → Inv T start st →
      (∀ v, Settled T dest st v) →
      ∃ fuel st1, (∀ k, fuel ≤ k → search_loop lt T dest k st = some st1) ∧
        loop_exit T start dest st1 := by
  induction m using WellFoundedLT.induction with
  | ind m ih =>
    intro st hm hI hS
    cases hb : set_begin lt st.open_set with
    | none =>
      refine ⟨1, st, ?_, st, hI, hS, rfl, rfl, Or.inl (set_begin_none lt _ hb)⟩
      intro k hk
      obtain ⟨k1, rfl⟩ : ∃ k1, k = k1 + 1 := ⟨k - 1, by omega⟩
      simp [search_loop, hb]
    | some b =>
      obtain ⟨hmem, hmin⟩ := set_begin_spec lt _ b hb
      by_cases hd : b.2 = dest
      · refine ⟨1, { st with open_set := st.open_set.erase b }, ?_, st, hI, hS, rfl, rfl,
          Or.inr ⟨b.1, ?_, hmin⟩⟩
        · intro k hk
          obtain ⟨k1, rfl⟩ : ∃ k1, k = k1 + 1 := ⟨k - 1, by omega⟩
          simp [search_loop, hb, hd]
        · rw [← hd]
          exact hmem
      · obtain ⟨c, hc, _⟩ := hI.open_cost b.1 b.2 hmem
        have hI1 := erase_inv T start st b hI
        have hS1 : ∀ v, v ≠ b.2 →
            Settled T dest { st with open_set := st.open_set.erase b } v :=
          fun v hv => erase_settled T dest st b v hv (hS v)
        obtain ⟨hI2, hS2, hm2⟩ := expand_inv T start dest b.2
          { st with open_set := st.open_set.erase b } c hT hI1 hS1 hc
        have hlt : search_measure T
            (expand T dest b.2 { st with open_set := st.open_set.erase b }) < m := by
          rw [← hm]
          exact lt_of_le_of_lt hm2 (erase_measure T st b hmem)
        obtain ⟨fuel, st1, hrun, hexit⟩ := ih _ hlt _ rfl hI2 hS2
        refine ⟨fuel + 1, st1, ?_, hexit⟩
        intro k hk
        obtain ⟨k1, rfl⟩ : ∃ k1, k = k1 + 1 := ⟨k - 1, by omega⟩
        simp only [search_loop, hb, hd, if_false]
        exact hrun k1 (by omega)

/-! ## Walks -/

theorem path_weight_cons_cons (T : array2d) (u v : vector2i) (p : List vector2i) :
    path_weight T (u :: v :: p) = cell_cost T v + path_weight T (v :: p) := by
  simp [path_weight]

theorem path_weight_single (T : array2d) (u : vector2i) : path_weight T [u] = 0 := by
  simp [path_weight]

/-- The Manhattan distance never overestimates the weight left to walk. -/
theorem manhattan_admissible (T : array2d) (dest : vector2i) (hT : costs_pos T)
    (p : List vector2i) :
    ∀ u, List.Chain' (fun a b => walk_step T a b = true) (u :: p) →
      (u :: p).getLast? = some dest → manhattan_dist u dest ≤ path_weight T (u :: p) := by
  induction p with
  | nil =>
    intro u _ hl
    simp only [List.getLast?_singleton, Option.some.injEq] at hl
    subst hl
    rw [manhattan_dist_self, path_weight_single]
  | cons v p ih =>
    intro u hch hl
    rw [List.chain'_cons] at hch
    obtain ⟨hstep, hch1⟩ := hch
    rw [List.getLast?_cons_cons] at hl
    obtain ⟨hadj, hb, hw⟩ := walk_step_spec T _ _ hstep
    have h1 := ih v hch1 hl
    have h2 := manhattan_dist_adjacent u v dest hadj
    have h3 := hT v hb hw
    rw [path_weight_cons_cons]
    omega

/-- Along a walk that starts in a cell with a recorded cost, either an entry of
the open set is no dearer than the walk, or the recorded cost of the
destination is no dearer than the walk. -/
theorem walk_bound (T : array2d) (dest : vector2i) (st : search_state) (hT : costs_pos T)
    (hS : ∀ v, Settled T dest st v) (p : List vector2i) :
    ∀ u c, List.Chain' (fun a b => walk_step T a b = true) (u :: p) →
      (u :: p).getLast? = some dest → st.cost u = some c →
      (∃ e, e ∈ st.open_set ∧ e.1 ≤ c + path_weight T (u :: p)) ∨
      (∃ cd, st.cost dest = some cd ∧ cd ≤ c + path_weight T (u :: p)) := by
  induction p with
  | nil =>
    intro u c _ hl hc
    simp only [List.getLast?_singleton, Option.some.injEq] at hl
    subst hl
    right
    exact ⟨c, hc, by rw [path_weight_single]; omega⟩
  | cons v p ih =>
    intro u c hch hl hc
    have hadm := manhattan_admissible T dest hT (v :: p) u hch hl
    rw [List.chain'_cons] at hch
    obtain ⟨hstep, hch1⟩ := hch
    rw [List.getLast?_cons_cons] at hl
    rcases hS u c hc with ⟨f, hf, hle⟩ | hr
    · left
      exact ⟨(f, u), hf, by show f ≤ _; omega⟩
    · obtain ⟨cv, hcv, hle⟩ := hr v hstep
      rw [path_weight_cons_cons]
      rcases ih v cv hch1 hl hcv with ⟨e, he, h1⟩ | ⟨cd, hcd, h1⟩
      · left
        exact ⟨e, he, by omega⟩
      · right
        exact ⟨cd, hcd, by omega⟩

/-- With an empty open set, every cell a walk leads to has a recorded cost. -/
theorem walk_assigned (T : array2d) (dest : vector2i) (st : search_state)
    (hS : ∀ v, Settled T dest st v) (hopen : st.open_set = []) (p : List vector2i) :
    ∀ u c, List.Chain' (fun a b => walk_step T a b = true) (u :: p) →
      (u :: p).getLast? = some dest → st.cost u = some c → ∃ cd, st.cost dest = some cd := by
  induction p with
  | nil =>
    intro u c _ hl hc
    simp only [List.getLast?_singleton, Option.some.injEq] at hl
    subst hl
    exact ⟨c, hc⟩
  | cons v p ih =>
    intro u c hch hl hc
    rw [List.chain'_cons] at hch
    obtain ⟨hstep, hch1⟩ := hch
    rw [List.getLast?_cons_cons] at hl
    rcases hS u c hc with ⟨f, hf, _⟩ | hr
    · rw [hopen] at hf
      cases hf
    · obtain ⟨cv, hcv, _⟩ := hr v hstep
      exact ih v cv hch1 hl hcv

/-! ## `backtrack` -/

theorem path_weight_concat (T : array2d) (s : vector2i) (l : List vector2i) (v : vector2i) :
    path_weight T ((s :: l) ++ [v]) = path_weight T (s :: l) + cell_cost T v := by
  simp [path_weight]

/-- Following the parent links from a cell with a recorded cost, `backtrack`
ends and yields a walk from `start` that weighs no more than that cost. -/
theorem backtrack_anc (T : array2d) (start : vector2i) (st : search_state)
    (hI : Inv T start st) (v : vector2i) (h : Anc st.parent start start v) :
    ∃ l : List vector2i,
      (∀ k, l.length ≤ k → ∀ acc,
        backtrack_loop start st.parent k v acc = search_result.found (l ++ acc.reverse)) ∧
      is_walk T start v l ∧
      (∀ cv, st.cost v = some cv → path_weight T l ≤ cv) ∧
      (v = start → l = [start]) := by
  induction h with
  | refl =>
    refine ⟨[start], ?_, ⟨rfl, rfl, List.chain'_singleton _⟩, ?_, fun _ => rfl⟩
    · intro k hk acc
      obtain ⟨k1, rfl⟩ : ∃ k1, k = k1 + 1 := ⟨k - 1, by simp at hk; omega⟩
      simp [backtrack_loop]
    · intro cv hcv
      rw [path_weight_single]
      exact hI.cost_nonneg _ _ hcv
  | @step v1 p1 hv hp _ ih =>
    obtain ⟨lp, hrun, ⟨hhead, hlast, hchain⟩, hwt, _⟩ := ih
    obtain ⟨hstep, cv1, cp, h1, h2, h3⟩ := hI.link _ _ hp hv
    cases lp with
    | nil => simp at hhead
    | cons s rest =>
      refine ⟨(s :: rest) ++ [v1], ?_, ⟨?_, ?_, ?_⟩, ?_, fun hh => absurd hh hv⟩
      · intro k hk acc
        obtain ⟨k1, rfl⟩ : ∃ k1, k = k1 + 1 := ⟨k - 1, by simp at hk; omega⟩
        have hk1 : (s :: rest).length ≤ k1 := by
          simp only [List.length_append, List.length_cons, List.length_singleton,
            List.length_nil] at hk ⊢
          omega
        simp only [backtrack_loop, hv, if_false, hp]
        rw [hrun k1 hk1 (acc ++ [v1])]
        simp
      · simpa using hhead
      · exact List.getLast?_concat _
      · apply List.Chain'.append hchain (List.chain'_singleton _)
        intro x hx y hy
        rw [hlast] at hx
        simp only [Option.mem_def, Option.some.injEq, List.head?_cons] at hx hy
        subst hx hy
        exact hstep
      · intro cv hcv
        rw [h1] at hcv
        cases hcv
        rw [path_weight_concat]
        have := hwt cp h2
        omega

/-! ## `search_path` -/

/-- The run of `search_path` towards a reachable destination, with what the
proofs of the claims need of the state in which the loop ended. -/
theorem search_path_found (lt : vector2i → vector2i → Bool) (T : array2d)
    (start dest : vector2i) (hT : costs_nonneg T) (hr : reachable T start dest) :
    ∃ fuel p st0,
      (∀ k, fuel ≤ k → search_path lt k T start dest [] = search_result.found p) ∧
      is_walk T start dest p ∧ (dest = start → p = [start]) ∧
      Inv T start st0 ∧ (∀ v, Settled T dest st0 v) ∧
      (st0.open_set = [] ∨ ∃ f, (f, dest) ∈ st0.open_set ∧ ∀ e ∈ st0.open_set, f ≤ e.1) ∧
      ∃ cd, st0.cost dest = some cd ∧ path_weight T p ≤ cd := by
  obtain ⟨fuel, st1, hrun, st0, hI0, hS0, hpar, _, hexit⟩ :=
    search_loop_ends lt T start dest hT _ (search_init start) rfl
      (search_init_inv T start) (search_init_settled T start dest)
  have hcd : ∃ cd, st0.cost dest = some cd := by
    rcases hexit with hopen | ⟨f, hf, _⟩
    · obtain ⟨q, hq1, hq2, hq3⟩ := hr
      cases q with
      | nil => simp at hq1
      | cons s rest =>
        simp only [List.head?_cons, Option.some.injEq] at hq1
        subst hq1
        exact walk_assigned T dest st0 hS0 hopen rest s 0 hq3 hq2 hI0.start_cost
    · obtain ⟨c, hc, _⟩ := hI0.open_cost f dest hf
      exact ⟨c, hc⟩
  obtain ⟨cd, hcd⟩ := hcd
  obtain ⟨l, hback, hwalk, hwt, hself⟩ := backtrack_anc T start st0 hI0 dest (hI0.anc _ _ hcd)
  refine ⟨max fuel l.length, l, st0, ?_, hwalk, hself, hI0, hS0, hexit, cd, hcd, hwt cd hcd⟩
  intro k hk
  have hk1 : fuel ≤ k := le_trans (le_max_left _ _) hk
  have hk2 : l.length ≤ k := le_trans (le_max_right _ _) hk
  simp only [search_path, hrun k hk1, hpar, backtrack]
  rw [hback k hk2 []]
  simp

/-- C1 (search_path optimality).  On a terrain whose non-wall cells all cost at
least 1, for every destination that can be reached from `start` through
4-connected non-wall cells, `search_path` returns (with enough fuel, and the
same for any larger amount) a path that is itself a 4-connected wall-free walk
from `start` to `dest` and whose total weight is at most that of every such
walk: its weight is the minimum.  It holds for every tie-break ordering `lt`
and whether or not `start` is in bounds. -/
theorem search_path_optimal (lt : vector2i → vector2i → Bool) (T : array2d)
    (start dest : vector2i) (hT : costs_pos T) (hr : reachable T start dest) :
    ∃ fuel p,
      (∀ k, fuel ≤ k → search_path lt k T start dest [] = search_result.found p) ∧
      is_walk T start dest p ∧
      ∀ q, is_walk T start dest q → path_weight T p ≤ path_weight T q := by
  have hT0 : costs_nonneg T := fun c hb hw => le_trans (by decide) (hT c hb hw)
  obtain ⟨fuel, p, st0, hrun, hwalk, _, hI0, hS0, hexit, cd, hcd, hwt⟩ :=
    search_path_found lt T start dest hT0 hr
  refine ⟨fuel, p, hrun, hwalk, ?_⟩
  rintro q ⟨hq1, hq2, hq3⟩
  cases q with
  | nil => simp at hq1
  | cons s rest =>
    simp only [List.head?_cons, Option.some.injEq] at hq1
    subst hq1
    rcases walk_bound T dest st0 hT hS0 rest s 0 hq3 hq2 hI0.start_cost with
      ⟨e, he, hle⟩ | ⟨cd1, hcd1, hle⟩
    · rcases hexit with hopen | ⟨f, hf, hmin⟩
      · rw [hopen] at he
        cases he
      · obtain ⟨c, hc, hcf⟩ := hI0.open_cost f dest hf
        rw [hcd] at hc
        cases hc
        have := hmin e he
        omega
    · rw [hcd] at hcd1
      cases hcd1
      omega

/-- C2 (search_path endpoints).  On a terrain whose non-wall costs are
non-negative, for every destination reachable from `start`, `search_path`
returns a non-empty path whose first element is `start` and whose last element
is `dest`; when `dest = start` it is the one-cell path `[start]`. -/
theorem search_path_endpoints (lt : vector2i → vector2i → Bool) (T : array2d)
    (start dest : vector2i) (hT : costs_nonneg T) (hr : reachable T start dest) :
    ∃ fuel p,
      (∀ k, fuel ≤ k → search_path lt k T start dest [] = search_result.found p) ∧
      p ≠ [] ∧ p.head? = some start ∧ p.getLast? = some dest ∧
      (dest = start → p = [start]) := by
  obtain ⟨fuel, p, _, hrun, ⟨h1, h2, _⟩, hself, _⟩ := search_path_found lt T start dest hT hr
  refine ⟨fuel, p, hrun, ?_, h1, h2, hself⟩
  rintro rfl
  simp at h1

/-! ## Only reachable cells are recorded -/

theorem terrain_unit_costs_pos : costs_pos terrain_unit :=
  fun _ _ _ => le_refl _

theorem terrain_unit_costs_nonneg : costs_nonneg terrain_unit :=
  fun _ _ _ => Int.one_nonneg

theorem terrain_unit_reachable : reachable terrain_unit ⟨0, 0⟩ ⟨1, 1⟩ :=
  ⟨[⟨0, 0⟩, ⟨0, 1⟩, ⟨1, 1⟩], rfl, rfl, by
    simp only [List.chain'_cons, List.chain'_singleton, and_true]
    exact ⟨by decide, by decide⟩⟩

/-- An instance on the 2 x 2 unit terrain, from (0, 0) to (1, 1). -/
theorem search_path_optimal_witness :
    costs_pos terrain_unit ∧ reachable terrain_unit ⟨0, 0⟩ ⟨1, 1⟩ ∧
    ∃ fuel p,
      (∀ k, fuel ≤ k →
        search_path vector2i_lt k terrain_unit ⟨0, 0⟩ ⟨1, 1⟩ [] = search_result.found p) ∧
      is_walk terrain_unit ⟨0, 0⟩ ⟨1, 1⟩ p ∧
      ∀ q, is_walk terrain_unit ⟨0, 0⟩ ⟨1, 1⟩ q →
        path_weight terrain_unit p ≤ path_weight terrain_unit q :=
  ⟨terrain_unit_costs_pos, terrain_unit_reachable,
    search_path_optimal vector2i_lt terrain_unit ⟨0, 0⟩ ⟨1, 1⟩ terrain_unit_costs_pos
      terrain_unit_reachable⟩

/-- An instance of the endpoint property on the 2 x 2 unit terrain. -/
theorem search_path_endpoints_witness :
    costs_nonneg terrain_unit ∧ reachable terrain_unit ⟨0, 0⟩ ⟨1, 1⟩ ∧
    ∃ fuel p,
      (∀ k, fuel ≤ k →
        search_path vector2i_lt k terrain_unit ⟨0, 0⟩ ⟨1, 1⟩ [] = search_result.found p) ∧
      p ≠ [] ∧ p.head? = some ⟨0, 0⟩ ∧ p.getLast? = some ⟨1, 1⟩ ∧
      ((⟨1, 1⟩ : vector2i) = ⟨0, 0⟩ → p = [⟨0, 0⟩]) :=
  ⟨terrain_unit_costs_nonneg, terrain_unit_reachable,
    search_path_endpoints vector2i_lt terrain_unit ⟨0, 0⟩ ⟨1, 1⟩ terrain_unit_costs_nonneg
      terrain_unit_reachable⟩

end nrg

namespace ObjectLine

/-! ## `ObjectLine`: one tick -/

theorem object_line_tick_stale (ndebug : Bool) (side : nrg.dir → nrg.dir) (inp : tick_input)
    (s : object_line) (h : fresh_valid inp = false) :
    movement_loop ndebug side inp s = some s := by
  unfold movement_loop
  simp only [fresh_valid, Bool.and_eq_false_iff] at h
  rcases h with ((h | h) | h) | h <;> simp [h]

theorem object_line_tick_fresh (ndebug : Bool) (side : nrg.dir → nrg.dir) (inp : tick_input)
    (s : object_line) (h : fresh_valid inp = true) :
    movement_loop ndebug side inp s =
      match s.m_state with
      | State.REQUIRE_READY_MOVE => some (do_require_ready_move side s)
      | State.DOING_READY_MOVE => do_doing_ready_move inp s
      | State.REQUIRE_OBJECT_MOVE => some (do_require_object_move s)
      | State.DOING_OBJECT_MOVE => do_doing_object_move ndebug inp s
      | State.REQUIRE_CORRECTION => some (do_require_correction inp s)
      | State.REQUIRE_CORRECTION_READY_MOVE => some (do_require_correction_ready_move side s)
      | State.DOING_CORRECTION_READY_MOVE => do_doing_correction_ready_move inp s
      | State.REQUIRE_CORRECTION_OBJECT_MOVE => some (do_require_correction_object_move s)
      | State.DOING_CORRECTION_OBJECT_MOVE => do_doing_correction_object_move ndebug inp s := by
  simp only [fresh_valid, Bool.and_eq_true] at h
  obtain ⟨⟨⟨h1, h2⟩, h3⟩, h4⟩ := h
  simp [movement_loop, h1, h2, h3, h4]

/-- A tick leaves `m_done` as it is, except a `DOING_OBJECT_MOVE` tick that
sees a finished `ObjectMove` with `AT_TARGET`. -/
theorem tick_done (ndebug : Bool) (side : nrg.dir → nrg.dir)
    (inp : tick_input) (s s1 : object_line)
    (h : movement_loop ndebug side inp s = some s1) :
    s1.m_done = s.m_done ∨
      (s1.m_done = true ∧ s.m_state = State.DOING_OBJECT_MOVE ∧ fresh_valid inp = true ∧
        inp.object_move_done = true ∧ inp.object_move_stop = Stop.AT_TARGET ∧
        s1.m_state = State.DOING_OBJECT_MOVE ∧ s1.m_object_move = none ∧
        s1.m_ready_move = s.m_ready_move) := by
  by_cases hf : fresh_valid inp = true
  · rw [object_line_tick_fresh ndebug side inp s hf] at h
    obtain ⟨d, t, b, dn, st, cd, rm, om, ta⟩ := s
    cases st <;> cases rm <;> cases om <;>
      simp only [do_require_ready_move, do_doing_ready_move, do_require_object_move,
        do_doing_object_move, do_require_correction, do_require_correction_ready_move,
        do_doing_correction_ready_move, do_require_correction_object_move,
        do_doing_correction_object_move] at h <;>
      (try split_ifs at h) <;> (try split at h) <;> (try cases h) <;> simp_all
  · simp only [Bool.not_eq_true] at hf
    rw [object_line_tick_stale ndebug side inp _ hf] at h
    cases h
    exact Or.inl rfl

/-- From a correction state a tick stays or moves to the next state of the
correction sequence, and leaves `m_done` as it is. -/
theorem tick_correction (ndebug : Bool) (side : nrg.dir → nrg.dir)
    (inp : tick_input) (s s1 : object_line) (nxt : State)
    (h : movement_loop ndebug side inp s = some s1)
    (hn : correction_next s.m_state = some nxt) :
    (s1.m_state = s.m_state ∨ s1.m_state = nxt) ∧ s1.m_done = s.m_done := by
  by_cases hf : fresh_valid inp = true
  · rw [object_line_tick_fresh ndebug side inp s hf] at h
    obtain ⟨d, t, b, dn, st, cd, rm, om, ta⟩ := s
    cases st <;> simp only [correction_next, Option.some.injEq] at hn <;>
      (try cases hn) <;> cases rm <;> cases om <;>
      simp only [do_require_ready_move, do_doing_ready_move, do_require_object_move,
        do_doing_object_move, do_require_correction, do_require_correction_ready_move,
        do_doing_correction_ready_move, do_require_correction_object_move,
        do_doing_correction_object_move] at h <;>
      (try split_ifs at h) <;> (try split at h) <;> (try cases h) <;> simp_all
  · simp only [Bool.not_eq_true] at hf
    rw [object_line_tick_stale ndebug side inp _ hf] at h
    cases h
    exact ⟨Or.inl rfl, rfl⟩

theorem tick_exceeded (ndebug : Bool) (side : nrg.dir → nrg.dir)
    (inp : tick_input) (s : object_line) (om : ObjectMove)
    (hf : fresh_valid inp = true) (hs : s.m_state = State.DOING_OBJECT_MOVE)
    (hom : s.m_object_move = some om) (hd : inp.object_move_done = true)
    (hstop : inp.object_move_stop = Stop.EXCEEDED_NORM) :
    movement_loop ndebug side inp s =
      some { s with m_object_move := none, m_state := State.REQUIRE_CORRECTION } := by
  rw [object_line_tick_fresh ndebug side inp s hf, hs]
  simp [do_doing_object_move, hom, hd, hstop]

/-- Once `m_done` is set the state is `DOING_OBJECT_MOVE` and the `ObjectMove`
handle is null. -/
theorem tick_done_state (ndebug : Bool) (side : nrg.dir → nrg.dir)
    (inp : tick_input) (s s1 : object_line)
    (hinv : s.m_done = true → s.m_state = State.DOING_OBJECT_MOVE ∧ s.m_object_move = none)
    (h : movement_loop ndebug side inp s = some s1) :
    s1.m_done = true → s1.m_state = State.DOING_OBJECT_MOVE ∧ s1.m_object_move = none := by
  intro hd1
  rcases tick_done ndebug side inp s s1 h with heq | ⟨_, _, _, _, _, h1, h2, _⟩
  · rw [hd1] at heq
    obtain ⟨h1, h2⟩ := hinv heq.symm
    by_cases hf : fresh_valid inp = true
    · rw [object_line_tick_fresh ndebug side inp s hf, h1] at h
      simp [do_doing_object_move, h2] at h
    · simp only [Bool.not_eq_true] at hf
      rw [object_line_tick_stale ndebug side inp _ hf] at h
      cases h
      exact ⟨h1, h2⟩
  · exact ⟨h1, h2⟩

theorem run_done_state (ndebug : Bool) (side : nrg.dir → nrg.dir) (inputs : List tick_input) :
    ∀ s s1 : object_line,
      (s.m_done = true → s.m_state = State.DOING_OBJECT_MOVE ∧ s.m_object_move = none) →
      run ndebug side inputs s = some s1 →
      (s1.m_done = true → s1.m_state = State.DOING_OBJECT_MOVE ∧ s1.m_object_move = none) := by
  induction inputs with
  | nil =>
    intro s s1 hinv h
    simp only [run, Option.some.injEq] at h
    subst h
    exact hinv
  | cons inp rest ih =>
    intro s s1 hinv h
    simp only [run] at h
    cases hm : movement_loop ndebug side inp s with
    | none => rw [hm] at h; cases h
    | some s2 =>
      rw [hm] at h
      exact ih s2 s1 (tick_done_state ndebug side inp s s2 hinv hm) h

/-- C4 (ObjectLine done only at target).  (1) A fresh-and-valid tick in
`DOING_OBJECT_MOVE` whose finished `ObjectMove` reports `EXCEEDED_NORM` moves
to `REQUIRE_CORRECTION` and leaves `m_done` as it was.  (2) From each of the
five correction states a tick either stays or moves to the next state of the
sequence `REQUIRE_CORRECTION`, `REQUIRE_CORRECTION_READY_MOVE`,
`DOING_CORRECTION_READY_MOVE`, `REQUIRE_CORRECTION_OBJECT_MOVE`,
`DOING_CORRECTION_OBJECT_MOVE`, `REQUIRE_READY_MOVE`, and never changes
`m_done`.  (3) A tick that turns `m_done` from false to true is a fresh
`DOING_OBJECT_MOVE` tick that sees a finished `ObjectMove` with `AT_TARGET`.
(4) In every state of every run from the constructor's state, a set `m_done`
implies the state `DOING_OBJECT_MOVE` with a null handle: `m_done` is false in
`REQUIRE_READY_MOVE` and in every correction state. -/
theorem object_line_done_only_at_target (ndebug : Bool) (side : nrg.dir → nrg.dir) :
    (∀ (inp : tick_input) (s : object_line) (om : ObjectMove),
      fresh_valid inp = true → s.m_state = State.DOING_OBJECT_MOVE →
      s.m_object_move = some om → inp.object_move_done = true →
      inp.object_move_stop = Stop.EXCEEDED_NORM →
      ∃ s1, movement_loop ndebug side inp s = some s1 ∧
        s1.m_state = State.REQUIRE_CORRECTION ∧ s1.m_done = s.m_done) ∧
    (∀ (inp : tick_input) (s s1 : object_line) (nxt : State),
      movement_loop ndebug side inp s = some s1 → correction_next s.m_state = some nxt →
      (s1.m_state = s.m_state ∨ s1.m_state = nxt) ∧ s1.m_done = s.m_done) ∧
    (∀ (inp : tick_input) (s s1 : object_line),
      movement_loop ndebug side inp s = some s1 → s.m_done = false → s1.m_done = true →
      s.m_state = State.DOING_OBJECT_MOVE ∧ fresh_valid inp = true ∧
        inp.object_move_done = true ∧ inp.object_move_stop = Stop.AT_TARGET) ∧
    (∀ (d : nrg.dir) (t b : Rat) (g : nrg.dir) (inputs : List tick_input) (s : object_line),
      run ndebug side inputs (init d t b g) = some s →
      (s.m_done = true → s.m_state = State.DOING_OBJECT_MOVE ∧ s.m_object_move = none) ∧
      ((s.m_state = State.REQUIRE_READY_MOVE ∨ (correction_next s.m_state).isSome = true) →
        s.m_done = false)) := by
  refine ⟨?_, ?_, ?_, ?_⟩
  · intro inp s om hf hs hom hd hstop
    exact ⟨_, tick_exceeded ndebug side inp s om hf hs hom hd hstop, rfl, rfl⟩
  · intro inp s s1 nxt h hn
    exact tick_correction ndebug side inp s s1 nxt h hn
  · intro inp s s1 h h0 h1
    rcases tick_done ndebug side inp s s1 h with heq | ⟨_, h2, h3, h4, h5, _⟩
    · rw [h0, h1] at heq
      cases heq
    · exact ⟨h2, h3, h4, h5⟩
  · intro d t b g inputs s h
    have hinv := run_done_state ndebug side inputs (init d t b g) s
      (fun hd => by simp [init] at hd) h
    refine ⟨hinv, ?_⟩
    intro hst
    cases hd : s.m_done with
    | false => rfl
    | true =>
      obtain ⟨h1, _⟩ := hinv hd
      rw [h1] at hst
      simp [correction_next] at hst

/-! ## `ObjectLine`: a run without correction -/

theorem state_at_succ (ndebug : Bool) (side : nrg.dir → nrg.dir) (inputs : Nat → tick_input)
    (s0 s : object_line) (n : Nat) (h : state_at ndebug side inputs s0 n = some s) :
    state_at ndebug side inputs s0 (n + 1) = movement_loop ndebug side (inputs n) s := by
  simp [state_at, h]

/-- While the polled flag stays down the state does not change. -/
theorem state_at_wait (ndebug : Bool) (side : nrg.dir → nrg.dir) (inputs : Nat → tick_input)
    (s0 s : object_line) (lo : Nat)
    (hlo : state_at ndebug side inputs s0 lo = some s)
    (n : Nat) (hkeep : ∀ k, lo ≤ k → k < lo + n → movement_loop ndebug side (inputs k) s = some s) :
    state_at ndebug side inputs s0 (lo + n) = some s := by
  induction n with
  | zero => exact hlo
  | succ n ih =>
    have h1 := ih (fun k h1 h2 => hkeep k h1 (by omega))
    have h2 : state_at ndebug side inputs s0 (lo + n + 1) =
        movement_loop ndebug side (inputs (lo + n)) s :=
      state_at_succ ndebug side inputs s0 s (lo + n) h1
    rw [show lo + (n + 1) = lo + n + 1 from rfl, h2]
    exact hkeep (lo + n) (by omega) (by omega)

/-- C5 (ObjectLine successful run).  From the constructor's state, along any
sequence of fresh-and-valid ticks in which the `ReadyMove` spawned by tick 0
first reports done at tick `i` and the `ObjectMove` spawned by tick `i + 1`
first reports done at tick `j`, with `AT_TARGET`, the machine has `m_done`
set after tick `j`; every state up to there is one of `REQUIRE_READY_MOVE`,
`DOING_READY_MOVE`, `REQUIRE_OBJECT_MOVE`, `DOING_OBJECT_MOVE`, and `m_done`
is false in every state before the last. -/
theorem object_line_successful_run (ndebug : Bool) (side : nrg.dir → nrg.dir)
    (d : nrg.dir) (t b : Rat) (g : nrg.dir) (inputs : Nat → tick_input) (i j : Nat)
    (hfresh : ∀ n, fresh_valid (inputs n) = true)
    (hi : 1 ≤ i) (hready : (inputs i).ready_move_done = true)
    (hwait1 : ∀ k, 1 ≤ k → k < i → (inputs k).ready_move_done = false)
    (hj : i + 2 ≤ j) (hobj : (inputs j).object_move_done = true)
    (hstop : (inputs j).object_move_stop = Stop.AT_TARGET)
    (hwait2 : ∀ k, i + 2 ≤ k → k < j → (inputs k).object_move_done = false) :
    (∃ s, state_at ndebug side inputs (init d t b g) (j + 1) = some s ∧ s.m_done = true) ∧
    ∀ k, k ≤ j + 1 → ∃ s, state_at ndebug side inputs (init d t b g) k = some s ∧
      plain_state s.m_state = true ∧ (k ≤ j → s.m_done = false) := by
  have e0 : state_at ndebug side inputs (init d t b g) 0 = some (init d t b g) := rfl
  -- tick 0 spawns the ReadyMove
  have e1 : state_at ndebug side inputs (init d t b g) 1 =
      some (do_require_ready_move side (init d t b g)) := by
    rw [state_at_succ ndebug side inputs _ _ 0 e0, object_line_tick_fresh _ _ _ _ (hfresh 0)]
    rfl
  -- ticks 1 .. i - 1 wait for it
  have e2 : ∀ n, 1 + n ≤ i → state_at ndebug side inputs (init d t b g) (1 + n) =
      some (do_require_ready_move side (init d t b g)) := by
    intro n hn
    apply state_at_wait ndebug side inputs _ _ 1 e1
    intro k hk1 hk2
    rw [object_line_tick_fresh _ _ _ _ (hfresh k)]
    simp [do_require_ready_move, init, do_doing_ready_move, hwait1 k hk1 (by omega)]
  have e3 : state_at ndebug side inputs (init d t b g) i =
      some (do_require_ready_move side (init d t b g)) := by
    have := e2 (i - 1) (by omega)
    rwa [show 1 + (i - 1) = i by omega] at this
  -- tick i sees it done, tick i + 1 spawns the ObjectMove
  have e4 : state_at ndebug side inputs (init d t b g) (i + 1) =
      some { init d t b g with m_state := State.REQUIRE_OBJECT_MOVE } := by
    rw [state_at_succ ndebug side inputs _ _ i e3, object_line_tick_fresh _ _ _ _ (hfresh i)]
    simp [do_require_ready_move, init, do_doing_ready_move, hready]
  have e5 : state_at ndebug side inputs (init d t b g) (i + 2) =
      some (do_require_object_move { init d t b g with m_state := State.REQUIRE_OBJECT_MOVE }) := by
    rw [state_at_succ ndebug side inputs _ _ (i + 1) e4,
      object_line_tick_fresh _ _ _ _ (hfresh (i + 1))]
  -- ticks i + 2 .. j - 1 wait for it
  have e6 : ∀ n, i + 2 + n ≤ j → state_at ndebug side inputs (init d t b g) (i + 2 + n) =
      some (do_require_object_move { init d t b g with m_state := State.REQUIRE_OBJECT_MOVE }) := by
    intro n hn
    apply state_at_wait ndebug side inputs _ _ (i + 2) e5
    intro k hk1 hk2
    rw [object_line_tick_fresh _ _ _ _ (hfresh k)]
    simp [do_require_object_move, init, do_doing_object_move, hwait2 k hk1 (by omega)]
  have e7 : state_at ndebug side inputs (init d t b g) j =
      some (do_require_object_move { init d t b g with m_state := State.REQUIRE_OBJECT_MOVE }) := by
    have := e6 (j - (i + 2)) (by omega)
    rwa [show i + 2 + (j - (i + 2)) = j by omega] at this
  -- tick j sees AT_TARGET
  have e8 : state_at ndebug side inputs (init d t b g) (j + 1) =
      some { do_require_object_move { init d t b g with m_state := State.REQUIRE_OBJECT_MOVE }
        with m_object_move := none, timer_active := false, m_done := true } := by
    rw [state_at_succ ndebug side inputs _ _ j e7, object_line_tick_fresh _ _ _ _ (hfresh j)]
    simp [do_require_object_move, init, do_doing_object_move, hobj, hstop]
  refine ⟨⟨_, e8, rfl⟩, ?_⟩
  intro k hk
  by_cases h0 : k = 0
  · subst h0
    exact ⟨_, e0, rfl, fun _ => rfl⟩
  by_cases h1 : k ≤ i
  · have := e2 (k - 1) (by omega)
    rw [show 1 + (k - 1) = k by omega] at this
    exact ⟨_, this, rfl, fun _ => rfl⟩
  by_cases h2 : k = i + 1
  · subst h2
    exact ⟨_, e4, rfl, fun _ => rfl⟩
  by_cases h3 : k ≤ j
  · have := e6 (k - (i + 2)) (by omega)
    rw [show i + 2 + (k - (i + 2)) = k by omega] at this
    exact ⟨_, this, rfl, fun _ => rfl⟩
  · have h4 : k = j + 1 := by omega
    subst h4
    exact ⟨_, e8, rfl, fun h => absurd h (by omega)⟩

/-- An instance: the `EXCEEDED_NORM` tick right after the `ObjectMove` was spawned. -/
theorem object_line_done_only_at_target_witness :
    ∃ s1, movement_loop false id input_exceeded
        (do_require_object_move (init nrg.dir.RIGHT 5 0 nrg.dir.RIGHT)) = some s1 ∧
      s1.m_state = State.REQUIRE_CORRECTION ∧
      s1.m_done = (do_require_object_move (init nrg.dir.RIGHT 5 0 nrg.dir.RIGHT)).m_done :=
  (object_line_done_only_at_target false id).1 input_exceeded
    (do_require_object_move (init nrg.dir.RIGHT 5 0 nrg.dir.RIGHT)) _ rfl rfl rfl rfl rfl

/-- An instance: every sub-procedure reports done at once, `i = 1` and `j = 3`. -/
theorem object_line_successful_run_witness :
    (∃ s, state_at false id (fun _ => input_at_target)
        (init nrg.dir.RIGHT 5 0 nrg.dir.RIGHT) (3 + 1) = some s ∧ s.m_done = true) ∧
    ∀ k, k ≤ 3 + 1 → ∃ s, state_at false id (fun _ => input_at_target)
        (init nrg.dir.RIGHT 5 0 nrg.dir.RIGHT) k = some s ∧
      plain_state s.m_state = true ∧ (k ≤ 3 → s.m_done = false) :=
  object_line_successful_run false id nrg.dir.RIGHT 5 0 nrg.dir.RIGHT (fun _ => input_at_target)
    1 3 (fun _ => rfl) (le_refl _) rfl (fun k h1 h2 => absurd h1 (by omega)) (le_refl _) rfl rfl
    (fun k h1 h2 => absurd h1 (by omega))

/-! ## `ObjectLine`: the two handles -/

/-- One tick keeps the correspondence between the state and the live handle,
as long as a finished `ObjectMove` does not report `OKAY`. -/
theorem tick_handles (ndebug : Bool) (side : nrg.dir → nrg.dir)
    (inp : tick_input) (s s1 : object_line) (hc : stop_contract inp)
    (hinv : handles_inv s) (h : movement_loop ndebug side inp s = some s1) :
    handles_inv s1 := by
  by_cases hf : fresh_valid inp = true
  · rw [object_line_tick_fresh ndebug side inp s hf] at h
    obtain ⟨d, t, b, dn, st, cd, rm, om, ta⟩ := s
    unfold stop_contract at hc
    unfold handles_inv at hinv ⊢
    cases dn <;> cases st <;> cases rm <;> cases om <;>
      simp only [do_require_ready_move, do_doing_ready_move, do_require_object_move,
        do_doing_object_move, do_require_correction, do_require_correction_ready_move,
        do_doing_correction_ready_move, do_require_correction_object_move,
        do_doing_correction_object_move] at h <;>
      (try split_ifs at h) <;> (try split at h) <;> (try cases h) <;> simp_all
  · simp only [Bool.not_eq_true] at hf
    rw [object_line_tick_stale ndebug side inp _ hf] at h
    cases h
    exact hinv

theorem run_handles (ndebug : Bool) (side : nrg.dir → nrg.dir) (inputs : List tick_input) :
    ∀ s s1 : object_line, (∀ inp ∈ inputs, stop_contract inp) → handles_inv s →
      run ndebug side inputs s = some s1 → handles_inv s1 := by
  induction inputs with
  | nil =>
    intro s s1 _ hinv h
    simp only [run, Option.some.injEq] at h
    subst h
    exact hinv
  | cons inp rest ih =>
    intro s s1 hc hinv h
    simp only [run] at h
    cases hm : movement_loop ndebug side inp s with
    | none => rw [hm] at h; cases h
    | some s2 =>
      rw [hm] at h
      exact ih s2 s1 (fun x hx => hc x (List.mem_cons_of_mem _ hx))
        (tick_handles ndebug side inp s s2 (hc inp (List.mem_cons_self _ _)) hinv hm) h

/-- C6, as amended (ObjectLine single-sub-procedure invariant).  In every state
reached from the constructor's state by `movement_loop` ticks on which a
finished `ObjectMove` does not report `OKAY`: at most one of the two handles is
non-null; while `m_done` is false the ready-move handle is non-null exactly in
`DOING_READY_MOVE` and `DOING_CORRECTION_READY_MOVE` and the object-move handle
is non-null exactly in `DOING_OBJECT_MOVE` and `DOING_CORRECTION_OBJECT_MOVE`
(so both are null in every `REQUIRE_*` state); once `m_done` is set the state
is still `DOING_OBJECT_MOVE` and both handles are null. -/
theorem object_line_handles (ndebug : Bool) (side : nrg.dir → nrg.dir)
    (d : nrg.dir) (t b : Rat) (g : nrg.dir) (inputs : List tick_input) (s : object_line)
    (hc : ∀ inp ∈ inputs, stop_contract inp)
    (h : run ndebug side inputs (init d t b g) = some s) :
    handles_inv s ∧ ¬ (s.m_ready_move ≠ none ∧ s.m_object_move ≠ none) := by
  have h0 : handles_inv (init d t b g) := by
    simp [handles_inv, init]
  have hinv := run_handles ndebug side inputs _ s hc h0 h
  refine ⟨hinv, ?_⟩
  rintro ⟨h1, h2⟩
  obtain ⟨ha, hb⟩ := hinv
  cases hd : s.m_done with
  | true =>
    obtain ⟨_, h3, _⟩ := hb hd
    exact h1 h3
  | false =>
    obtain ⟨h3, h4⟩ := ha hd
    have h5 := h3.mp h1
    have h6 := h4.mp h2
    rcases h5 with h5 | h5 <;> rcases h6 with h6 | h6 <;> rw [h5] at h6 <;> cases h6

theorem input_at_target_contract : stop_contract input_at_target := by
  intro _
  decide

/-- An instance: the state after the first tick. -/
theorem object_line_handles_witness :
    handles_inv (do_require_ready_move id (init nrg.dir.RIGHT 5 0 nrg.dir.RIGHT)) ∧
    ¬ ((do_require_ready_move id (init nrg.dir.RIGHT 5 0 nrg.dir.RIGHT)).m_ready_move ≠ none ∧
      (do_require_ready_move id (init nrg.dir.RIGHT 5 0 nrg.dir.RIGHT)).m_object_move ≠ none) :=
  object_line_handles false id nrg.dir.RIGHT 5 0 nrg.dir.RIGHT [input_at_target] _
    (fun inp hinp => by
      simp only [List.mem_singleton] at hinp
      subst hinp
      exact input_at_target_contract)
    rfl

/-- C6, counterexample.  Four ticks on which every sub-procedure reports done
and the `ObjectMove` reports `AT_TARGET` lead from the constructor's state to
a state in `DOING_OBJECT_MOVE` whose object-move handle is null. -/
theorem object_line_terminal_handle_null :
    ∃ s, run false id [input_at_target, input_at_target, input_at_target, input_at_target]
        (init nrg.dir.RIGHT 5 0 nrg.dir.RIGHT) = some s ∧
      s.m_state = State.DOING_OBJECT_MOVE ∧ s.m_object_move = none ∧ s.m_done = true :=
  ⟨_, rfl, rfl, rfl, rfl⟩

end ObjectLine

namespace Procedure

/-! ## Rounding to a `double` -/

theorem round_even_intCast (n : Int) : round_even (n : Rat) = n := by
  simp [round_even]

theorem round_even_nonneg (q : Rat) (h : 0 ≤ q) : 0 ≤ round_even q := by
  have hf : 0 ≤ Int.floor q := Int.floor_nonneg.mpr h
  unfold round_even
  split_ifs <;> omega

theorem round_even_nonpos (q : Rat) (h : q ≤ 0) : round_even q ≤ 0 := by
  have hf : Int.floor q ≤ 0 := by
    have h1 : ((Int.floor q : Int) : Rat) ≤ 0 := le_trans (Int.floor_le q) h
    exact_mod_cast h1
  unfold round_even
  split_ifs with h1 h2 h3
  · exact hf
  · rcases eq_or_lt_of_le hf with h0 | hneg
    · rw [h0] at h2
      simp at h2
      linarith
    · omega
  · exact hf
  · rcases eq_or_lt_of_le hf with h0 | hneg
    · rw [h0] at h3
      simp at h3
    · omega

/-- Rounding does not turn a number that is not negative into a negative one. -/
theorem round_double_nonneg (q : Rat) (h : 0 ≤ q) : 0 ≤ round_double q := by
  unfold round_double
  have hp : (0 : Rat) < 2 ^ ulp_exp q := by positivity
  have h1 : 0 ≤ round_even (q / 2 ^ ulp_exp q) := round_even_nonneg _ (div_nonneg h hp.le)
  have h2 : (0 : Rat) ≤ (round_even (q / 2 ^ ulp_exp q) : Rat) := by exact_mod_cast h1
  exact mul_nonneg h2 hp.le

/-- Rounding does not turn a number that is not positive into a positive one. -/
theorem round_double_nonpos (q : Rat) (h : q ≤ 0) : round_double q ≤ 0 := by
  unfold round_double
  have hp : (0 : Rat) < 2 ^ ulp_exp q := by positivity
  have h1 : round_even (q / 2 ^ ulp_exp q) ≤ 0 :=
    round_even_nonpos _ (div_nonpos_of_nonpos_of_nonneg h hp.le)
  have h2 : (round_even (q / 2 ^ ulp_exp q) : Rat) ≤ 0 := by exact_mod_cast h1
  exact mul_nonpos_of_nonpos_of_nonneg h2 hp.le

/-- The subtraction of the machine keeps the order of its arguments. -/
theorem ieee_sub_keeps_sign (hypot : Rat → Rat → Rat) (norm_sq : vector2d → Rat) :
    sub_keeps_sign (ieee_ops hypot norm_sq) := by
  intro a b
  exact ⟨fun h => round_double_nonneg _ (by linarith), fun h => round_double_nonpos _ (by linarith)⟩

/-- The exponent of the last place, from the binade of the number. -/
theorem ulp_exp_eq (q : Rat) (k : Int) (hk : -1022 ≤ k) (h1 : (2 : Rat) ^ k ≤ |q|)
    (h2 : |q| < (2 : Rat) ^ (k + 1)) : ulp_exp q = k - 52 := by
  have hpos : 0 < |q| := lt_of_lt_of_le (by positivity) h1
  have hlog : Int.log 2 |q| = k := by
    apply le_antisymm
    · have := (Int.lt_zpow_iff_log_lt (by norm_num : 1 < 2) hpos (x := k + 1)).mp
        (by exact_mod_cast h2)
      omega
    · exact (Int.zpow_le_iff_le_log (by norm_num : 1 < 2) hpos).mp (by exact_mod_cast h1)
  unfold ulp_exp
  rw [hlog]
  omega

theorem round_double_zero : round_double 0 = 0 := by
  simp [round_double, round_even]

/-- A number with at most 53 significant bits in its binade is a `double`:
rounding leaves it as it is. -/
theorem round_double_exact (q : Rat) (k n : Int) (hk : -1022 ≤ k) (h1 : (2 : Rat) ^ k ≤ |q|)
    (h2 : |q| < (2 : Rat) ^ (k + 1)) (hn : q = n * 2 ^ (k - 52)) : round_double q = q := by
  unfold round_double
  rw [ulp_exp_eq q k hk h1 h2]
  have hp : (2 : Rat) ^ (k - 52) ≠ 0 := by positivity
  have : q / 2 ^ (k - 52) = (n : Rat) := by
    rw [hn]
    field_simp
  rw [this, round_even_intCast, ← hn]

/-- The difference of the `double`s nearest to 1.1 and to 0.1 is 1 + 3 * 2^-55,
less than half a unit in the last place above 1: the machine gives 1. -/
theorem round_double_tenth :
    round_double (2476979795053773 / 2251799813685248 - 3602879701896397 / 36028797018963968) =
      1 := by
  have he : ulp_exp (2476979795053773 / 2251799813685248 -
      3602879701896397 / 36028797018963968) = 0 - 52 := by
    apply ulp_exp_eq _ 0 (by norm_num)
    · rw [abs_of_pos (by norm_num)]
      norm_num
    · rw [abs_of_pos (by norm_num)]
      norm_num
  unfold round_double
  rw [he]
  have hq : ((2476979795053773 : Rat) / 2251799813685248 -
      3602879701896397 / 36028797018963968) / 2 ^ ((0 : Int) - 52) = 2 ^ 52 + 3 / 8 := by
    norm_num [zpow_neg]
  rw [hq]
  have hr : round_even (2 ^ 52 + 3 / 8) = 2 ^ 52 := by
    have hf : Int.floor ((2 : Rat) ^ 52 + 3 / 8) = 2 ^ 52 := by
      rw [Int.floor_eq_iff]
      constructor <;> norm_num
    unfold round_even
    rw [hf]
    norm_num
  rw [hr]
  norm_num [zpow_neg]

theorem round_double_one : round_double (1 - 0) = 1 := by
  have h : round_double 1 = 1 := by
    apply round_double_exact 1 0 (2 ^ 52) (by norm_num)
    · rw [abs_of_pos (by norm_num)]
      norm_num
    · rw [abs_of_pos (by norm_num)]
      norm_num
    · norm_num [zpow_neg]
  rw [sub_zero]
  exact h

theorem round_double_seven_halves : round_double (0 - 7 / 2) = -(7 / 2) := by
  have h : round_double (-(7 / 2)) = -(7 / 2) := by
    apply round_double_exact (-(7 / 2)) 1 (-(7 * 2 ^ 50)) (by norm_num)
    · rw [abs_of_neg (by norm_num)]
      norm_num
    · rw [abs_of_neg (by norm_num)]
      norm_num
    · norm_num [zpow_neg]
  rw [zero_sub]
  exact h

/-! ## `Procedure`: one tick -/

theorem procedure_tick_terminal (fp : double_ops)
    (pi : vector2d → vector2d → vector2d → vector2d)
    (inp : tick_input) (s : procedure)
    (h : s.index = s.path.length ∨ inp.sol_expired = true) :
    movement_loop fp pi inp s =
      some ({ s with timer_active := false, m_done := true }, [event.finished]) := by
  unfold movement_loop
  rcases h with h | h <;> simp [h]

theorem procedure_tick_stale (fp : double_ops)
    (pi : vector2d → vector2d → vector2d → vector2d)
    (inp : tick_input) (s : procedure)
    (hidx : s.index ≠ s.path.length) (hexp : inp.sol_expired = false)
    (hstale : inp.robot_box_fresh = false ∨ inp.robot_box_valid = false) :
    movement_loop fp pi inp s = some (s, []) := by
  unfold movement_loop
  rcases hstale with h | h <;> simp [hidx, hexp, h]

theorem move_events (inp : tick_input) (p : Rat) (hexp : inp.sol_expired = false) :
    move_right inp p = [event.move (to_int p) 0] ∧
    move_left inp p = [event.move (-(to_int p)) 0] ∧
    move_up inp p = [event.move 0 (-(to_int p))] ∧
    move_down inp p = [event.move 0 (to_int p)] := by
  simp [move_right, move_left, move_up, move_down, hexp]

/-- A fresh tick before the end of the path: either the waypoint is reached
and the index goes up by one, nothing being sent, or the state is unchanged. -/
theorem procedure_tick_fresh (fp : double_ops)
    (pi : vector2d → vector2d → vector2d → vector2d)
    (inp : tick_input) (s : procedure) (target : vector2d)
    (hexp : inp.sol_expired = false) (hf : inp.robot_box_fresh = true)
    (hv : inp.robot_box_valid = true) (ht : s.path[s.index]? = some target) :
    (fp.hypot (fp.sub target.x inp.center.x) (fp.sub target.y inp.center.y) < s.loc_accept →
      movement_loop fp pi inp s = some ({ s with index := s.index + 1 }, [])) ∧
    (¬ fp.hypot (fp.sub target.x inp.center.x) (fp.sub target.y inp.center.y) < s.loc_accept →
      ∃ ev, movement_loop fp pi inp s = some (s, ev)) := by
  have hlt : s.index < s.path.length := by
    by_contra hcon
    rw [List.getElem?_eq_none (by omega)] at ht
    cases ht
  have hne : s.index ≠ s.path.length := by omega
  have hsrc : ∃ source, (if s.index > 0 then s.path[s.index - 1]? else some s.initial) =
      some source := by
    split_ifs with h0
    · exact ⟨s.path[s.index - 1], List.getElem?_eq_getElem (by omega)⟩
    · exact ⟨_, rfl⟩
  obtain ⟨source, hsrc⟩ := hsrc
  constructor
  · intro hh
    unfold movement_loop
    simp only [hne, decide_False, hexp, Bool.or_self, Bool.false_eq_true, if_false, hf, hv,
      Bool.not_true, ht, hsrc, hh, if_true]
  · intro hh
    unfold movement_loop
    simp only [hne, decide_False, hexp, Bool.or_self, Bool.false_eq_true, if_false, hf, hv,
      Bool.not_true, ht, hsrc, hh]
    split_ifs <;> exact ⟨_, rfl⟩

/-- Whatever the tick, from a state whose index is within the path: the reads
of `path` are in bounds, the path is kept, the index stays or goes up by one,
and it stays within the path. -/
theorem tick_index (fp : double_ops) (pi : vector2d → vector2d → vector2d → vector2d)
    (inp : tick_input) (s : procedure) (hle : s.index ≤ s.path.length) :
    ∃ s1 ev, movement_loop fp pi inp s = some (s1, ev) ∧ s1.path = s.path ∧
      (s1.index = s.index ∨ s1.index = s.index + 1) ∧ s1.index ≤ s1.path.length := by
  by_cases hterm : s.index = s.path.length ∨ inp.sol_expired = true
  · exact ⟨_, _, procedure_tick_terminal fp pi inp s hterm, rfl, Or.inl rfl, hle⟩
  · simp only [not_or, Bool.not_eq_true] at hterm
    obtain ⟨hne, hexp⟩ := hterm
    by_cases hfresh : inp.robot_box_fresh = true ∧ inp.robot_box_valid = true
    · obtain ⟨hf, hv⟩ := hfresh
      have hlt : s.index < s.path.length := by omega
      have ht : s.path[s.index]? = some s.path[s.index] := List.getElem?_eq_getElem hlt
      obtain ⟨h1, h2⟩ := procedure_tick_fresh fp pi inp s _ hexp hf hv ht
      by_cases hh : fp.hypot (fp.sub s.path[s.index].x inp.center.x)
          (fp.sub s.path[s.index].y inp.center.y) < s.loc_accept
      · exact ⟨_, _, h1 hh, rfl, Or.inr rfl, hlt⟩
      · obtain ⟨ev, hev⟩ := h2 hh
        exact ⟨_, _, hev, rfl, Or.inl rfl, hle⟩
    · have hstale : inp.robot_box_fresh = false ∨ inp.robot_box_valid = false := by
        cases h1 : inp.robot_box_fresh <;> cases h2 : inp.robot_box_valid <;> simp_all
      exact ⟨_, _, procedure_tick_stale fp pi inp s hne hexp hstale, rfl, Or.inl rfl, hle⟩

theorem run_index (fp : double_ops) (pi : vector2d → vector2d → vector2d → vector2d)
    (inputs : List tick_input) :
    ∀ s : procedure, s.index ≤ s.path.length →
      ∃ s1 ev, run fp pi inputs s = some (s1, ev) ∧ s1.path = s.path ∧
        s.index ≤ s1.index ∧ s1.index ≤ s1.path.length := by
  induction inputs with
  | nil => exact fun s hle => ⟨s, [], rfl, rfl, le_refl _, hle⟩
  | cons inp rest ih =>
    intro s hle
    obtain ⟨s1, ev, h1, hp1, hstep, hle1⟩ := tick_index fp pi inp s hle
    obtain ⟨s2, ev2, h2, hp2, hmono, hle2⟩ := ih s1 hle1
    refine ⟨s2, ev ++ ev2, ?_, hp2.trans hp1, ?_, hle2⟩
    · simp [run, h1, h2]
    · rcases hstep with h | h <;> omega

/-- Once the index has reached the length of the path, ticks neither move it
nor send a motion command. -/
theorem run_at_end (fp : double_ops) (pi : vector2d → vector2d → vector2d → vector2d)
    (inputs : List tick_input) :
    ∀ s : procedure, s.index = s.path.length →
      ∃ s1 ev, run fp pi inputs s = some (s1, ev) ∧ s1.index = s.index ∧
        s1.path = s.path ∧ (∀ e ∈ ev, is_move e = false) ∧
        (inputs ≠ [] → s1.m_done = true ∧ s1.timer_active = false) := by
  induction inputs with
  | nil => exact fun s _ => ⟨s, [], rfl, rfl, rfl, by simp, fun h => absurd rfl h⟩
  | cons inp rest ih =>
    intro s hidx
    have h1 := procedure_tick_terminal fp pi inp s (Or.inl hidx)
    obtain ⟨s2, ev2, h2, hi2, hp2, hev2, hd2⟩ :=
      ih { s with timer_active := false, m_done := true } hidx
    refine ⟨s2, [event.finished] ++ ev2, ?_, hi2, hp2, ?_, fun _ => ?_⟩
    · simp [run, h1, h2]
    · intro e he
      simp only [List.singleton_append, List.mem_cons] at he
      rcases he with he | he
      · subst he
        rfl
      · exact hev2 e he
    · cases rest with
      | nil =>
        simp only [run, Option.some.injEq, Prod.mk.injEq] at h2
        obtain ⟨h3, _⟩ := h2
        subst h3
        exact ⟨rfl, rfl⟩
      | cons a as => exact hd2 (by simp)

/-- C7, as amended (Procedure stale tick).  A `movement_loop` tick on which the
robot-box observation is not fresh or not valid sends no motion command and
leaves the waypoint index as it is, in every state.  When the index has not
reached the length of the path and the actuator reference has not expired, it
leaves the whole state as it is and sends nothing.  Otherwise the tick is the
terminal tick all the same: the timer is stopped, `m_done` is set and
`finished` is signalled. -/
theorem procedure_stale_tick (fp : double_ops)
    (pi : vector2d → vector2d → vector2d → vector2d)
    (inp : tick_input) (s : procedure)
    (hstale : inp.robot_box_fresh = false ∨ inp.robot_box_valid = false) :
    ∃ s1 ev, movement_loop fp pi inp s = some (s1, ev) ∧
      (∀ e ∈ ev, is_move e = false) ∧ s1.index = s.index ∧
      ((s.index ≠ s.path.length ∧ inp.sol_expired = false) → s1 = s ∧ ev = []) ∧
      ((s.index = s.path.length ∨ inp.sol_expired = true) →
        s1 = { s with timer_active := false, m_done := true } ∧ ev = [event.finished]) := by
  by_cases hterm : s.index = s.path.length ∨ inp.sol_expired = true
  · refine ⟨_, _, procedure_tick_terminal fp pi inp s hterm, ?_, rfl, ?_, fun _ => ⟨rfl, rfl⟩⟩
    · intro e he
      simp only [List.mem_singleton] at he
      subst he
      rfl
    · rintro ⟨h1, h2⟩
      rcases hterm with h | h
      · exact absurd h h1
      · rw [h2] at h
        cases h
  · have hterm1 := hterm
    simp only [not_or, Bool.not_eq_true] at hterm1
    obtain ⟨hne, hexp⟩ := hterm1
    refine ⟨_, _, procedure_tick_stale fp pi inp s hne hexp hstale, ?_, rfl,
      fun _ => ⟨rfl, rfl⟩, fun h => absurd h hterm⟩
    intro e he
    cases he

/-- An instance: a stale tick on the way to the waypoint. -/
theorem procedure_stale_tick_witness :
    ∃ s1 ev, movement_loop ops_example perp_target input_stale procedure_on_way =
        some (s1, ev) ∧
      (∀ e ∈ ev, is_move e = false) ∧ s1.index = procedure_on_way.index ∧
      ((procedure_on_way.index ≠ procedure_on_way.path.length ∧
          input_stale.sol_expired = false) → s1 = procedure_on_way ∧ ev = []) ∧
      ((procedure_on_way.index = procedure_on_way.path.length ∨
          input_stale.sol_expired = true) →
        s1 = { procedure_on_way with timer_active := false, m_done := true } ∧
          ev = [event.finished]) :=
  procedure_stale_tick ops_example perp_target input_stale procedure_on_way (Or.inl rfl)

/-- C7, counterexample.  In the state whose index has reached the length of the
path, with `m_done` false and the timer running, a tick on which the robot box
is not fresh sets `m_done` and stops the timer. -/
theorem procedure_stale_tick_terminal :
    input_stale.robot_box_fresh = false ∧
    ∃ s1 ev, movement_loop ops_example perp_target input_stale procedure_at_end =
        some (s1, ev) ∧
      procedure_at_end.m_done = false ∧ s1.m_done = true ∧
      procedure_at_end.timer_active = true ∧ s1.timer_active = false :=
  ⟨rfl, _, _,
    procedure_tick_terminal ops_example perp_target input_stale procedure_at_end (Or.inl rfl),
    rfl, rfl, rfl, rfl⟩

/-- C8 (Procedure index invariant).  Every sequence of `movement_loop` ticks
from a state with index 0 runs without reading `path` outside its bounds and
ends in a state whose index is at most the length of the (unchanged) path; and
from every state so reached, any further tick reads `path` in bounds, leaves
the index unchanged or increases it by exactly one, and keeps it at most the
length of the path. -/
theorem procedure_index_invariant (fp : double_ops)
    (pi : vector2d → vector2d → vector2d → vector2d)
    (s0 : procedure) (h0 : s0.index = 0) (inputs : List tick_input) :
    ∃ s ev, run fp pi inputs s0 = some (s, ev) ∧ s.path = s0.path ∧
      s.index ≤ s.path.length ∧
      ∀ inp, ∃ s1 ev1, movement_loop fp pi inp s = some (s1, ev1) ∧ s1.path = s.path ∧
        (s1.index = s.index ∨ s1.index = s.index + 1) ∧ s1.index ≤ s1.path.length := by
  obtain ⟨s, ev, hrun, hpath, _, hle⟩ := run_index fp pi inputs s0 (by omega)
  exact ⟨s, ev, hrun, hpath, hle, fun inp => tick_index fp pi inp s hle⟩

/-- An instance: a tick that reaches the waypoint, then a stale tick. -/
theorem procedure_index_invariant_witness :
    ∃ s ev, run ops_example perp_target [input_reached, input_stale] procedure_on_way =
        some (s, ev) ∧
      s.path = procedure_on_way.path ∧ s.index ≤ s.path.length ∧
      ∀ inp, ∃ s1 ev1, movement_loop ops_example perp_target inp s = some (s1, ev1) ∧
        s1.path = s.path ∧
        (s1.index = s.index ∨ s1.index = s.index + 1) ∧ s1.index ≤ s1.path.length :=
  procedure_index_invariant ops_example perp_target procedure_on_way rfl
    [input_reached, input_stale]

/-- C9 (Procedure terminal tick).  In every state in which the index equals the
length of the path or the actuator reference has expired, a tick stops the
timer, sets `m_done`, signals `finished` and sends no motion command; and once
the index equals the length of the path, no sequence of later ticks sends a
motion command or changes the index. -/
theorem procedure_terminal_tick (fp : double_ops)
    (pi : vector2d → vector2d → vector2d → vector2d)
    (s : procedure) :
    (∀ inp : tick_input, (s.index = s.path.length ∨ inp.sol_expired = true) →
      movement_loop fp pi inp s =
        some ({ s with timer_active := false, m_done := true }, [event.finished])) ∧
    (s.index = s.path.length → ∀ inputs : List tick_input,
      ∃ s1 ev, run fp pi inputs s = some (s1, ev) ∧ s1.index = s.index ∧
        (∀ e ∈ ev, is_move e = false) ∧
        (inputs ≠ [] → s1.m_done = true ∧ s1.timer_active = false)) := by
  refine ⟨fun inp h => procedure_tick_terminal fp pi inp s h, ?_⟩
  intro hidx inputs
  obtain ⟨s1, ev, h1, h2, _, h3, h4⟩ := run_at_end fp pi inputs s hidx
  exact ⟨s1, ev, h1, h2, h3, h4⟩

/-- An instance: the tick after the last waypoint was reached. -/
theorem procedure_terminal_tick_witness :
    movement_loop ops_example perp_target input_reached procedure_at_end =
      some ({ procedure_at_end with timer_active := false, m_done := true },
        [event.finished]) :=
  (procedure_terminal_tick ops_example perp_target procedure_at_end).1 input_reached
    (Or.inl rfl)

/-! ## `Procedure`: the move command -/

theorem to_int_abs_of_nonneg (q : Rat) (h : 0 ≤ q) : to_int |q| = to_int q := by
  rw [abs_of_nonneg h]

theorem to_int_abs_of_nonpos (q : Rat) (h : q ≤ 0) : -(to_int |q|) = to_int q := by
  rw [abs_of_nonpos h]
  unfold to_int
  rcases eq_or_lt_of_le h with h0 | hneg
  · subst h0
    simp
  · have h1 : (0 : Rat) ≤ -q := by linarith
    have h2 : ¬ (0 : Rat) ≤ q := by linarith
    simp only [h1, h2, if_true, if_false]
    rw [Int.floor_neg]
    ring

/-- The integer part has the magnitude of the number, rounded down, and its sign. -/
theorem to_int_spec (q : Rat) :
    |to_int q| = Int.floor |q| ∧ (0 < to_int q → 0 < q) ∧ (to_int q < 0 → q < 0) := by
  unfold to_int
  by_cases h : 0 ≤ q
  · simp only [h, if_true]
    have hf : 0 ≤ Int.floor q := Int.floor_nonneg.mpr h
    refine ⟨?_, ?_, ?_⟩
    · rw [abs_of_nonneg hf, abs_of_nonneg h]
    · intro hpos
      have : (0 : Rat) < q := by
        by_contra hcon
        have hq : q = 0 := le_antisymm (not_lt.mp hcon) h
        rw [hq] at hpos
        simp at hpos
      exact this
    · intro hneg
      omega
  · simp only [h, if_false]
    have hq : q < 0 := not_le.mp h
    have hc : Int.ceil q ≤ 0 := Int.ceil_le.mpr (by exact_mod_cast le_of_lt hq)
    refine ⟨?_, ?_, fun _ => hq⟩
    · rw [abs_of_nonpos hc, abs_of_neg hq, Int.floor_neg]
    · intro hpos
      omega

/-- The choice of the axis and of the direction (procedure.cpp:162-172) sends
the integer part of the larger error component, the error being the rounded
difference of the target and the centre. -/
theorem axis_move (fp : double_ops) (hsign : sub_keeps_sign fp)
    (inp : tick_input) (s : procedure) (hexp : inp.sol_expired = false)
    (ex ey tx ty cx cy : Rat) (hx : ex = fp.sub tx cx) (hy : ey = fp.sub ty cy) :
    (if |ex| > |ey| then
        (if tx > cx then some (s, move_right inp |ex|) else some (s, move_left inp |ex|))
      else
        (if ty > cy then some (s, move_down inp |ey|) else some (s, move_up inp |ey|))) =
      some (s, [if |ex| > |ey| then event.move (to_int ex) 0 else event.move 0 (to_int ey)]) := by
  obtain ⟨m1, m2, _, _⟩ := move_events inp |ex| hexp
  obtain ⟨_, _, n3, n4⟩ := move_events inp |ey| hexp
  by_cases hax : |ex| > |ey|
  · simp only [hax, if_true]
    by_cases hdir : tx > cx
    · simp only [hdir, if_true, m1]
      rw [to_int_abs_of_nonneg ex (by rw [hx]; exact (hsign tx cx).1 hdir)]
    · simp only [hdir, if_false, m2]
      rw [to_int_abs_of_nonpos ex (by rw [hx]; exact (hsign tx cx).2 (not_lt.mp hdir))]
  · simp only [hax, if_false]
    by_cases hdir : ty > cy
    · simp only [hdir, if_true, n4]
      rw [to_int_abs_of_nonneg ey (by rw [hy]; exact (hsign ty cy).1 hdir)]
    · simp only [hdir, if_false, n3]
      rw [to_int_abs_of_nonpos ey (by rw [hy]; exact (hsign ty cy).2 (not_lt.mp hdir))]

/-- A fresh tick on which the waypoint is not reached sends the integer part of
the larger component of the error as the code computes it. -/
theorem procedure_tick_command (fp : double_ops)
    (pi : vector2d → vector2d → vector2d → vector2d)
    (inp : tick_input) (s : procedure) (source target : vector2d)
    (hexp : inp.sol_expired = false) (hf : inp.robot_box_fresh = true)
    (hv : inp.robot_box_valid = true) (ht : s.path[s.index]? = some target)
    (hs : source_of s = some source)
    (hfar : ¬ fp.hypot (fp.sub target.x inp.center.x) (fp.sub target.y inp.center.y) <
      s.loc_accept)
    (hsign : sub_keeps_sign fp) :
    movement_loop fp pi inp s =
      some (s, [if |(effective_error fp pi s.norm_dev inp.center source target).x| >
            |(effective_error fp pi s.norm_dev inp.center source target).y|
          then event.move
            (to_int (effective_error fp pi s.norm_dev inp.center source target).x) 0
          else event.move 0
            (to_int (effective_error fp pi s.norm_dev inp.center source target).y)]) := by
  have hlt : s.index < s.path.length := by
    by_contra hcon
    rw [List.getElem?_eq_none (by omega)] at ht
    cases ht
  have hne : s.index ≠ s.path.length := by omega
  have hs1 : (if s.index > 0 then s.path[s.index - 1]? else some s.initial) = some source := hs
  unfold movement_loop effective_error
  simp only [hne, decide_False, hexp, Bool.or_self, Bool.false_eq_true, if_false, hf, hv,
    Bool.not_true, ht, hs1, hfar]
  by_cases hover : fp.norm_sq (vec_sub fp (pi inp.center source target) inp.center) >
      fp.mul s.norm_dev s.norm_dev
  · simp only [hover, decide_True, if_true]
    exact axis_move fp hsign inp s hexp _ _ _ _ _ _ rfl rfl
  · simp only [hover, decide_False, Bool.false_eq_true, if_false]
    exact axis_move fp hsign inp s hexp _ _ _ _ _ _ rfl rfl

/-- C11, as amended (Procedure move command).  On a tick with the actuator
reference alive, a fresh and valid observation, the index within the path and
the waypoint not reached (`hypot` of the computed error is not below the
acceptance radius), let `e` be the error as the code computes it:
`intersect - center` when `norm_sq()` of that difference exceeds
`norm_dev * norm_dev`, and `target - center` otherwise, each difference rounded
to a `double`.  With a subtraction that keeps the order of its arguments, as
that of the machine does, the tick leaves the state as it is and sends exactly
one command; the command is single-axis: it is `move (to_int e.x) 0` when
`|e.x| > |e.y|` and `move 0 (to_int e.y)` otherwise; the component sent has the
magnitude of `e` on that axis rounded down to an integer and, when it is not
zero, the sign of `e` on that axis. -/
theorem procedure_move_command (fp : double_ops)
    (pi : vector2d → vector2d → vector2d → vector2d)
    (inp : tick_input) (s : procedure) (source target : vector2d)
    (hexp : inp.sol_expired = false) (hf : inp.robot_box_fresh = true)
    (hv : inp.robot_box_valid = true) (ht : s.path[s.index]? = some target)
    (hs : source_of s = some source)
    (hfar : ¬ fp.hypot (fp.sub target.x inp.center.x) (fp.sub target.y inp.center.y) <
      s.loc_accept)
    (hsign : sub_keeps_sign fp) :
    movement_loop fp pi inp s =
      some (s, [if |(effective_error fp pi s.norm_dev inp.center source target).x| >
            |(effective_error fp pi s.norm_dev inp.center source target).y|
          then event.move
            (to_int (effective_error fp pi s.norm_dev inp.center source target).x) 0
          else event.move 0
            (to_int (effective_error fp pi s.norm_dev inp.center source target).y)]) ∧
    ∀ q : Rat, |to_int q| = Int.floor |q| ∧ (0 < to_int q → 0 < q) ∧ (to_int q < 0 → q < 0) :=
  ⟨procedure_tick_command fp pi inp s source target hexp hf hv ht hs hfar hsign, to_int_spec⟩

/-- An instance: the robot at (7/2, 0), the waypoint at (0, 0). -/
theorem procedure_move_command_witness :
    movement_loop ops_example perp_target input_far procedure_on_way =
      some (procedure_on_way,
        [if |(effective_error ops_example perp_target procedure_on_way.norm_dev
              input_far.center ⟨5, 0⟩ ⟨0, 0⟩).x| >
            |(effective_error ops_example perp_target procedure_on_way.norm_dev
              input_far.center ⟨5, 0⟩ ⟨0, 0⟩).y|
          then event.move (to_int (effective_error ops_example perp_target
            procedure_on_way.norm_dev input_far.center ⟨5, 0⟩ ⟨0, 0⟩).x) 0
          else event.move 0 (to_int (effective_error ops_example perp_target
            procedure_on_way.norm_dev input_far.center ⟨5, 0⟩ ⟨0, 0⟩).y)]) :=
  (procedure_move_command ops_example perp_target input_far procedure_on_way ⟨5, 0⟩ ⟨0, 0⟩
    rfl rfl rfl rfl rfl (by
      show ¬ hypot_axis (round_double (0 - 7 / 2)) (round_double (0 - 0)) < (1 : Rat)
      rw [round_double_seven_halves, sub_zero, round_double_zero]
      simp only [hypot_axis, if_true, abs_neg]
      rw [abs_of_pos (by norm_num)]
      norm_num)
    (ieee_sub_keeps_sign hypot_axis norm_sq_rounded)).1

/-- C11, counterexample.  The waypoint is (1.1, 1) and the robot stands at
(0.1, 0), where it started, 1.1 and 0.1 being the nearest `double`s; the
acceptance radius is 1 and the robot is not off the line.  The exact error
`target - centre` is (1 + 3 * 2^-55, 1): its `x` component is the larger one and
the distance is not below 1, so the command should go along `x`.  The machine
rounds the difference of the abscissas to 1, `|err_x| > |err_y|` is false, and
the code sends `move(0, 1)`, along `y`. -/
theorem procedure_move_command_rounding :
    |(2476979795053773 / 2251799813685248 : Rat) - input_tenth.center.x| >
      |(1 : Rat) - input_tenth.center.y| ∧
    ¬ euclidean_distance_lt ⟨2476979795053773 / 2251799813685248, 1⟩ input_tenth.center
      procedure_tenth.loc_accept ∧
    (∀ (hypot : Rat → Rat → Rat) (norm_sq : vector2d → Rat)
        (pi : vector2d → vector2d → vector2d → vector2d),
      ¬ hypot 1 1 < 1 →
      ¬ norm_sq (vec_sub (ieee_ops hypot norm_sq)
          (pi input_tenth.center procedure_tenth.initial
            ⟨2476979795053773 / 2251799813685248, 1⟩) input_tenth.center) >
        round_double (procedure_tenth.norm_dev * procedure_tenth.norm_dev) →
      movement_loop (ieee_ops hypot norm_sq) pi input_tenth procedure_tenth =
        some (procedure_tenth, [event.move 0 1])) := by
  refine ⟨?_, ?_, ?_⟩
  · rw [abs_of_pos (by norm_num [input_tenth]), abs_of_pos (by norm_num [input_tenth])]
    norm_num [input_tenth]
  · unfold euclidean_distance_lt
    rw [Real.sqrt_lt' (by norm_num [procedure_tenth])]
    norm_num [input_tenth, procedure_tenth]
  · intro hypot norm_sq pi hfar hover
    have hx : round_double (2476979795053773 / 2251799813685248 - input_tenth.center.x) = 1 :=
      round_double_tenth
    have hy : round_double (1 - input_tenth.center.y) = 1 := round_double_one
    have hfar1 : ¬ (ieee_ops hypot norm_sq).hypot
        ((ieee_ops hypot norm_sq).sub (2476979795053773 / 2251799813685248)
          input_tenth.center.x)
        ((ieee_ops hypot norm_sq).sub 1 input_tenth.center.y) < procedure_tenth.loc_accept := by
      show ¬ hypot (round_double (2476979795053773 / 2251799813685248 - input_tenth.center.x))
        (round_double (1 - input_tenth.center.y)) < 1
      rw [hx, hy]
      exact hfar
    have h := procedure_tick_command (ieee_ops hypot norm_sq) pi input_tenth procedure_tenth
      procedure_tenth.initial ⟨2476979795053773 / 2251799813685248, 1⟩ rfl rfl rfl rfl rfl
      hfar1 (ieee_sub_keeps_sign hypot norm_sq)
    have he : effective_error (ieee_ops hypot norm_sq) pi procedure_tenth.norm_dev
        input_tenth.center procedure_tenth.initial ⟨2476979795053773 / 2251799813685248, 1⟩ =
        ⟨1, 1⟩ := by
      unfold effective_error
      have hover1 : ¬ (ieee_ops hypot norm_sq).norm_sq
          (vec_sub (ieee_ops hypot norm_sq)
            (pi input_tenth.center procedure_tenth.initial
              ⟨2476979795053773 / 2251799813685248, 1⟩) input_tenth.center) >
          (ieee_ops hypot norm_sq).mul procedure_tenth.norm_dev procedure_tenth.norm_dev :=
        hover
      simp only [hover1, if_false]
      show (⟨round_double (2476979795053773 / 2251799813685248 - input_tenth.center.x),
        round_double (1 - input_tenth.center.y)⟩ : vector2d) = ⟨1, 1⟩
      rw [hx, hy]
    rw [he] at h
    rw [h]
    have h1 : to_int 1 = 1 := by simp [to_int]
    simp [h1]

end Procedure

namespace Actuator

/-! ## `Actuator`: the encoding -/

theorem pow_le_of_le_128 (r : Int) (h1 : 1 ≤ r) (h2 : r ≤ 128) (k : Nat) (hk : k ≤ 4) :
    1 ≤ r ^ k ∧ r ^ k ≤ 268435456 := by
  have h0 : (0 : Int) ≤ r := by omega
  constructor
  · exact one_le_pow₀ h1
  · calc r ^ k ≤ 128 ^ k := pow_le_pow_left₀ h0 h2 k
      _ ≤ 128 ^ 4 := pow_le_pow_right₀ (by norm_num) hk
      _ = 268435456 := by norm_num

theorem int_mul_of_range (a b : Int) (h1 : -2147483648 ≤ a * b) (h2 : a * b ≤ 2147483647) :
    int_mul a b = some (a * b) := by
  simp [int_mul, int_range, h1, h2]

theorem intPow_eq (r : Int) (h1 : 1 ≤ r) (h2 : r ≤ 128) (k : Nat) (hk : k ≤ 4) :
    intPow r k = some (r ^ k) := by
  have b1 := pow_le_of_le_128 r h1 h2 1 (by omega)
  have b2 := pow_le_of_le_128 r h1 h2 2 (by omega)
  have b3 := pow_le_of_le_128 r h1 h2 3 (by omega)
  have b4 := pow_le_of_le_128 r h1 h2 4 (by omega)
  have e1 : intPow r 1 = some r := by
    rw [intPow]
    simp
  have e2 : intPow r 2 = some (r ^ 2) := by
    rw [intPow]
    simp only [show (2 : Nat) ≠ 0 by decide, show (2 : Nat) ≠ 1 by decide, if_false,
      show 2 / 2 = 1 by decide, e1, show 2 % 2 = 0 by decide, if_true]
    rw [int_mul_of_range r r (by nlinarith) (by nlinarith)]
    congr 1
    ring
  interval_cases k
  · rw [intPow]
    simp
  · simpa using e1
  · exact e2
  · rw [intPow]
    simp only [show (3 : Nat) ≠ 0 by decide, show (3 : Nat) ≠ 1 by decide, if_false,
      show 3 / 2 = 1 by decide, e1, show 3 % 2 ≠ 0 by decide]
    rw [int_mul_of_range r r (by nlinarith) (by nlinarith)]
    simp only []
    rw [int_mul_of_range (r * r) r (by nlinarith) (by nlinarith)]
    congr 1
    ring
  · rw [intPow]
    simp only [show (4 : Nat) ≠ 0 by decide, show (4 : Nat) ≠ 1 by decide, if_false,
      show 4 / 2 = 2 by decide, e2, show 4 % 2 = 0 by decide, if_true]
    rw [int_mul_of_range (r ^ 2) (r ^ 2) (by nlinarith) (by nlinarith)]
    congr 1
    ring

theorem to_char_of_small (d : Int) (h0 : 0 ≤ d) (h1 : d < 128) : to_char d = d := by
  unfold to_char
  omega

theorem int_mod_mul_div (a n k : Int) (ha : 0 ≤ a) (hn : 0 ≤ n) (hk : 0 ≤ k) :
    a % (n * k) / n = a / n % k := by
  lift a to Nat using ha
  lift n to Nat using hn
  lift k to Nat using hk
  norm_cast
  exact Nat.mod_mul_right_div_self a n k

theorem digits_value_concat (r : Int) (l : List Int) (d : Int) :
    digits_value r (l ++ [d]) = digits_value r l + r ^ l.length * d := by
  induction l with
  | nil => simp [digits_value]
  | cons a as ih =>
    show a + r * digits_value r (as ++ [d]) =
      a + r * digits_value r as + r ^ (as.length + 1) * d
    rw [ih, pow_succ]
    ring

/-- The loop of `convertDataToBytes` on a value below `r ^ n`: it yields `n`
digits between 0 and `r - 1`, whose value is `data`, the digit at index `i`
being `data / r ^ i % r`. -/
theorem convert_loop_spec (r : Int) (h1 : 1 ≤ r) (h2 : r ≤ 128) (n : Nat) :
    n ≤ 4 → ∀ data : Int, 0 ≤ data → data < r ^ n →
      ∃ l, convert_loop r n data = some l ∧ l.length = n ∧ digits_value r l = data ∧
        (∀ d ∈ l, 0 ≤ d ∧ d < r) ∧ ∀ i, i < n → l.getD i 0 = data / r ^ i % r := by
  induction n with
  | zero =>
    intro _ data h0 hlt
    refine ⟨[], rfl, rfl, ?_, by simp, fun i hi => absurd hi (by omega)⟩
    simp only [pow_zero] at hlt
    simp only [digits_value]
    omega
  | succ n ih =>
    intro hn data h0 hlt
    have hr0 : (0 : Int) < r := by omega
    obtain ⟨hp1, hp2⟩ := pow_le_of_le_128 r h1 h2 n (by omega)
    obtain ⟨_, hq2⟩ := pow_le_of_le_128 r h1 h2 (n + 1) hn
    have hpos : (0 : Int) < r ^ n := by omega
    have hq0 : 0 ≤ data / r ^ n := Int.ediv_nonneg h0 (le_of_lt hpos)
    have hqr : data / r ^ n < r := by
      apply Int.ediv_lt_of_lt_mul hpos
      rw [mul_comm, ← pow_succ]
      exact hlt
    have htd : Int.tdiv data (r ^ n) = data / r ^ n := Int.tdiv_eq_ediv h0 (le_of_lt hpos)
    have hmod : data - r ^ n * (data / r ^ n) = data % r ^ n := (Int.emod_def data (r ^ n)).symm
    have hm0 : 0 ≤ data % r ^ n := Int.emod_nonneg data (ne_of_gt hpos)
    have hm1 : data % r ^ n < r ^ n := Int.emod_lt_of_pos data hpos
    have hprod : r ^ n * (data / r ^ n) ≤ data := by omega
    have hprod0 : 0 ≤ r ^ n * (data / r ^ n) := mul_nonneg (le_of_lt hpos) hq0
    obtain ⟨rest, hrest, hlen, hval, hdig, hget⟩ := ih (by omega) (data % r ^ n) hm0 hm1
    refine ⟨rest ++ [data / r ^ n], ?_, by simp [hlen], ?_, ?_, ?_⟩
    · simp only [convert_loop, intPow_eq r h1 h2 n (by omega), ne_of_gt hpos, if_false, htd,
        to_char_of_small _ hq0 (by omega)]
      rw [int_mul_of_range _ _ (by omega) (by omega)]
      simp only [hmod, hrest]
    · rw [digits_value_concat, hval, hlen]
      omega
    · intro d hd
      simp only [List.mem_append, List.mem_singleton] at hd
      rcases hd with hd | hd
      · exact hdig d hd
      · subst hd
        exact ⟨hq0, hqr⟩
    · intro i hi
      by_cases hin : i < n
      · have e1 : (rest ++ [data / r ^ n]).getD i 0 = rest.getD i 0 := by
          simp only [List.getD_eq_getElem?_getD]
          rw [List.getElem?_append_left (by omega)]
        rw [e1, hget i hin]
        have hsplit : r ^ n = r ^ i * r ^ (n - i) := by
          rw [← pow_add]
          congr 1
          omega
        have hdvd : r ∣ r ^ (n - i) := dvd_pow_self r (by omega)
        rw [hsplit, int_mod_mul_div data (r ^ i) (r ^ (n - i)) h0 (by positivity) (by positivity)]
        exact Int.emod_emod_of_dvd _ hdvd
      · have hieq : i = n := by omega
        subst hieq
        have e1 : (rest ++ [data / r ^ i]).getD i 0 = data / r ^ i := by
          simp only [List.getD_eq_getElem?_getD]
          rw [List.getElem?_append_right (by omega)]
          simp [hlen]
        rw [e1]
        exact (Int.emod_eq_of_lt hq0 hqr).symm

theorem decode_four (r a b c d : Int) :
    decode r [a, b, c, d] =
      if 2 * digits_value r [a, b, c, d] ≥ r ^ 4 then digits_value r [a, b, c, d] - r ^ 4
      else digits_value r [a, b, c, d] := by
  have e : a + b * r + c * r ^ 2 + d * r ^ 3 = digits_value r [a, b, c, d] := by
    simp only [digits_value]
    ring
  simp only [decode, List.getD_cons_zero, List.getD_cons_succ, e]

/-- The digits of a value folded into `0 .. r ^ 4 - 1`. -/
theorem convert_of_nonneg (r n : Int) (h1 : 1 ≤ r) (h2 : r ≤ 128) (h0 : 0 ≤ n)
    (hlt : n < r ^ 4) :
    ∃ a b c d, convertDataToBytes r n = some [a, b, c, d] ∧
      digits_value r [a, b, c, d] = n ∧
      (∀ x ∈ [a, b, c, d], 0 ≤ x ∧ x < r) ∧
      ∀ i, i < 4 → [a, b, c, d].getD i 0 = n / r ^ i % r := by
  obtain ⟨l, hl, hlen, hval, hdig, hget⟩ := convert_loop_spec r h1 h2 4 (le_refl _) n h0 hlt
  match l, hlen with
  | [a, b, c, d], _ =>
    refine ⟨a, b, c, d, ?_, hval, hdig, hget⟩
    simp only [convertDataToBytes, fold_negative, not_lt.mpr h0, if_false, DATA_SIZE, hl]

/-! ### Radices up to 256: the bytes transmitted -/

theorem pow_le_of_le_256 (r : Int) (h1 : 1 ≤ r) (h2 : r ≤ 256) (k : Nat) (hk : k ≤ 3) :
    1 ≤ r ^ k ∧ r ^ k ≤ 16777216 := by
  have h0 : (0 : Int) ≤ r := by omega
  constructor
  · exact one_le_pow₀ h1
  · calc r ^ k ≤ 256 ^ k := pow_le_pow_left₀ h0 h2 k
      _ ≤ 256 ^ 3 := pow_le_pow_right₀ (by norm_num) hk
      _ = 16777216 := by norm_num

theorem intPow_small (r : Int) (h1 : 1 ≤ r) (h2 : r ≤ 256) (k : Nat) (hk : k ≤ 3) :
    intPow r k = some (r ^ k) := by
  have b1 := pow_le_of_le_256 r h1 h2 1 (by omega)
  have b2 := pow_le_of_le_256 r h1 h2 2 (by omega)
  have b3 := pow_le_of_le_256 r h1 h2 3 (by omega)
  have e1 : intPow r 1 = some r := by
    rw [intPow]
    simp
  interval_cases k
  · rw [intPow]
    simp
  · simpa using e1
  · rw [intPow]
    simp only [show (2 : Nat) ≠ 0 by decide, show (2 : Nat) ≠ 1 by decide, if_false,
      show 2 / 2 = 1 by decide, e1, show 2 % 2 = 0 by decide, if_true]
    rw [int_mul_of_range r r (by nlinarith) (by nlinarith)]
    congr 1
    ring
  · rw [intPow]
    simp only [show (3 : Nat) ≠ 0 by decide, show (3 : Nat) ≠ 1 by decide, if_false,
      show 3 / 2 = 1 by decide, e1, show 3 % 2 ≠ 0 by decide]
    rw [int_mul_of_range r r (by nlinarith) (by nlinarith)]
    simp only []
    rw [int_mul_of_range (r * r) r (by nlinarith) (by nlinarith)]
    congr 1
    ring

theorem intPow_four (r : Int) (h1 : 1 ≤ r) (h2 : r ≤ 215) :
    intPow r 4 = some (r ^ 4) ∧ 1 ≤ r ^ 4 ∧ r ^ 4 ≤ 2136750625 := by
  have h0 : (0 : Int) ≤ r := by omega
  have hb : r ^ 4 ≤ 2136750625 := by
    calc r ^ 4 ≤ 215 ^ 4 := pow_le_pow_left₀ h0 h2 4
      _ = 2136750625 := by norm_num
  have hone : 1 ≤ r ^ 4 := one_le_pow₀ h1
  have e2 := intPow_small r h1 (by omega) 2 (by omega)
  refine ⟨?_, hone, hb⟩
  rw [intPow]
  simp only [show (4 : Nat) ≠ 0 by decide, show (4 : Nat) ≠ 1 by decide, if_false,
    show 4 / 2 = 2 by decide, e2, show 4 % 2 = 0 by decide, if_true]
  have e : r ^ 2 * r ^ 2 = r ^ 4 := by ring
  rw [int_mul_of_range (r ^ 2) (r ^ 2) (by rw [e]; omega) (by rw [e]; omega), e]

theorem to_char_range (x : Int) : -128 ≤ to_char x ∧ to_char x ≤ 127 := by
  unfold to_char
  omega

theorem to_byte_to_char (x : Int) : to_byte (to_char x) = x % 256 := by
  unfold to_byte to_char
  omega

theorem to_char_add_mul (d m : Int) : to_char (d + 256 * m) = to_char d := by
  unfold to_char
  omega

theorem to_char_cases (d : Int) (h0 : 0 ≤ d) (h1 : d < 256) :
    to_char d = d ∨ to_char d = d - 256 := by
  unfold to_char
  omega

/-- The loop of `convertDataToBytes` for a radix up to 256, entered with a
value below `r ^ n` to which a multiple of `256 * r ^ n` may have been added
(what the earlier digits that did not fit a `char` leave behind): the byte at
index `i` is the digit `a / r ^ i % r`. -/
theorem convert_loop_bytes (r : Int) (h1 : 1 ≤ r) (h2 : r ≤ 256) (n : Nat) :
    n ≤ 4 → ∀ a c : Int, 0 ≤ a → a < r ^ n → 0 ≤ c →
      ∃ l, convert_loop r n (a + 256 * r ^ n * c) = some l ∧ l.length = n ∧
        ∀ i, i < n → to_byte (l.getD i 0) = a / r ^ i % r := by
  induction n with
  | zero =>
    intro _ a c _ _ _
    exact ⟨[], rfl, rfl, fun i hi => absurd hi (by omega)⟩
  | succ n ih =>
    intro hn a c h0 hlt hc
    have hr0 : (0 : Int) < r := by omega
    obtain ⟨hp1, hp2⟩ := pow_le_of_le_256 r h1 h2 n (by omega)
    have hpos : (0 : Int) < r ^ n := by omega
    have hd0 : 0 ≤ a / r ^ n := Int.ediv_nonneg h0 (le_of_lt hpos)
    have hdr : a / r ^ n < r := by
      apply Int.ediv_lt_of_lt_mul hpos
      rw [mul_comm, ← pow_succ]
      exact hlt
    have hrc : 0 ≤ r * c := mul_nonneg (le_of_lt hr0) hc
    have hdata : a + 256 * r ^ (n + 1) * c = a + r ^ n * (256 * (r * c)) := by
      rw [pow_succ]
      ring
    have hdata0 : 0 ≤ a + r ^ n * (256 * (r * c)) := by positivity
    have hq : Int.tdiv (a + r ^ n * (256 * (r * c))) (r ^ n) = a / r ^ n + 256 * (r * c) := by
      rw [Int.tdiv_eq_ediv hdata0 (le_of_lt hpos)]
      exact Int.add_mul_ediv_left a (256 * (r * c)) (ne_of_gt hpos)
    have hch : to_char (a / r ^ n + 256 * (r * c)) = to_char (a / r ^ n) :=
      to_char_add_mul _ _
    obtain ⟨hc1, hc2⟩ := to_char_range (a / r ^ n)
    have hmod : a - r ^ n * (a / r ^ n) = a % r ^ n := (Int.emod_def a (r ^ n)).symm
    have hm0 : 0 ≤ a % r ^ n := Int.emod_nonneg a (ne_of_gt hpos)
    have hm1 : a % r ^ n < r ^ n := Int.emod_lt_of_pos a hpos
    have hcase := to_char_cases (a / r ^ n) hd0 (by omega)
    have hnext : ∃ c1 : Int, 0 ≤ c1 ∧
        a + r ^ n * (256 * (r * c)) - r ^ n * to_char (a / r ^ n) =
          a % r ^ n + 256 * r ^ n * c1 := by
      rcases hcase with h | h
      · refine ⟨r * c, hrc, ?_⟩
        rw [h, ← hmod]
        ring
      · refine ⟨r * c + 1, by omega, ?_⟩
        rw [h, ← hmod]
        ring
    obtain ⟨c1, hc10, hc1eq⟩ := hnext
    obtain ⟨rest, hrest, hlen, hget⟩ := ih (by omega) (a % r ^ n) c1 hm0 hm1 hc10
    refine ⟨rest ++ [to_char (a / r ^ n)], ?_, by simp [hlen], ?_⟩
    · rw [hdata]
      simp only [convert_loop, intPow_small r h1 h2 n (by omega), ne_of_gt hpos, if_false, hq,
        hch]
      rw [int_mul_of_range _ _ (by nlinarith) (by nlinarith)]
      simp only [hc1eq, hrest]
    · intro i hi
      by_cases hin : i < n
      · have e1 : (rest ++ [to_char (a / r ^ n)]).getD i 0 = rest.getD i 0 := by
          simp only [List.getD_eq_getElem?_getD]
          rw [List.getElem?_append_left (by omega)]
        rw [e1, hget i hin]
        have hsplit : r ^ n = r ^ i * r ^ (n - i) := by
          rw [← pow_add]
          congr 1
          omega
        have hdvd : r ∣ r ^ (n - i) := dvd_pow_self r (by omega)
        rw [hsplit, int_mod_mul_div a (r ^ i) (r ^ (n - i)) h0 (by positivity) (by positivity)]
        exact Int.emod_emod_of_dvd _ hdvd
      · have hieq : i = n := by omega
        subst hieq
        have e1 : (rest ++ [to_char (a / r ^ i)]).getD i 0 = to_char (a / r ^ i) := by
          simp only [List.getD_eq_getElem?_getD]
          rw [List.getElem?_append_right (by omega)]
          simp [hlen]
        rw [e1, to_byte_to_char, Int.emod_eq_of_lt hd0 (by omega),
          Int.emod_eq_of_lt hd0 hdr]

theorem convert_bytes_of_nonneg (r n : Int) (h1 : 1 ≤ r) (h2 : r ≤ 256) (h0 : 0 ≤ n)
    (hlt : n < r ^ 4) :
    ∃ a b c d, convertDataToBytes r n = some [a, b, c, d] ∧
      to_byte a = n % r ∧ to_byte b = n / r % r ∧ to_byte c = n / r ^ 2 % r ∧
      to_byte d = n / r ^ 3 % r := by
  obtain ⟨l, hl, hlen, hget⟩ := convert_loop_bytes r h1 h2 4 (le_refl _) n 0 h0 hlt (le_refl _)
  simp only [mul_zero, add_zero] at hl
  match l, hlen with
  | [a, b, c, d], _ =>
    refine ⟨a, b, c, d, ?_, ?_, ?_, ?_, ?_⟩
    · simp only [convertDataToBytes, fold_negative, not_lt.mpr h0, if_false, DATA_SIZE, hl]
    · simpa using hget 0 (by omega)
    · simpa using hget 1 (by omega)
    · simpa using hget 2 (by omega)
    · simpa using hget 3 (by omega)

/-- A value below `r ^ 4` is the sum of its four digits in radix `r`. -/
theorem digits_sum (r a : Int) (hr : 0 < r) (h0 : 0 ≤ a) (hlt : a < r ^ 4) :
    a % r + a / r % r * r + a / r ^ 2 % r * r ^ 2 + a / r ^ 3 % r * r ^ 3 = a := by
  have e0 := Int.ediv_add_emod a r
  have e1 := Int.ediv_add_emod (a / r) r
  have e2 := Int.ediv_add_emod (a / r / r) r
  have dd : ∀ k : Int, 0 ≤ k → a / k / r = a / (k * r) := by
    intro k hk
    lift a to Nat using h0
    lift k to Nat using hk
    lift r to Nat using le_of_lt hr
    norm_cast
    exact Nat.div_div_eq_div_mul _ _ _
  have q2 : a / r / r = a / r ^ 2 := by
    rw [dd r (le_of_lt hr), pow_two]
  have q3 : a / r ^ 2 / r = a / r ^ 3 := by
    rw [dd (r ^ 2) (by positivity)]
    congr 1
  have hq3 : a / r ^ 3 % r = a / r ^ 3 := by
    apply Int.emod_eq_of_lt (Int.ediv_nonneg h0 (by positivity))
    apply Int.ediv_lt_of_lt_mul (by positivity)
    calc a < r ^ 4 := hlt
      _ = r * r ^ 3 := by ring
  rw [q2] at e1 e2
  rw [q3] at e2
  rw [hq3]
  linear_combination e0 + r * e1 + r ^ 2 * e2

/-- The round trip on the bytes that are transmitted.  For every radix `r` from
1 to 215, the radices whose fourth power fits the `int` of `intPow`, and every
signed value `v` with `-r^4/2 <= v < r^4/2`, `convertDataToBytes(v)` yields
four chars whose bytes `d0 .. d3` are digits between 0 and `r - 1`, and
decoding them as `d0 + d1*r + d2*r^2 + d3*r^3`, less `r^4` when that sum
reaches `r^4/2`, gives back `v`.  Up to radix 128 the chars are the digits
themselves. -/
theorem convert_bytes_round_trip (r v : Int) (h1 : 1 ≤ r) (h2 : r ≤ 215)
    (hlo : -(r ^ 4) ≤ 2 * v) (hhi : 2 * v < r ^ 4) :
    ∃ chars d0 d1 d2 d3, convertDataToBytes r v = some chars ∧
      chars.map to_byte = [d0, d1, d2, d3] ∧
      (∀ x ∈ [d0, d1, d2, d3], 0 ≤ x ∧ x < r) ∧
      (if 2 * (d0 + d1 * r + d2 * r ^ 2 + d3 * r ^ 3) ≥ r ^ 4
        then d0 + d1 * r + d2 * r ^ 2 + d3 * r ^ 3 - r ^ 4
        else d0 + d1 * r + d2 * r ^ 2 + d3 * r ^ 3) = v ∧
      (r ≤ 128 → chars = [d0, d1, d2, d3]) := by
  obtain ⟨hpow, hp1, _⟩ := intPow_four r h1 h2
  have hr : 0 < r := by omega
  have key : ∀ n : Int, 0 ≤ n → n < r ^ 4 →
      ∃ chars d0 d1 d2 d3, convertDataToBytes r n = some chars ∧
        chars.map to_byte = [d0, d1, d2, d3] ∧
        (∀ x ∈ [d0, d1, d2, d3], 0 ≤ x ∧ x < r) ∧
        d0 + d1 * r + d2 * r ^ 2 + d3 * r ^ 3 = n ∧
        (r ≤ 128 → chars = [d0, d1, d2, d3]) := by
    intro n hn0 hnlt
    obtain ⟨a, b, c, d, hc, ha, hb, hcc, hd⟩ :=
      convert_bytes_of_nonneg r n h1 (by omega) hn0 hnlt
    refine ⟨[a, b, c, d], n % r, n / r % r, n / r ^ 2 % r, n / r ^ 3 % r, hc, ?_, ?_,
      digits_sum r n hr hn0 hnlt, ?_⟩
    · simp only [List.map_cons, List.map_nil, ha, hb, hcc, hd]
    · intro x hx
      simp only [List.mem_cons, List.mem_singleton, List.not_mem_nil, or_false] at hx
      rcases hx with h | h | h | h <;> subst h <;>
        exact ⟨Int.emod_nonneg _ (ne_of_gt hr), Int.emod_lt_of_pos _ hr⟩
    · intro h128
      obtain ⟨a1, b1, c1, d1, hc1, _, _, hget⟩ := convert_of_nonneg r n h1 h128 hn0 hnlt
      rw [hc] at hc1
      simp only [Option.some.injEq] at hc1
      rw [hc1]
      have g0 := hget 0 (by omega)
      have g1 := hget 1 (by omega)
      have g2 := hget 2 (by omega)
      have g3 := hget 3 (by omega)
      simp only [List.getD_cons_zero, List.getD_cons_succ, pow_zero, Int.ediv_one,
        pow_one] at g0 g1 g2 g3
      rw [g0, g1, g2, g3]
  by_cases hv : 0 ≤ v
  · obtain ⟨chars, d0, d1, d2, d3, hc, hb, hdig, hsum, hch⟩ := key v hv (by omega)
    refine ⟨chars, d0, d1, d2, d3, hc, hb, hdig, ?_, hch⟩
    rw [hsum]
    have : ¬ 2 * v ≥ r ^ 4 := by omega
    simp only [this, if_false]
  · have hneg : v < 0 := not_le.mp hv
    obtain ⟨chars, d0, d1, d2, d3, hc, hb, hdig, hsum, hch⟩ :=
      key (r ^ 4 + v) (by omega) (by omega)
    refine ⟨chars, d0, d1, d2, d3, ?_, hb, hdig, ?_, hch⟩
    · simp only [convertDataToBytes, fold_negative, hneg, if_true, hpow]
      simpa only [convertDataToBytes, fold_negative, not_lt.mpr (show (0 : Int) ≤ r ^ 4 + v
        by omega), if_false] using hc
    · rw [hsum]
      have : 2 * (r ^ 4 + v) ≥ r ^ 4 := by omega
      simp only [this, if_true]
      omega

/-- C12 (Actuator encoding round trip).  For every radix `r` from 1 to 128, the
radices whose digits fit a `char`, and every signed value `v` with
`-r^4/2 <= v < r^4/2`, `convertDataToBytes(v)` yields four digits `d0 .. d3`,
each between 0 and `r - 1`, and decoding them as
`d0 + d1*r + d2*r^2 + d3*r^3`, less `r^4` when that sum reaches `r^4/2`, gives
back `v`. -/
theorem convert_round_trip (r v : Int) (h1 : 1 ≤ r) (h2 : r ≤ 128)
    (hlo : -(r ^ 4) ≤ 2 * v) (hhi : 2 * v < r ^ 4) :
    ∃ d0 d1 d2 d3, convertDataToBytes r v = some [d0, d1, d2, d3] ∧
      (∀ x ∈ [d0, d1, d2, d3], 0 ≤ x ∧ x < r) ∧
      (if 2 * (d0 + d1 * r + d2 * r ^ 2 + d3 * r ^ 3) ≥ r ^ 4
        then d0 + d1 * r + d2 * r ^ 2 + d3 * r ^ 3 - r ^ 4
        else d0 + d1 * r + d2 * r ^ 2 + d3 * r ^ 3) = v ∧
      decode r [d0, d1, d2, d3] = v := by
  obtain ⟨chars, d0, d1, d2, d3, hc, _, hdig, hsum, hch⟩ :=
    convert_bytes_round_trip r v h1 (by omega) hlo hhi
  rw [hch h2] at hc
  refine ⟨d0, d1, d2, d3, hc, hdig, hsum, ?_⟩
  simp only [decode, List.getD_cons_zero, List.getD_cons_succ]
  exact hsum

/-- An instance: radix 36 and the value -5. -/
theorem convert_round_trip_witness :
    ∃ d0 d1 d2 d3, convertDataToBytes 36 (-5) = some [d0, d1, d2, d3] ∧
      (∀ x ∈ [d0, d1, d2, d3], 0 ≤ x ∧ x < 36) ∧
      (if 2 * (d0 + d1 * 36 + d2 * 36 ^ 2 + d3 * 36 ^ 3) ≥ (36 : Int) ^ 4
        then d0 + d1 * 36 + d2 * 36 ^ 2 + d3 * 36 ^ 3 - 36 ^ 4
        else d0 + d1 * 36 + d2 * 36 ^ 2 + d3 * 36 ^ 3) = -5 ∧
      decode 36 [d0, d1, d2, d3] = -5 :=
  convert_round_trip 36 (-5) (by decide) (by decide) (by norm_num) (by norm_num)

/-- Beyond the radix 128.  With the radix 256 the fold of the value -5 calls
`intPow(256, 4)`, whose last product 65536 * 65536 does not fit an `int`: the
behaviour is undefined.  With the radix 200 and the value 150, which needs no
fold, the char at index 0 is -106: a digit from 128 on does not fit a `char`,
and it is the byte transmitted, 150, that is the digit. -/
theorem convert_large_radix :
    (-((256 : Int) ^ 4) ≤ 2 * (-5) ∧ 2 * (-5) < (256 : Int) ^ 4 ∧
      intPow 256 2 = some 65536 ∧ int_mul 65536 65536 = none ∧
      convertDataToBytes 256 (-5) = none) ∧
    (-((200 : Int) ^ 4) ≤ 2 * 150 ∧ 2 * 150 < (200 : Int) ^ 4 ∧
      convertDataToBytes 200 150 = some [-106, 0, 0, 0] ∧
      decode 200 [-106, 0, 0, 0] = -106) := by
  have e2 : intPow 256 2 = some 65536 := by
    rw [intPow_small 256 (by decide) (by decide) 2 (by decide)]
    norm_num
  have e4 : intPow 256 4 = none := by
    rw [intPow]
    simp only [show (4 : Nat) ≠ 0 by decide, show (4 : Nat) ≠ 1 by decide, if_false,
      show 4 / 2 = 2 by decide, e2, show 4 % 2 = 0 by decide, if_true]
    decide
  have p0 : intPow 200 0 = some 1 := by
    rw [intPow_small 200 (by decide) (by decide) 0 (by decide)]
    norm_num
  have p1 : intPow 200 1 = some 200 := by
    rw [intPow_small 200 (by decide) (by decide) 1 (by decide)]
    norm_num
  have p2 : intPow 200 2 = some 40000 := by
    rw [intPow_small 200 (by decide) (by decide) 2 (by decide)]
    norm_num
  have p3 : intPow 200 3 = some 8000000 := by
    rw [intPow_small 200 (by decide) (by decide) 3 (by decide)]
    norm_num
  refine ⟨⟨by norm_num, by norm_num, e2, by decide, ?_⟩, by norm_num, by norm_num, ?_, by decide⟩
  · simp [convertDataToBytes, fold_negative, e4]
  · simp only [convertDataToBytes, fold_negative, DATA_SIZE, convert_loop, p0, p1, p2, p3]
    decide

/-! ## `Actuator`: digits and frames -/

/-- The chars of a value in `0 .. r ^ 4 - 1` for a radix up to 128. -/
theorem convert_eval (r n : Int) (h1 : 1 ≤ r) (h2 : r ≤ 128) (h0 : 0 ≤ n) (hlt : n < r ^ 4) :
    convertDataToBytes r n = some [n % r, n / r % r, n / r ^ 2 % r, n / r ^ 3 % r] := by
  obtain ⟨a, b, c, d, hc, _, _, hget⟩ := convert_of_nonneg r n h1 h2 h0 hlt
  have g0 := hget 0 (by omega)
  have g1 := hget 1 (by omega)
  have g2 := hget 2 (by omega)
  have g3 := hget 3 (by omega)
  simp only [List.getD_cons_zero, List.getD_cons_succ, pow_zero, Int.ediv_one,
    pow_one] at g0 g1 g2 g3
  rw [hc, g0, g1, g2, g3]

/-- A negative value is converted as the value folded by `r ^ 4`. -/
theorem convert_neg (r v : Int) (h1 : 1 ≤ r) (h2 : r ≤ 215) (hv : v < 0)
    (hlo : 0 ≤ r ^ 4 + v) :
    fold_negative r v = some (r ^ 4 + v) ∧
    convertDataToBytes r v = convertDataToBytes r (r ^ 4 + v) := by
  obtain ⟨hpow, _, _⟩ := intPow_four r h1 h2
  constructor
  · simp only [fold_negative, hv, if_true, hpow]
  · simp only [convertDataToBytes, fold_negative, hv, if_true, hpow, not_lt.mpr hlo, if_false]

theorem send_loop_open (frame : List Int) (is_open : Nat → Bool) (n : Nat) :
    ∀ s, (∀ j, j < n → is_open (s + j) = true) →
      send_loop frame is_open n s = (List.replicate n frame, n, false) := by
  induction n with
  | zero => intro s _; rfl
  | succ m ih =>
    intro s h
    have h0 : is_open s = true := by simpa using h 0 (by omega)
    have hrest : ∀ j, j < m → is_open (s + 1 + j) = true := by
      intro j hj
      have := h (j + 1) (by omega)
      rwa [show s + (j + 1) = s + 1 + j by omega] at this
    simp only [send_loop, h0, if_true, ih (s + 1) hrest, List.replicate_succ]

theorem send_loop_closed (frame : List Int) (is_open : Nat → Bool) (n : Nat) :
    ∀ s k, k < n → (∀ j, j < k → is_open (s + j) = true) → is_open (s + k) = false →
      send_loop frame is_open n s = (List.replicate k frame, k, true) := by
  induction n with
  | zero => intro s k hk; omega
  | succ m ih =>
    intro s k hk h hc
    cases k with
    | zero =>
      have h0 : is_open s = false := by simpa using hc
      simp [send_loop, h0]
    | succ k1 =>
      have h0 : is_open s = true := by simpa using h 0 (by omega)
      have hrest : ∀ j, j < k1 → is_open (s + 1 + j) = true := by
        intro j hj
        have := h (j + 1) (by omega)
        rwa [show s + (j + 1) = s + 1 + j by omega] at this
      have hc1 : is_open (s + 1 + k1) = false := by
        rwa [show s + (k1 + 1) = s + 1 + k1 by omega] at hc
      simp only [send_loop, h0, if_true, ih (s + 1) k1 (by omega) hrest hc1,
        List.replicate_succ]

/-- The frame `moveActuator` hands to the port, as bytes. -/
theorem moveActuator_eq (byte_range step_factor rel_move : Int) (is_open : Nat → Bool)
    (device value time : Int) (data : List Int)
    (hd : convertDataToBytes byte_range step_factor = some data) :
    moveActuator byte_range step_factor rel_move is_open device value time =
      some { sleep_step := if value ≠ 0 then Int.tdiv time value else 0,
             frames := (send_loop (([to_char device, to_char rel_move] ++ data).map to_byte)
               is_open value.toNat 0).1,
             sleeps := (send_loop (([to_char device, to_char rel_move] ++ data).map to_byte)
               is_open value.toNat 0).2.1,
             failed := (send_loop (([to_char device, to_char rel_move] ++ data).map to_byte)
               is_open value.toNat 0).2.2 } := by
  simp only [moveActuator, hd]

theorem convert_36_1 : convertDataToBytes 36 1 = some [1, 0, 0, 0] := by
  rw [convert_eval 36 1 (by decide) (by decide) (by decide) (by norm_num)]
  norm_num

/-- C13 (Actuator encoding concrete case).  With radix 36,
`convertDataToBytes(-5)` folds -5 to `36^4 - 5 = 1679611` and leaves the
digits 31, 35, 35, 35 at the indices 0 to 3.  In general, for a radix `r` up
to 256 and a value `0 <= n < r^4`, the array holds four chars, the byte at
index `i` is `(n / r^i) mod r`, and up to radix 128 the char itself is that
digit. -/
theorem convert_digits (r n : Int) (h1 : 1 ≤ r) (h2 : r ≤ 256) (h0 : 0 ≤ n)
    (hlt : n < r ^ 4) :
    ((36 : Int) ^ 4 - 5 = 1679611 ∧ fold_negative 36 (-5) = some 1679611 ∧
      convertDataToBytes 36 (-5) = some [31, 35, 35, 35]) ∧
    ∃ l, convertDataToBytes r n = some l ∧ l.length = 4 ∧
      ∀ i, i < 4 → to_byte (l.getD i 0) = n / r ^ i % r ∧
        (r ≤ 128 → l.getD i 0 = n / r ^ i % r) := by
  constructor
  · obtain ⟨hf, hc⟩ := convert_neg 36 (-5) (by decide) (by decide) (by decide) (by norm_num)
    refine ⟨by norm_num, ?_, ?_⟩
    · rw [hf]
      norm_num
    · rw [hc, convert_eval 36 _ (by decide) (by decide) (by norm_num) (by norm_num)]
      norm_num
  · obtain ⟨l, hl, hlen, hget⟩ := convert_loop_bytes r h1 h2 4 (le_refl _) n 0 h0 hlt (le_refl _)
    simp only [mul_zero, add_zero] at hl
    have hc : convertDataToBytes r n = some l := by
      simp only [convertDataToBytes, fold_negative, not_lt.mpr h0, if_false, DATA_SIZE, hl]
    refine ⟨l, hc, hlen, ?_⟩
    intro i hi
    refine ⟨hget i hi, ?_⟩
    intro h128
    obtain ⟨a, b, c, d, hc1, _, _, hg⟩ := convert_of_nonneg r n h1 h128 h0 hlt
    rw [hc] at hc1
    simp only [Option.some.injEq] at hc1
    rw [hc1]
    exact hg i hi

/-- An instance: radix 36 and the folded value 1679611. -/
theorem convert_digits_witness :
    ((36 : Int) ^ 4 - 5 = 1679611 ∧ fold_negative 36 (-5) = some 1679611 ∧
      convertDataToBytes 36 (-5) = some [31, 35, 35, 35]) ∧
    ∃ l, convertDataToBytes 36 1679611 = some l ∧ l.length = 4 ∧
      ∀ i, i < 4 → to_byte (l.getD i 0) = 1679611 / 36 ^ i % 36 ∧
        ((36 : Int) ≤ 128 → l.getD i 0 = 1679611 / 36 ^ i % 36) :=
  convert_digits 36 1679611 (by decide) (by decide) (by decide) (by norm_num)

/-- C14 (Actuator step count), the failing input.  With the port open at every
step, `moveActuator(0, -3, 100)` hands no frame to the port, where the
magnitude of the component is 3: the loop `for (int i = value; i > 0; i--)`
has no iteration for a negative `value`.  The same call with the value 3
writes three frames `[device, opcode, 4 data chars]`, whose data are the
digits of `STEP_FACTOR`. -/
theorem move_negative_no_frame :
    moveActuator 36 1 21 (fun _ => true) 0 (-3) 100 =
      some { sleep_step := -33, frames := [], sleeps := 0, failed := false } ∧
    |(-3 : Int)| = 3 ∧
    moveActuator 36 1 21 (fun _ => true) 0 3 100 =
      some { sleep_step := 33, frames := List.replicate 3 [0, 21, 1, 0, 0, 0], sleeps := 3,
             failed := false } := by
  refine ⟨?_, by decide, ?_⟩
  · rw [moveActuator_eq 36 1 21 _ 0 (-3) 100 _ convert_36_1]
    decide
  · rw [moveActuator_eq 36 1 21 _ 0 3 100 _ convert_36_1]
    decide

/-- Under the rules of the language no call of `moveActuator` reaches its loop:
the write of `instr[1]` is outside the one char that
`new char(CMD_SIZE + DATA_SIZE)` allocates. -/
theorem fill_instr_undefined (byte_range step_factor rel_move device : Int) :
    fill_instr byte_range step_factor rel_move device = none := by
  simp [fill_instr, block_write, new_char]

/-- The array that `convertDataToBytes` hands back is dead when it is read. -/
theorem convertDataToBytes_result_dead (byte_range data : Int) (b : char_block)
    (h : convertDataToBytes_result byte_range data = some b) (i : Nat) :
    block_read b i = none := by
  unfold convertDataToBytes_result at h
  cases hc : convertDataToBytes byte_range data with
  | none => simp [hc] at h
  | some l =>
    simp only [hc, Option.some.injEq] at h
    subst h
    rfl

/-- C15 (Actuator channel-not-open failure), the failing input.  With the port
not open at any step, `moveActuator(0, -3, 100)`, a move of magnitude 3, is not
left by the exception and hands no frame to the port: the loop
`for (int i = value; i > 0; i--)` has no iteration for a negative `value`, so
`isOpen()` is never asked and the three steps are dropped without an error.
The same call with the value 3 is left by the exception at its first step,
before any frame.  And before the loop every call writes `instr[1]` outside the
one char that `new char(CMD_SIZE + DATA_SIZE)` allocates: under the rules of
the language the behaviour of the call is undefined from there on. -/
theorem move_port_closed_dropped :
    moveActuator 36 1 21 (fun _ => false) 0 (-3) 100 =
      some { sleep_step := -33, frames := [], sleeps := 0, failed := false } ∧
    |(-3 : Int)| = 3 ∧
    moveActuator 36 1 21 (fun _ => false) 0 3 100 =
      some { sleep_step := 33, frames := [], sleeps := 0, failed := true } ∧
    fill_instr 36 1 21 0 = none := by
  refine ⟨?_, by decide, ?_, fill_instr_undefined 36 1 21 0⟩
  · rw [moveActuator_eq 36 1 21 _ 0 (-3) 100 _ convert_36_1]
    decide
  · rw [moveActuator_eq 36 1 21 _ 0 3 100 _ convert_36_1]
    decide

/-- C16 (Actuator sleep step), the failing input.  `moveActuator(0, -3, 100)`
sets `sleep_step` to `100 / -3 = -33`, where the quotient of the duration by
the magnitude of the component is `100 / 3 = 33`: the divisor is `value`
itself.  With the value 0 the step is 0 and nothing is divided. -/
theorem move_negative_sleep_step :
    (moveActuator 36 1 21 (fun _ => true) 0 (-3) 100).map (fun t => t.sleep_step) = some (-33) ∧
    Int.tdiv 100 |(-3 : Int)| = 33 ∧
    (moveActuator 36 1 21 (fun _ => true) 0 0 100).map (fun t => t.sleep_step) = some 0 := by
  refine ⟨?_, by decide, ?_⟩
  · rw [moveActuator_eq 36 1 21 _ 0 (-3) 100 _ convert_36_1]
    decide
  · rw [moveActuator_eq 36 1 21 _ 0 0 100 _ convert_36_1]
    decide

end Actuator

namespace ObjectLine

/-! ## `ObjectLine`: a tick without fresh boxes -/

/-- C19 (ObjectLine stale tick).  For every state of an `ObjectLine`, a tick on
which the robot box or the object box is not fresh or not valid returns with
the object as it was: the state, the done flag, the correction direction, both
handles (so no sub-procedure is made or started) and every other member are
unchanged. -/
theorem object_line_stale_tick (ndebug : Bool) (side : nrg.dir → nrg.dir) (inp : tick_input)
    (s : object_line)
    (h : inp.robot_box_fresh = false ∨ inp.robot_box_valid = false ∨
      inp.object_box_fresh = false ∨ inp.object_box_valid = false) :
    ∃ s1, movement_loop ndebug side inp s = some s1 ∧ s1 = s ∧
      s1.m_state = s.m_state ∧ s1.m_done = s.m_done ∧
      s1.m_correction_dir = s.m_correction_dir ∧
      s1.m_ready_move = s.m_ready_move ∧ s1.m_object_move = s.m_object_move := by
  have hf : fresh_valid inp = false := by
    simp only [fresh_valid, Bool.and_eq_false_iff]
    tauto
  exact ⟨s, object_line_tick_stale ndebug side inp s hf, rfl, rfl, rfl, rfl, rfl, rfl⟩

/-- An instance: the object box is not valid, in the state `DOING_OBJECT_MOVE`
with a live `ObjectMove`. -/
theorem object_line_stale_tick_witness :
    ∃ s1, movement_loop false (fun d => d) { input_at_target with object_box_valid := false }
        { init nrg.dir.RIGHT 5 1 nrg.dir.UP with
          m_state := State.DOING_OBJECT_MOVE
          m_object_move := some { dir := nrg.dir.RIGHT, target := 5, norm_base := 1,
                                  norm_dev := 10, started := true } } = some s1 ∧
      s1 = { init nrg.dir.RIGHT 5 1 nrg.dir.UP with
          m_state := State.DOING_OBJECT_MOVE
          m_object_move := some { dir := nrg.dir.RIGHT, target := 5, norm_base := 1,
                                  norm_dev := 10, started := true } } ∧
      s1.m_state = State.DOING_OBJECT_MOVE ∧ s1.m_done = false ∧
      s1.m_correction_dir = nrg.dir.UP ∧
      s1.m_ready_move = none ∧
      s1.m_object_move = some { dir := nrg.dir.RIGHT, target := 5, norm_base := 1,
                                norm_dev := 10, started := true } :=
  object_line_stale_tick false (fun d => d) { input_at_target with object_box_valid := false }
    _ (Or.inr (Or.inr (Or.inr rfl)))

end ObjectLine

namespace nrg

/-! ## The terrain reads of `search_path` -/

theorem mem_expand_reads (T : array2d) (cur c : vector2i) (h : c ∈ expand_reads T cur) :
    c ∈ get_neighbors cur T.x T.y := by
  unfold expand_reads at h
  generalize get_neighbors cur T.x T.y = l at h ⊢
  induction l with
  | nil => simp at h
  | cons n ns ih =>
    simp only [List.foldr_cons, List.mem_append] at h
    rcases h with h | h
    · have e : c = n := by
        unfold relax_reads at h
        split_ifs at h <;> simpa using h
      rw [e]
      exact List.mem_cons_self _ _
    · exact List.mem_cons_of_mem _ (ih h)

theorem mem_search_reads (lt : vector2i → vector2i → Bool) (T : array2d) (dest : vector2i)
    (fuel : Nat) : ∀ st c, c ∈ search_reads lt T dest fuel st → in_bounds T c = true := by
  induction fuel with
  | zero => intro st c h; simp [search_reads] at h
  | succ n ih =>
    intro st c h
    simp only [search_reads] at h
    split at h
    · simp at h
    · split_ifs at h
      · simp at h
      · rw [List.mem_append] at h
        rcases h with h | h
        · exact ((mem_get_neighbors _ _ _ _).mp (mem_expand_reads T _ c h)).2
        · exact ih _ c h

/-- C20 (search_path bounds safety).  For every terrain of `rows x cols` cells,
every start and destination, every tie-break ordering and every number of
loop iterations, each cell whose terrain value `search_path` reads satisfies
`0 <= x < rows` and `0 <= y < cols`.  `get_neighbors` returns, in this order,
the cells among `(x-1,y)`, `(x+1,y)`, `(x,y-1)`, `(x,y+1)` that are in bounds,
and so never a diagonal cell. -/
theorem search_path_reads_in_bounds :
    (∀ (lt : vector2i → vector2i → Bool) (fuel : Nat) (T : array2d) (start dest c : vector2i),
      c ∈ search_path_reads lt fuel T start dest →
        0 ≤ c.x ∧ c.x < T.x ∧ 0 ≤ c.y ∧ c.y < T.y) ∧
    (∀ (c : vector2i) (max_row max_col : Int),
      get_neighbors c max_row max_col =
        ([⟨c.x - 1, c.y⟩, ⟨c.x + 1, c.y⟩, ⟨c.x, c.y - 1⟩, ⟨c.x, c.y + 1⟩] : List vector2i).filter
          (fun w => decide (0 ≤ w.x ∧ w.x < max_row ∧ 0 ≤ w.y ∧ w.y < max_col))) ∧
    (∀ (c w : vector2i) (max_row max_col : Int),
      w ∈ get_neighbors c max_row max_col → ¬ (w.x ≠ c.x ∧ w.y ≠ c.y)) := by
  refine ⟨?_, ?_, ?_⟩
  · intro lt fuel T start dest c h
    have hb := mem_search_reads lt T dest fuel _ c h
    simp only [in_bounds, is_valid, Bool.and_eq_true, decide_eq_true_eq] at hb
    omega
  · intro c r k
    have e : (fun w : vector2i => decide (0 ≤ w.x ∧ w.x < r ∧ 0 ≤ w.y ∧ w.y < k)) =
        fun w => is_valid w.x w.y r k := by
      funext w
      simp only [is_valid, ge_iff_le, Bool.decide_and, Bool.and_assoc]
    rw [e]
    simp only [get_neighbors, List.filter]
    cases is_valid (c.x - 1) c.y r k <;> cases is_valid (c.x + 1) c.y r k <;>
      cases is_valid c.x (c.y - 1) r k <;> cases is_valid c.x (c.y + 1) r k <;> rfl
  · intro c w r k h
    have ha := ((mem_get_neighbors c w r k).mp h).1
    simp only [adjacent, Bool.or_eq_true, Bool.and_eq_true, decide_eq_true_eq] at ha
    omega

/-! ## The cost field -/

theorem array_set_get (a : array2d) (i j v p q : Int) :
    (array_set a i j v).get p q = if p = i ∧ q = j then v else a.get p q := rfl

theorem array_set_x (a : array2d) (i j v : Int) : (array_set a i j v).x = a.x := rfl

theorem array_set_y (a : array2d) (i j v : Int) : (array_set a i j v).y = a.y := rfl

theorem copy_row_get (selected : array2d) (my x : Nat) (source : array2d) (p q : Int) :
    (copy_row selected my x source).get p q =
      if p = x ∧ 0 ≤ q ∧ q < my then selected.get p q else source.get p q := rfl

theorem copy_row_x (selected : array2d) (my x : Nat) (source : array2d) :
    (copy_row selected my x source).x = source.x := rfl

theorem copy_row_y (selected : array2d) (my x : Nat) (source : array2d) :
    (copy_row selected my x source).y = source.y := rfl

theorem kernelize_row_spec (source : array2d) (wall : Int) (x : Nat) (target : array2d)
    (n : Nat) :
    ((List.range n).foldl
      (fun (t : array2d) (y : Nat) =>
        if source.get x y = wall then array_set t x y TERRAIN_WALL else t) target).x
      = target.x ∧
    ((List.range n).foldl
      (fun (t : array2d) (y : Nat) =>
        if source.get x y = wall then array_set t x y TERRAIN_WALL else t) target).y
      = target.y ∧
    ∀ p q : Int, ((List.range n).foldl
      (fun (t : array2d) (y : Nat) =>
        if source.get x y = wall then array_set t x y TERRAIN_WALL else t) target).get
        p q =
      if p = x ∧ 0 ≤ q ∧ q < n ∧ source.get p q = wall then TERRAIN_WALL else target.get p q := by
  induction n with
  | zero =>
    refine ⟨rfl, rfl, ?_⟩
    intro p q
    have : ¬ (p = (x : Int) ∧ 0 ≤ q ∧ q < ((0 : Nat) : Int) ∧ source.get p q = wall) := by
      rintro ⟨_, h1, h2, _⟩
      simp only [Nat.cast_zero] at h2
      omega
    simp only [List.range_zero, List.foldl_nil, this, if_false]
  | succ m ih =>
    obtain ⟨hx, hy, hg⟩ := ih
    rw [List.range_succ, List.foldl_append]
    simp only [List.foldl_cons, List.foldl_nil]
    by_cases hw : source.get x m = wall
    · simp only [hw, if_true]
      refine ⟨by rw [array_set_x, hx], by rw [array_set_y, hy], ?_⟩
      intro p q
      rw [array_set_get, hg p q]
      by_cases hpq : p = (x : Int) ∧ q = (m : Int)
      · obtain ⟨rfl, rfl⟩ := hpq
        have : (0 : Int) ≤ (m : Int) ∧ (m : Int) < ((m + 1 : Nat) : Int) := by
          constructor <;> push_cast <;> omega
        simp only [and_self, if_true, hw, this]
      · simp only [hpq, if_false]
        by_cases hc : p = (x : Int) ∧ 0 ≤ q ∧ q < (m : Int) ∧ source.get p q = wall
        · have : p = (x : Int) ∧ 0 ≤ q ∧ q < ((m + 1 : Nat) : Int) ∧ source.get p q = wall := by
            refine ⟨hc.1, hc.2.1, ?_, hc.2.2.2⟩
            push_cast
            omega
          simp only [hc, this, and_self, if_true]
        · have : ¬ (p = (x : Int) ∧ 0 ≤ q ∧ q < ((m + 1 : Nat) : Int) ∧
              source.get p q = wall) := by
            rintro ⟨h1, h2, h3, h4⟩
            push_cast at h3
            by_cases hq : q = (m : Int)
            · exact hpq ⟨h1, hq⟩
            · exact hc ⟨h1, h2, by omega, h4⟩
          simp only [hc, this, if_false]
    · simp only [hw, if_false]
      refine ⟨hx, hy, ?_⟩
      intro p q
      rw [hg p q]
      have : (p = (x : Int) ∧ 0 ≤ q ∧ q < ((m + 1 : Nat) : Int) ∧ source.get p q = wall) ↔
          (p = (x : Int) ∧ 0 ≤ q ∧ q < (m : Int) ∧ source.get p q = wall) := by
        constructor
        · rintro ⟨h1, h2, h3, h4⟩
          push_cast at h3
          refine ⟨h1, h2, ?_, h4⟩
          by_contra hcon
          have hq : q = (m : Int) := by omega
          rw [h1, hq] at h4
          exact hw h4
        · rintro ⟨h1, h2, h3, h4⟩
          refine ⟨h1, h2, ?_, h4⟩
          push_cast
          omega
      simp only [this]

theorem kernelize_fold_spec (source : array2d) (wall : Int) (target : array2d) (n : Nat) :
    ((List.range n).foldl (fun (t : array2d) (x : Nat) => kernelize_row source wall x t) target).x = target.x ∧
    ((List.range n).foldl (fun (t : array2d) (x : Nat) => kernelize_row source wall x t) target).y = target.y ∧
    ∀ p q : Int,
      ((List.range n).foldl (fun (t : array2d) (x : Nat) => kernelize_row source wall x t) target).get p q =
      if (0 ≤ p ∧ p < n) ∧ 0 ≤ q ∧ q < source.y ∧ source.get p q = wall then TERRAIN_WALL
      else target.get p q := by
  induction n with
  | zero =>
    refine ⟨rfl, rfl, ?_⟩
    intro p q
    have : ¬ ((0 ≤ p ∧ p < ((0 : Nat) : Int)) ∧ 0 ≤ q ∧ q < (source.y : Int) ∧
        source.get p q = wall) := by
      rintro ⟨⟨h1, h2⟩, _⟩
      simp only [Nat.cast_zero] at h2
      omega
    simp only [List.range_zero, List.foldl_nil, this, if_false]
  | succ m ih =>
    obtain ⟨hx, hy, hg⟩ := ih
    rw [List.range_succ, List.foldl_append]
    simp only [List.foldl_cons, List.foldl_nil]
    obtain ⟨rx, ry, rg⟩ := kernelize_row_spec source wall m
      ((List.range m).foldl (fun (t : array2d) (x : Nat) => kernelize_row source wall x t) target) source.y
    refine ⟨by rw [kernelize_row, rx, hx], by rw [kernelize_row, ry, hy], ?_⟩
    intro p q
    rw [kernelize_row, rg p q, hg p q]
    by_cases hp : p = (m : Int)
    · subst hp
      have h1 : ¬ ((0 : Int) ≤ (m : Int) ∧ (m : Int) < (m : Int)) := by omega
      have h2 : (0 : Int) ≤ (m : Int) ∧ (m : Int) < ((m + 1 : Nat) : Int) := by
        constructor <;> push_cast <;> omega
      simp only [true_and, h1, false_and, if_false, h2, lt_self_iff_false, ite_self]
    · have h1 : ((0 : Int) ≤ p ∧ p < ((m + 1 : Nat) : Int)) ↔ (0 ≤ p ∧ p < (m : Int)) := by
        push_cast
        constructor
        · rintro ⟨a, b⟩
          exact ⟨a, by omega⟩
        · rintro ⟨a, b⟩
          exact ⟨a, by omega⟩
      simp only [hp, false_and, if_false, h1]

theorem copy_fold_spec (selected : array2d) (my : Nat) (source : array2d) (n : Nat) :
    ((List.range n).foldl (fun (s : array2d) (x : Nat) => copy_row selected my x s) source).x = source.x ∧
    ((List.range n).foldl (fun (s : array2d) (x : Nat) => copy_row selected my x s) source).y = source.y ∧
    ∀ p q : Int,
      ((List.range n).foldl (fun (s : array2d) (x : Nat) => copy_row selected my x s) source).get p q =
      if (0 ≤ p ∧ p < n) ∧ 0 ≤ q ∧ q < my then selected.get p q else source.get p q := by
  induction n with
  | zero =>
    refine ⟨rfl, rfl, ?_⟩
    intro p q
    have : ¬ ((0 ≤ p ∧ p < ((0 : Nat) : Int)) ∧ 0 ≤ q ∧ q < (my : Int)) := by
      rintro ⟨⟨h1, h2⟩, _⟩
      simp only [Nat.cast_zero] at h2
      omega
    simp only [List.range_zero, List.foldl_nil, this, if_false]
  | succ m ih =>
    obtain ⟨hx, hy, hg⟩ := ih
    rw [List.range_succ, List.foldl_append]
    simp only [List.foldl_cons, List.foldl_nil]
    refine ⟨by rw [copy_row_x, hx], by rw [copy_row_y, hy], ?_⟩
    intro p q
    rw [copy_row_get, hg p q]
    by_cases hp : p = (m : Int)
    · subst hp
      have h1 : ¬ ((0 : Int) ≤ (m : Int) ∧ (m : Int) < (m : Int)) := by omega
      have h2 : (0 : Int) ≤ (m : Int) ∧ (m : Int) < ((m + 1 : Nat) : Int) := by
        constructor <;> push_cast <;> omega
      simp only [true_and, h1, false_and, if_false, h2, lt_self_iff_false, ite_self]
    · have h1 : ((0 : Int) ≤ p ∧ p < ((m + 1 : Nat) : Int)) ↔ (0 ≤ p ∧ p < (m : Int)) := by
        push_cast
        constructor
        · rintro ⟨a, b⟩
          exact ⟨a, by omega⟩
        · rintro ⟨a, b⟩
          exact ⟨a, by omega⟩
      simp only [hp, false_and, if_false, h1]

/-- The result of `grid_kernelize`, cell by cell. -/
theorem grid_kernelize_spec (ndebug : Bool) (fs ft : Int → Int → Int)
    (wall wp0 wp1 wp2 : Int) (grid : grid_display) :
    ∃ t, grid_kernelize ndebug fs ft wall wp0 wp1 wp2 grid = some t ∧
      t.x = grid.num_cols ∧ t.y = grid.num_rows ∧
      ∀ p q : Int, t.get p q =
        if (0 ≤ p ∧ p < grid.num_cols) ∧ (0 ≤ q ∧ q < grid.num_rows) ∧
          grid.selected.get p q = wall then TERRAIN_WALL else ft p q := by
  obtain ⟨cx, cy, cg⟩ := copy_fold_spec grid.selected grid.num_rows
    { x := grid.num_cols, y := grid.num_rows, get := fs } grid.num_cols
  obtain ⟨kx, ky, kg⟩ := kernelize_fold_spec
    ((List.range grid.num_cols).foldl (fun (s : array2d) (x : Nat) => copy_row grid.selected grid.num_rows x s)
      { x := grid.num_cols, y := grid.num_rows, get := fs }) wall
    { x := grid.num_cols, y := grid.num_rows, get := ft } grid.num_cols
  refine ⟨_, ?_, kx, ky, ?_⟩
  · simp only [grid_kernelize, kernelize, cx, cy, decide_True, Bool.and_self, Bool.not_true,
      Bool.and_false, Bool.false_eq_true, if_false]
  · intro p q
    rw [kg p q, cy, cg p q]
    by_cases h1 : (0 ≤ p ∧ p < (grid.num_cols : Int))
    · by_cases h2 : (0 ≤ q ∧ q < (grid.num_rows : Int))
      · simp only [h1, h2, and_self, true_and, if_true]
      · rw [if_neg, if_neg]
        · rintro ⟨_, a, _⟩
          exact h2 a
        · rintro ⟨_, a, b, _⟩
          exact h2 ⟨a, b⟩
    · simp only [h1, false_and, if_false]

/-- C18, as amended (Cost field).  For every grid, every wall sentinel and every
triple of penalties, `grid_kernelize` returns an array with the dimensions of
the grid (`num_cols` by `num_rows`, also 1 x 1); the value of a cell is
`TERRAIN_WALL` (-1) when the grid cell equals the wall sentinel, and otherwise
it is the value the newly constructed array `terrain` holds there, which is
not the grid's value: `kernelize` writes wall cells only.  The result does not
depend on the three penalties. -/
theorem grid_kernelize_cells (ndebug : Bool) (fs ft : Int → Int → Int)
    (wall wp0 wp1 wp2 : Int) (grid : grid_display) (x y : Nat)
    (hx : x < grid.num_cols) (hy : y < grid.num_rows) :
    ∃ t, grid_kernelize ndebug fs ft wall wp0 wp1 wp2 grid = some t ∧
      t.x = grid.num_cols ∧ t.y = grid.num_rows ∧
      t.get x y = (if grid.selected.get x y = wall then TERRAIN_WALL else ft x y) ∧
      ∀ wq0 wq1 wq2 : Int, grid_kernelize ndebug fs ft wall wq0 wq1 wq2 grid = some t := by
  obtain ⟨t, ht, tx, ty, tg⟩ := grid_kernelize_spec ndebug fs ft wall wp0 wp1 wp2 grid
  refine ⟨t, ht, tx, ty, ?_, ?_⟩
  · rw [tg]
    have h1 : (0 : Int) ≤ (x : Int) ∧ (x : Int) < (grid.num_cols : Int) := by
      constructor <;> omega
    have h2 : (0 : Int) ≤ (y : Int) ∧ (y : Int) < (grid.num_rows : Int) := by
      constructor <;> omega
    simp only [h1, h2, and_self, true_and]
  · intro wq0 wq1 wq2
    rw [← ht]
    rfl

/-- An instance: the cell (1, 1) of a 2 x 2 grid, which holds 7 and is not a
wall; the new array holds 0 everywhere.  The result holds 0 there. -/
theorem grid_kernelize_cells_witness :
    ∃ t, grid_kernelize false (fun _ _ => 0) (fun _ _ => 0) (-1) 1 2 3 grid_two = some t ∧
      t.x = grid_two.num_cols ∧ t.y = grid_two.num_rows ∧
      t.get (1 : Nat) (1 : Nat) =
        (if grid_two.selected.get (1 : Nat) (1 : Nat) = -1 then TERRAIN_WALL
          else (fun _ _ => (0 : Int)) ((1 : Nat) : Int) ((1 : Nat) : Int)) ∧
      ∀ wq0 wq1 wq2 : Int,
        grid_kernelize false (fun _ _ => 0) (fun _ _ => 0) (-1) wq0 wq1 wq2 grid_two = some t :=
  grid_kernelize_cells false (fun _ _ => 0) (fun _ _ => 0) (-1) 1 2 3 grid_two 1 1
    (by decide) (by decide)

/-- C18, counterexample.  The grid of one cell that holds 7, which is not the
wall sentinel -1: with arrays that are constructed full of zeros the cost
field holds 0 at that cell, not 7.  And whatever the constructed arrays hold,
the one-cell grids that hold 5 and 7 get the same value there, so it cannot be
the grid's own value for both. -/
theorem grid_kernelize_drops_value :
    (grid_one 7).selected.get 0 0 = 7 ∧ (7 : Int) ≠ -1 ∧
    (∃ t, grid_kernelize false (fun _ _ => 0) (fun _ _ => 0) (-1) 1 2 3 (grid_one 7) = some t ∧
      t.get 0 0 = 0) ∧
    ∀ fs ft : Int → Int → Int, ∃ t5 t7,
      grid_kernelize false fs ft (-1) 1 2 3 (grid_one 5) = some t5 ∧
      grid_kernelize false fs ft (-1) 1 2 3 (grid_one 7) = some t7 ∧
      t5.get 0 0 = t7.get 0 0 := by
  have key : ∀ (fs ft : Int → Int → Int) (v : Int), v ≠ -1 →
      ∃ t, grid_kernelize false fs ft (-1) 1 2 3 (grid_one v) = some t ∧
        t.get 0 0 = ft 0 0 := by
    intro fs ft v hv
    obtain ⟨t, ht, _, _, tg⟩ := grid_kernelize_spec false fs ft (-1) 1 2 3 (grid_one v)
    refine ⟨t, ht, ?_⟩
    rw [tg 0 0]
    have : (grid_one v).selected.get 0 0 = v := rfl
    simp only [this, hv, and_false, if_false]
  refine ⟨rfl, by decide, ?_, ?_⟩
  · obtain ⟨t, ht, hg⟩ := key (fun _ _ => 0) (fun _ _ => 0) 7 (by decide)
    exact ⟨t, ht, hg⟩
  · intro fs ft
    obtain ⟨t5, h5, g5⟩ := key fs ft 5 (by decide)
    obtain ⟨t7, h7, g7⟩ := key fs ft 7 (by decide)
    exact ⟨t5, t7, h5, h7, by rw [g5, g7]⟩

/-! ## The search on a terrain without costs -/

theorem adjacent_level (a b d : vector2i) (h : adjacent a b = true) :
    manhattan_dist b d = manhattan_dist a d + 1 ∨
    manhattan_dist b d = manhattan_dist a d - 1 := by
  simp only [adjacent, Bool.or_eq_true, Bool.and_eq_true, decide_eq_true_eq] at h
  unfold manhattan_dist
  have e1 := abs_cases (d.x - a.x)
  have e2 := abs_cases (d.x - b.x)
  have e3 := abs_cases (d.y - a.y)
  have e4 := abs_cases (d.y - b.y)
  omega

theorem nodup_set_emplace (e : associated_cost) (s : List associated_cost) (h : s.Nodup) :
    (set_emplace e s).Nodup := by
  unfold set_emplace
  split_ifs with hm
  · exact h
  · exact List.nodup_cons.mpr ⟨hm, h⟩

/-- One relaxation keeps the invariant of a terrain without costs. -/
theorem relax_level (T : array2d) (start dest : vector2i) (hT : ∀ i j, T.get i j = 0)
    (cur next : vector2i) (st : search_state) (k : Int)
    (hI : level_inv T start dest st k) (hcur : popped dest st k cur)
    (hk : manhattan_dist cur dest = k + 1)
    (hadj : adjacent cur next = true) (hb : in_bounds T next = true) :
    level_inv T start dest (relax T dest cur st next) k ∧
    popped dest (relax T dest cur st next) k cur ∧
    (∀ v, st.cost v ≠ none → (relax T dest cur st next).cost v ≠ none) ∧
    (relax T dest cur st next).cost next ≠ none := by
  obtain ⟨hca, hcn, hch⟩ := hcur
  obtain ⟨c, hc⟩ := Option.ne_none_iff_exists'.mp hca
  have hc0 : c = 0 := (hI.cost0 cur c hc).1
  subst hc0
  have hcell : cell_cost T next = 0 := hT _ _
  rcases relax_cases T dest cur next st 0 hc with ⟨he, hw⟩ | ⟨he, _, hn⟩
  · rw [he]
    refine ⟨hI, ⟨hca, hcn, hch⟩, fun v hv => hv, ?_⟩
    rcases hw with hw | ⟨cn, hcn1, _⟩
    · rw [hcell] at hw
      exact absurd hw (by decide)
    · rw [hcn1]
      exact Option.some_ne_none _
  · have hnone : st.cost next = none := by
      rcases hn with hn | ⟨cn, hcn1, hlt⟩
      · exact hn
      · have := (hI.cost0 next cn hcn1).1
        rw [hcell] at hlt
        omega
    have hne : next ≠ cur := by
      rintro rfl
      exact hca hnone
    rw [he, hcell]
    have hopen : ∀ e, e ∈ (improve dest cur next (0 + 0) st).open_set ↔
        e = (manhattan_dist next dest, next) ∨ e ∈ st.open_set := by
      intro e
      simp only [improve, mem_set_emplace, add_zero, zero_add]
    have hcost : ∀ v, (improve dest cur next (0 + 0) st).cost v =
        if v = next then some 0 else st.cost v := by
      intro v
      simp only [improve, map_set, add_zero]
    have hpar : ∀ v, (improve dest cur next (0 + 0) st).parent v =
        if v = next then some cur else st.parent v := by
      intro v
      simp only [improve, map_set]
    have hpop : ∀ p, popped dest st k p → popped dest (improve dest cur next (0 + 0) st) k p := by
      rintro p ⟨h1, h2, h3⟩
      have hpn : p ≠ next := by
        rintro rfl
        exact h1 hnone
      refine ⟨?_, ?_, h3⟩
      · rw [hcost, if_neg hpn]
        exact h1
      · intro f hf
        rcases (hopen _).mp hf with h | h
        · exact hpn (Prod.mk.inj h).2
        · exact h2 f h
    have hlev : k ≤ manhattan_dist next dest := by
      rcases adjacent_level cur next dest hadj with h | h <;> omega
    refine ⟨⟨?_, ?_, ?_, ?_, ?_, ?_⟩, hpop cur ⟨hca, hcn, hch⟩, ?_, ?_⟩
    · intro v c hv
      rw [hcost] at hv
      split_ifs at hv with hvn
      · cases hv
        subst hvn
        exact ⟨rfl, hb⟩
      · exact hI.cost0 v c hv
    · exact nodup_set_emplace _ _ hI.nodup
    · intro e he1
      rcases (hopen e).mp he1 with h | h
      · subst h
        refine ⟨?_, rfl, hlev⟩
        rw [hcost, if_pos rfl]
        exact Option.some_ne_none _
      · obtain ⟨a1, a2, a3⟩ := hI.opn e h
        refine ⟨?_, a2, a3⟩
        rw [hcost]
        split_ifs
        · exact Option.some_ne_none _
        · exact a1
    · intro v hv hvs
      by_cases hvn : v = next
      · subst hvn
        refine ⟨cur, ?_, hadj, hpop cur ⟨hca, hcn, hch⟩⟩
        rw [hpar, if_pos rfl]
      · rw [hcost, if_neg hvn] at hv
        obtain ⟨p, hp1, hp2, hp3⟩ := hI.par v hv hvs
        refine ⟨p, ?_, hp2, hpop p hp3⟩
        rw [hpar, if_neg hvn]
        exact hp1
    · rintro v ⟨h1, h2, h3⟩ hvs
      have hvn : v ≠ next := by
        rintro rfl
        exact h2 _ ((hopen _).mpr (Or.inl rfl))
      rw [hcost, if_neg hvn] at h1
      have hv : popped dest st k v :=
        ⟨h1, fun f hf => h2 f ((hopen _).mpr (Or.inr hf)), h3⟩
      obtain ⟨p, hp1, hp2, hp3⟩ := hI.up v hv hvs
      refine ⟨p, ?_, hp2, hpop p hp3⟩
      rw [hpar, if_neg hvn]
      exact hp1
    · intro v hv
      by_cases hvn : v = next
      · subst hvn
        exact Or.inr ((hopen _).mpr (Or.inl rfl))
      · rw [hcost, if_neg hvn] at hv
        rcases hI.kept v hv with h | h
        · exact Or.inl (hpop v h)
        · exact Or.inr ((hopen _).mpr (Or.inr h))
    · intro v hv
      rw [hcost]
      split_ifs
      · exact Option.some_ne_none _
      · exact hv
    · rw [hcost, if_pos rfl]
      exact Option.some_ne_none _

/-- Expanding a cell keeps the invariant of a terrain without costs, and leaves
a recorded cost at each of its neighbours. -/
theorem expand_level (T : array2d) (start dest : vector2i) (hT : ∀ i j, T.get i j = 0)
    (cur : vector2i) (k : Int) (hk : manhattan_dist cur dest = k + 1) (l : List vector2i)
    (hl : ∀ n ∈ l, adjacent cur n = true ∧ in_bounds T n = true) :
    ∀ st, level_inv T start dest st k → popped dest st k cur →
      level_inv T start dest (l.foldl (relax T dest cur) st) k ∧
      popped dest (l.foldl (relax T dest cur) st) k cur ∧
      (∀ v, st.cost v ≠ none → (l.foldl (relax T dest cur) st).cost v ≠ none) ∧
      ∀ n ∈ l, (l.foldl (relax T dest cur) st).cost n ≠ none := by
  induction l with
  | nil =>
    intro st hI hp
    exact ⟨hI, hp, fun v hv => hv, fun n hn => absurd hn (List.not_mem_nil n)⟩
  | cons a as ih =>
    intro st hI hp
    obtain ⟨ha1, ha2⟩ := hl a (List.mem_cons_self _ _)
    obtain ⟨hI1, hp1, hmono1, hnew1⟩ := relax_level T start dest hT cur a st k hI hp hk ha1 ha2
    obtain ⟨hI2, hp2, hmono2, hnew2⟩ :=
      ih (fun n hn => hl n (List.mem_cons_of_mem _ hn)) (relax T dest cur st a) hI1 hp1
    refine ⟨hI2, hp2, fun v hv => hmono2 v (hmono1 v hv), ?_⟩
    intro n hn
    rcases List.mem_cons.mp hn with h | h
    · subst h
      exact hmono2 _ hnew1
    · exact hnew2 n h

/-- Taking the least entry from the open set: its cell lies at the distance
`k`, and the invariant holds one level down. -/
theorem pop_level (lt : vector2i → vector2i → Bool) (T : array2d) (start dest : vector2i)
    (st : search_state) (k : Int) (hI : level_inv T start dest st k)
    (hex : ∃ e ∈ st.open_set, manhattan_dist e.2 dest = k)
    (b : associated_cost) (hb : set_begin lt st.open_set = some b) :
    manhattan_dist b.2 dest = k ∧
    level_inv T start dest { st with open_set := st.open_set.erase b } (k - 1) ∧
    popped dest { st with open_set := st.open_set.erase b } (k - 1) b.2 := by
  obtain ⟨hmem, hmin⟩ := set_begin_spec lt _ b hb
  obtain ⟨e, he, hek⟩ := hex
  obtain ⟨b1, b2, b3⟩ := hI.opn b hmem
  obtain ⟨_, e2, _⟩ := hI.opn e he
  have hle := hmin e he
  have hbk : manhattan_dist b.2 dest = k := by omega
  have hnot : b ∉ st.open_set.erase b := fun h => (List.Nodup.mem_erase_iff hI.nodup).mp h |>.1 rfl
  have hsub : ∀ a, a ∈ st.open_set.erase b → a ∈ st.open_set := fun a ha => List.mem_of_mem_erase ha
  have hown : ∀ f, (f, b.2) ∈ st.open_set → (f, b.2) = b := by
    intro f hf
    obtain ⟨_, f2, _⟩ := hI.opn _ hf
    simp only at f2
    apply Prod.ext
    · simp only
      omega
    · rfl
  have hpb : popped dest { st with open_set := st.open_set.erase b } (k - 1) b.2 := by
    refine ⟨b1, ?_, by omega⟩
    intro f hf
    have h1 := hsub _ hf
    rw [hown f h1] at hf
    exact hnot hf
  have hpop : ∀ p, popped dest st k p →
      popped dest { st with open_set := st.open_set.erase b } (k - 1) p := by
    rintro p ⟨h1, h2, h3⟩
    exact ⟨h1, fun f hf => h2 f (hsub _ hf), by omega⟩
  have hcase : ∀ v, popped dest { st with open_set := st.open_set.erase b } (k - 1) v →
      popped dest st k v ∨ v = b.2 := by
    rintro v ⟨h1, h2, h3⟩
    rcases hI.kept v h1 with h | h
    · exact Or.inl h
    · right
      by_contra hne
      have hvb : (manhattan_dist v dest, v) ≠ b := by
        intro hh
        apply hne
        rw [← hh]
      exact h2 _ ((List.mem_erase_of_ne hvb).mpr h)
  refine ⟨hbk, ⟨hI.cost0, hI.nodup.erase b, ?_, ?_, ?_, ?_⟩, hpb⟩
  · intro a ha
    obtain ⟨a1, a2, a3⟩ := hI.opn a (hsub a ha)
    exact ⟨a1, a2, by omega⟩
  · intro v hv hvs
    obtain ⟨p, hp1, hp2, hp3⟩ := hI.par v hv hvs
    exact ⟨p, hp1, hp2, hpop p hp3⟩
  · intro v hv hvs
    rcases hcase v hv with h | h
    · obtain ⟨p, hp1, hp2, hp3⟩ := hI.up v h hvs
      exact ⟨p, hp1, hp2, hpop p hp3⟩
    · subst h
      obtain ⟨p, hp1, hp2, hp3⟩ := hI.par b.2 b1 hvs
      refine ⟨p, hp1, ?_, hpop p hp3⟩
      obtain ⟨_, _, hp4⟩ := hp3
      rcases adjacent_level p b.2 dest hp2 with h | h <;> omega
  · intro v hv
    rcases hI.kept v hv with h | h
    · exact Or.inl (hpop v h)
    · by_cases hvb : (manhattan_dist v dest, v) = b
      · left
        have : v = b.2 := by rw [← hvb]
        rw [this]
        exact hpb
      · exact Or.inr ((List.mem_erase_of_ne hvb).mpr h)

theorem manhattan_dist_eq_zero (a d : vector2i) (h : manhattan_dist a d = 0) : a = d := by
  unfold manhattan_dist at h
  have e1 := abs_cases (d.x - a.x)
  have e2 := abs_cases (d.y - a.y)
  obtain ⟨ax, ay⟩ := a
  obtain ⟨dx, dy⟩ := d
  simp only [vector2i.mk.injEq] at *
  constructor <;> omega

/-- A cell of the terrain other than `dest` has a neighbour one step closer to
`dest`. -/
theorem closer_neighbor (T : array2d) (cur dest : vector2i) (hc : in_bounds T cur = true)
    (hd : in_bounds T dest = true) (hne : cur ≠ dest) :
    ∃ n, n ∈ get_neighbors cur T.x T.y ∧
      manhattan_dist n dest = manhattan_dist cur dest - 1 := by
  simp only [in_bounds, is_valid, Bool.and_eq_true, decide_eq_true_eq, ge_iff_le] at hc hd
  obtain ⟨cx, cy⟩ := cur
  obtain ⟨dx, dy⟩ := dest
  simp only at hc hd
  have hne1 : cx ≠ dx ∨ cy ≠ dy := by
    by_contra hcon
    push_neg at hcon
    exact hne (by rw [hcon.1, hcon.2])
  by_cases h1 : cx < dx
  · refine ⟨⟨cx + 1, cy⟩, ?_, ?_⟩
    · rw [mem_get_neighbors]
      refine ⟨by simp [adjacent], ?_⟩
      simp only [is_valid, Bool.and_eq_true, decide_eq_true_eq, ge_iff_le]
      refine ⟨⟨⟨?_, ?_⟩, ?_⟩, ?_⟩ <;> omega
    · unfold manhattan_dist
      have e1 := abs_cases (dx - cx)
      have e2 := abs_cases (dx - (cx + 1))
      have e3 := abs_cases (dy - cy)
      simp only
      omega
  · by_cases h2 : dx < cx
    · refine ⟨⟨cx - 1, cy⟩, ?_, ?_⟩
      · rw [mem_get_neighbors]
        refine ⟨by simp [adjacent], ?_⟩
        simp only [is_valid, Bool.and_eq_true, decide_eq_true_eq, ge_iff_le]
        refine ⟨⟨⟨?_, ?_⟩, ?_⟩, ?_⟩ <;> omega
      · unfold manhattan_dist
        have e1 := abs_cases (dx - cx)
        have e2 := abs_cases (dx - (cx - 1))
        have e3 := abs_cases (dy - cy)
        simp only
        omega
    · by_cases h3 : cy < dy
      · refine ⟨⟨cx, cy + 1⟩, ?_, ?_⟩
        · rw [mem_get_neighbors]
          refine ⟨by simp [adjacent], ?_⟩
          simp only [is_valid, Bool.and_eq_true, decide_eq_true_eq, ge_iff_le]
          refine ⟨⟨⟨?_, ?_⟩, ?_⟩, ?_⟩ <;> omega
        · unfold manhattan_dist
          have e1 := abs_cases (dy - cy)
          have e2 := abs_cases (dy - (cy + 1))
          have e3 := abs_cases (dx - cx)
          simp only
          omega
      · refine ⟨⟨cx, cy - 1⟩, ?_, ?_⟩
        · rw [mem_get_neighbors]
          refine ⟨by simp [adjacent], ?_⟩
          simp only [is_valid, Bool.and_eq_true, decide_eq_true_eq, ge_iff_le]
          refine ⟨⟨⟨?_, ?_⟩, ?_⟩, ?_⟩ <;> omega
        · unfold manhattan_dist
          have e1 := abs_cases (dy - cy)
          have e2 := abs_cases (dy - (cy - 1))
          have e3 := abs_cases (dx - cx)
          simp only
          omega

/-- One iteration of the loop on a terrain without costs: at the level 0 the
loop ends with the links of `dest` in place, at a level above 0 it goes on one
level down. -/
theorem search_step_level (lt : vector2i → vector2i → Bool) (T : array2d)
    (start dest : vector2i) (hT : ∀ i j, T.get i j = 0) (hd : in_bounds T dest = true)
    (st : search_state) (k : Int) (hI : level_inv T start dest st k)
    (hex : ∃ e ∈ st.open_set, manhattan_dist e.2 dest = k) (fuel : Nat) :
    (k = 0 ∧ ∃ st1, search_loop lt T dest (fuel + 1) st = some st1 ∧
      level_inv T start dest st1 (-1) ∧ popped dest st1 (-1) dest) ∨
    (1 ≤ k ∧ ∃ st2, search_loop lt T dest (fuel + 1) st = search_loop lt T dest fuel st2 ∧
      level_inv T start dest st2 (k - 1) ∧
      ∃ e ∈ st2.open_set, manhattan_dist e.2 dest = k - 1) := by
  cases hb : set_begin lt st.open_set with
  | none =>
    obtain ⟨e, he, _⟩ := hex
    rw [set_begin_none lt _ hb] at he
    cases he
  | some b =>
    obtain ⟨hbk, hI1, hp1⟩ := pop_level lt T start dest st k hI hex b hb
    by_cases hbd : b.2 = dest
    · left
      have hk0 : k = 0 := by
        rw [← hbk, hbd]
        exact manhattan_dist_self dest
      subst hk0
      refine ⟨rfl, { st with open_set := st.open_set.erase b }, ?_, ?_, ?_⟩
      · simp only [search_loop, hb, hbd, if_true]
      · exact hI1
      · have h := hp1
        rw [hbd] at h
        exact h
    · right
      have hpos : 1 ≤ k := by
        have h0 := manhattan_dist_nonneg b.2 dest
        have h1 : manhattan_dist b.2 dest ≠ 0 := fun h => hbd (manhattan_dist_eq_zero _ _ h)
        omega
      obtain ⟨c, hc⟩ := Option.ne_none_iff_exists'.mp hp1.1
      have hin : in_bounds T b.2 = true := (hI1.cost0 b.2 c hc).2
      have hl : ∀ n ∈ get_neighbors b.2 T.x T.y,
          adjacent b.2 n = true ∧ in_bounds T n = true := by
        intro n hn
        exact (mem_get_neighbors _ _ _ _).mp hn
      obtain ⟨hI2, hp2, _, hnew⟩ := expand_level T start dest hT b.2 (k - 1) (by omega)
        (get_neighbors b.2 T.x T.y) hl { st with open_set := st.open_set.erase b } hI1 hp1
      obtain ⟨n, hn1, hn2⟩ := closer_neighbor T b.2 dest hin hd hbd
      refine ⟨hpos, expand T dest b.2 { st with open_set := st.open_set.erase b }, ?_, hI2, ?_⟩
      · simp only [search_loop, hb, hbd, if_false]
      · rcases hI2.kept n (hnew n hn1) with ⟨_, _, h3⟩ | h
        · omega
        · exact ⟨_, h, by simp only; omega⟩

theorem search_loop_level (lt : vector2i → vector2i → Bool) (T : array2d)
    (start dest : vector2i) (hT : ∀ i j, T.get i j = 0) (hd : in_bounds T dest = true) :
    ∀ (n : Nat) (st : search_state), level_inv T start dest st n →
      (∃ e ∈ st.open_set, manhattan_dist e.2 dest = n) →
      ∀ fuel, n + 1 ≤ fuel →
        ∃ st1, search_loop lt T dest fuel st = some st1 ∧
          level_inv T start dest st1 (-1) ∧ popped dest st1 (-1) dest := by
  intro n
  induction n with
  | zero =>
    intro st hI hex fuel hf
    obtain ⟨f, rfl⟩ : ∃ f, fuel = f + 1 := ⟨fuel - 1, by omega⟩
    rcases search_step_level lt T start dest hT hd st _ hI hex f with ⟨_, h⟩ | ⟨h, _⟩
    · exact h
    · simp only [Nat.cast_zero] at h
      omega
  | succ m ih =>
    intro st hI hex fuel hf
    obtain ⟨f, rfl⟩ : ∃ f, fuel = f + 1 := ⟨fuel - 1, by omega⟩
    rcases search_step_level lt T start dest hT hd st _ hI hex f with ⟨h, _⟩ | ⟨_, st2, hrun, hI2, hex2⟩
    · push_cast at h
      omega
    · rw [hrun]
      have e : ((m + 1 : Nat) : Int) - 1 = (m : Int) := by
        push_cast
        omega
      rw [e] at hI2 hex2
      exact ih st2 hI2 hex2 f (by omega)

/-- The search on a terrain without costs, from a cell other than `dest`: the
loop ends after at most one iteration per unit of distance, plus one, with the
links of `dest` in place. -/
theorem search_zero_cost (lt : vector2i → vector2i → Bool) (T : array2d)
    (start dest : vector2i) (hT : ∀ i j, T.get i j = 0) (hs : in_bounds T start = true)
    (hd : in_bounds T dest = true) (hne : start ≠ dest) :
    ∀ fuel, (manhattan_dist start dest).toNat + 1 ≤ fuel →
      ∃ st1, search_loop lt T dest fuel (search_init start) = some st1 ∧
        level_inv T start dest st1 (-1) ∧ popped dest st1 (-1) dest := by
  intro fuel hf
  have h0 := manhattan_dist_nonneg start dest
  have h1 : manhattan_dist start dest ≠ 0 := fun h => hne (manhattan_dist_eq_zero _ _ h)
  obtain ⟨n, hn⟩ : ∃ n : Nat, manhattan_dist start dest = (n : Int) + 1 :=
    ⟨(manhattan_dist start dest - 1).toNat, by omega⟩
  obtain ⟨f, rfl⟩ : ∃ f, fuel = f + 1 := ⟨fuel - 1, by omega⟩
  have hrun : search_loop lt T dest (f + 1) (search_init start) =
      search_loop lt T dest f
        (expand T dest start { search_init start with open_set := [] }) := by
    simp [search_loop, search_init, set_emplace, set_begin, set_min, hne]
  have hcost : ∀ v, ({ search_init start with open_set := [] } : search_state).cost v ≠ none →
      v = start := by
    intro v hv
    by_contra hvs
    apply hv
    simp [search_init, map_set, hvs]
  have hp : popped dest { search_init start with open_set := [] } n start := by
    refine ⟨?_, ?_, by omega⟩
    · simp [search_init, map_set]
    · intro f1 hf1
      cases hf1
  have hI : level_inv T start dest { search_init start with open_set := [] } n := by
    refine ⟨?_, List.nodup_nil, ?_, ?_, ?_, ?_⟩
    · intro v c hv
      have hvs : v = start := hcost v (by rw [hv]; exact Option.some_ne_none _)
      subst hvs
      simp only [search_init, map_set, if_true, Option.some.injEq] at hv
      exact ⟨hv.symm, hs⟩
    · intro e he
      cases he
    · intro v hv hvs
      exact absurd (hcost v hv) hvs
    · intro v hv hvs
      exact absurd (hcost v hv.1) hvs
    · intro v hv
      rw [hcost v hv]
      exact Or.inl hp
  have hl : ∀ m ∈ get_neighbors start T.x T.y,
      adjacent start m = true ∧ in_bounds T m = true := by
    intro m hm
    exact (mem_get_neighbors _ _ _ _).mp hm
  obtain ⟨hI2, _, _, hnew⟩ := expand_level T start dest hT start n hn
    (get_neighbors start T.x T.y) hl _ hI hp
  obtain ⟨m, hm1, hm2⟩ := closer_neighbor T start dest hs hd hne
  have hex : ∃ e ∈ (expand T dest start { search_init start with open_set := [] }).open_set,
      manhattan_dist e.2 dest = n := by
    rcases hI2.kept m (hnew m hm1) with ⟨_, _, h3⟩ | h
    · omega
    · exact ⟨_, h, by simp only; omega⟩
  rw [hrun]
  exact search_loop_level lt T start dest hT hd n _ hI2 hex f (by omega)

theorem corner_of_level (p : vector2i) (hb : in_bounds (uniform_terrain 0) p = true)
    (h : manhattan_dist p ⟨2, 2⟩ = 4) : p = ⟨0, 0⟩ := by
  simp only [in_bounds, is_valid, uniform_terrain, Bool.and_eq_true, decide_eq_true_eq,
    ge_iff_le] at hb
  unfold manhattan_dist at h
  obtain ⟨x, y⟩ := p
  simp only [Nat.cast_ofNat] at hb h
  have e1 := abs_cases (2 - x)
  have e2 := abs_cases (2 - y)
  simp only [vector2i.mk.injEq]
  constructor <;> omega

/-- On the 3 x 3 terrain without costs, the links left by the loop lead from
(2,2) to (0,0) through one cell at each distance. -/
theorem backtrack_level (st : search_state)
    (hI : level_inv (uniform_terrain 0) ⟨0, 0⟩ ⟨2, 2⟩ st (-1))
    (hp : popped ⟨2, 2⟩ st (-1) ⟨2, 2⟩) :
    ∃ p, (∀ fuel, 5 ≤ fuel →
        backtrack fuel ⟨0, 0⟩ ⟨2, 2⟩ st.parent [] = search_result.found p) ∧
      p.length = 5 ∧ p.head? = some ⟨0, 0⟩ ∧ p.getLast? = some ⟨2, 2⟩ ∧
      List.Chain' (fun a b => manhattan_dist b ⟨2, 2⟩ = manhattan_dist a ⟨2, 2⟩ - 1) p := by
  have hd0 : manhattan_dist (⟨2, 2⟩ : vector2i) ⟨2, 2⟩ = 0 := manhattan_dist_self _
  have hs4 : manhattan_dist (⟨0, 0⟩ : vector2i) ⟨2, 2⟩ = 4 := by
    simp [manhattan_dist]
  have hne0 : (⟨2, 2⟩ : vector2i) ≠ ⟨0, 0⟩ := by decide
  obtain ⟨p1, a1, b1, c1⟩ := hI.up _ hp hne0
  have hne1 : p1 ≠ ⟨0, 0⟩ := by
    rintro rfl
    omega
  obtain ⟨p2, a2, b2, c2⟩ := hI.up _ c1 hne1
  have hne2 : p2 ≠ ⟨0, 0⟩ := by
    rintro rfl
    omega
  obtain ⟨p3, a3, b3, c3⟩ := hI.up _ c2 hne2
  have hne3 : p3 ≠ ⟨0, 0⟩ := by
    rintro rfl
    omega
  obtain ⟨p4, a4, b4, c4⟩ := hI.up _ c3 hne3
  obtain ⟨c, hc⟩ := Option.ne_none_iff_exists'.mp c4.1
  have h4 : p4 = ⟨0, 0⟩ := corner_of_level p4 (hI.cost0 p4 c hc).2 (by omega)
  subst h4
  refine ⟨[⟨0, 0⟩, p3, p2, p1, ⟨2, 2⟩], ?_, rfl, rfl, rfl, ?_⟩
  · intro fuel hf
    obtain ⟨f, rfl⟩ : ∃ f, fuel = f + 5 := ⟨fuel - 5, by omega⟩
    simp [backtrack, backtrack_loop, hne0, hne1, hne2, hne3, a1, a2, a3, a4]
  · simp only [List.chain'_cons, List.chain'_singleton, and_true]
    refine ⟨?_, ?_, ?_, ?_⟩ <;> omega

/-- More fuel does not change the state in which the loop has ended. -/
theorem search_loop_mono (lt : vector2i → vector2i → Bool) (T : array2d) (dest : vector2i) :
    ∀ (f : Nat) (st st1 : search_state), search_loop lt T dest f st = some st1 →
      ∀ g, f ≤ g → search_loop lt T dest g st = some st1 := by
  intro f
  induction f with
  | zero =>
    intro st st1 h
    simp [search_loop] at h
  | succ n ih =>
    intro st st1 h g hg
    obtain ⟨g1, rfl⟩ : ∃ g1, g = g1 + 1 := ⟨g - 1, by omega⟩
    simp only [search_loop] at h ⊢
    cases hb : set_begin lt st.open_set with
    | none =>
      rw [hb] at h
      exact h
    | some b =>
      rw [hb] at h
      simp only at h ⊢
      by_cases hd : b.2 = dest
      · simp only [hd, if_true] at h ⊢
        exact h
      · simp only [hd, if_false] at h ⊢
        exact ih _ _ h g1 (by omega)

/-! ## The 3 x 3 terrain with one cost -/

/-- The path returned for a reachable destination weighs no more than any
walk, on a terrain whose costs are at least 1. -/
theorem search_path_least (lt : vector2i → vector2i → Bool) (T : array2d)
    (start dest : vector2i) (hT : costs_pos T) (hr : reachable T start dest) :
    ∃ fuel p,
      (∀ k, fuel ≤ k → search_path lt k T start dest [] = search_result.found p) ∧
      is_walk T start dest p ∧
      ∀ q, is_walk T start dest q → path_weight T p ≤ path_weight T q := by
  have hT0 : costs_nonneg T := fun c hb hw => le_trans (by decide) (hT c hb hw)
  obtain ⟨fuel, p, st0, hrun, hwalk, _, hI0, hS0, hexit, cd, hcd, hwt⟩ :=
    search_path_found lt T start dest hT0 hr
  refine ⟨fuel, p, hrun, hwalk, ?_⟩
  rintro q ⟨hq1, hq2, hq3⟩
  cases q with
  | nil => simp at hq1
  | cons s rest =>
    simp only [List.head?_cons, Option.some.injEq] at hq1
    subst hq1
    rcases walk_bound T dest st0 hT hS0 rest s 0 hq3 hq2 hI0.start_cost with
      ⟨e, he, hle⟩ | ⟨cd1, hcd1, hle⟩
    · rcases hexit with hopen | ⟨f, hf, hmin⟩
      · rw [hopen] at he
        cases he
      · obtain ⟨c, hc, hcf⟩ := hI0.open_cost f dest hf
        rw [hcd] at hc
        cases hc
        have := hmin e he
        omega
    · rw [hcd] at hcd1
      cases hcd1
      omega

theorem path_weight_uniform (c : Int) (p : List vector2i) :
    path_weight (uniform_terrain c) p = c * (p.tail.length : Int) := by
  unfold path_weight
  generalize p.tail = l
  induction l with
  | nil => simp
  | cons a as ih =>
    simp only [List.map_cons, List.sum_cons, ih, List.length_cons, Nat.cast_add, Nat.cast_one]
    have : cell_cost (uniform_terrain c) a = c := rfl
    rw [this]
    ring

theorem uniform_walk (c : Int) (hc : 0 ≤ c) :
    is_walk (uniform_terrain c) ⟨0, 0⟩ ⟨2, 2⟩ [⟨0, 0⟩, ⟨1, 0⟩, ⟨2, 0⟩, ⟨2, 1⟩, ⟨2, 2⟩] := by
  have hw : ∀ b : vector2i, cell_cost (uniform_terrain c) b ≠ TERRAIN_WALL := by
    intro b
    show c ≠ -1
    omega
  have hstep : ∀ a b : vector2i, adjacent a b = true →
      in_bounds (uniform_terrain c) b = true → walk_step (uniform_terrain c) a b = true := by
    intro a b h1 h2
    simp only [walk_step, h1, h2, Bool.and_self, Bool.true_and, decide_eq_true_eq]
    exact hw b
  refine ⟨rfl, rfl, ?_⟩
  simp only [List.chain'_cons, List.chain'_singleton, and_true]
  refine ⟨?_, ?_, ?_, ?_⟩ <;>
    exact hstep _ _ (by decide) (by simp [in_bounds, is_valid, uniform_terrain])

/-- A walk to `dest` has at least as many moves as its first cell is distant
from `dest`; with exactly as many, every move goes one step closer. -/
theorem walk_levels (T : array2d) (dest : vector2i) (rest : List vector2i) :
    ∀ u, List.Chain' (fun a b => walk_step T a b = true) (u :: rest) →
      (u :: rest).getLast? = some dest →
      manhattan_dist u dest ≤ rest.length ∧
      (manhattan_dist u dest = rest.length →
        List.Chain' (fun a b => manhattan_dist b dest = manhattan_dist a dest - 1)
          (u :: rest)) := by
  induction rest with
  | nil =>
    intro u _ hl
    simp only [List.getLast?_singleton, Option.some.injEq] at hl
    subst hl
    rw [manhattan_dist_self]
    exact ⟨by simp, fun _ => List.chain'_singleton _⟩
  | cons v r ih =>
    intro u hch hl
    rw [List.chain'_cons] at hch
    obtain ⟨hstep, hch1⟩ := hch
    rw [List.getLast?_cons_cons] at hl
    obtain ⟨h1, h2⟩ := ih v hch1 hl
    have hadj := (walk_step_spec T u v hstep).1
    have hle := manhattan_dist_adjacent u v dest hadj
    simp only [List.length_cons, Nat.cast_add, Nat.cast_one]
    refine ⟨by omega, ?_⟩
    intro heq
    rw [List.chain'_cons]
    exact ⟨by omega, h2 (by omega)⟩

/-- C17 (Concrete pathfinding scenario).  On the 3 x 3 terrain without walls
whose cells all carry the same cost `c >= 0`, `search_path` from (0,0) to
(2,2) returns, for every tie-break ordering and with enough fuel, a path of
exactly 5 cells that starts at (0,0), ends at (2,2), and whose Manhattan
distance to (2,2) goes down by exactly 1 at every step. -/
theorem search_path_uniform (lt : vector2i → vector2i → Bool) (c : Int) (hc : 0 ≤ c) :
    ∃ fuel p,
      (∀ k, fuel ≤ k →
        search_path lt k (uniform_terrain c) ⟨0, 0⟩ ⟨2, 2⟩ [] = search_result.found p) ∧
      p.length = 5 ∧ p.head? = some ⟨0, 0⟩ ∧ p.getLast? = some ⟨2, 2⟩ ∧
      List.Chain' (fun a b => manhattan_dist b ⟨2, 2⟩ = manhattan_dist a ⟨2, 2⟩ - 1) p := by
  by_cases h0 : c = 0
  · subst h0
    obtain ⟨p, hp, h1, h2, h3, h4⟩ : ∃ p, (∀ fuel, 5 ≤ fuel →
        search_path lt fuel (uniform_terrain 0) ⟨0, 0⟩ ⟨2, 2⟩ [] = search_result.found p) ∧
        p.length = 5 ∧ p.head? = some ⟨0, 0⟩ ∧ p.getLast? = some ⟨2, 2⟩ ∧
        List.Chain' (fun a b => manhattan_dist b ⟨2, 2⟩ = manhattan_dist a ⟨2, 2⟩ - 1) p := by
      have hs4 : manhattan_dist (⟨0, 0⟩ : vector2i) ⟨2, 2⟩ = 4 := by
        simp [manhattan_dist]
      obtain ⟨st1, hrun, hI, hpd⟩ := search_zero_cost lt (uniform_terrain 0) ⟨0, 0⟩ ⟨2, 2⟩
        (fun _ _ => rfl) (by decide) (by decide) (by decide) 5 (by rw [hs4]; decide)
      obtain ⟨p, hback, hrest⟩ := backtrack_level st1 hI hpd
      refine ⟨p, ?_, hrest⟩
      intro fuel hf
      simp only [search_path, search_loop_mono lt _ _ 5 _ st1 hrun fuel hf]
      exact hback fuel hf
    exact ⟨5, p, hp, h1, h2, h3, h4⟩
  · have hc1 : 1 ≤ c := by omega
    have hT : costs_pos (uniform_terrain c) := by
      intro v _ _
      exact hc1
    obtain ⟨fuel, p, hrun, hwalk, hmin⟩ := search_path_least lt (uniform_terrain c) ⟨0, 0⟩ ⟨2, 2⟩
      hT ⟨_, uniform_walk c hc⟩
    have hq := hmin _ (uniform_walk c hc)
    rw [path_weight_uniform, path_weight_uniform] at hq
    obtain ⟨hh, hl, hchain⟩ := hwalk
    cases p with
    | nil => simp at hh
    | cons s rest =>
      simp only [List.head?_cons, Option.some.injEq] at hh
      subst hh
      obtain ⟨hlen, hmon⟩ := walk_levels (uniform_terrain c) ⟨2, 2⟩ rest _ hchain hl
      have hs4 : manhattan_dist (⟨0, 0⟩ : vector2i) ⟨2, 2⟩ = 4 := by
        simp [manhattan_dist]
      simp only [List.tail_cons, List.length_cons, List.length_nil, Nat.cast_add, Nat.cast_one,
        Nat.cast_zero, zero_add] at hq
      have hle : (rest.length : Int) ≤ 4 := by
        by_contra hcon
        push_neg at hcon
        have : c * (1 + 1 + 1 + 1) < c * (rest.length : Int) := by
          apply mul_lt_mul_of_pos_left _ (by omega)
          omega
        omega
      have h4 : rest.length = 4 := by omega
      refine ⟨fuel, _, hrun, ?_, rfl, hl, hmon (by rw [hs4, h4]; rfl)⟩
      simp [h4]

/-- An instance: the cost 0 and the ordering by `x`, then by `y`. -/
theorem search_path_uniform_witness :
    ∃ fuel p,
      (∀ k, fuel ≤ k →
        search_path vector2i_lt k (uniform_terrain 0) ⟨0, 0⟩ ⟨2, 2⟩ [] =
          search_result.found p) ∧
      p.length = 5 ∧ p.head? = some ⟨0, 0⟩ ∧ p.getLast? = some ⟨2, 2⟩ ∧
      List.Chain' (fun a b => manhattan_dist b ⟨2, 2⟩ = manhattan_dist a ⟨2, 2⟩ - 1) p :=
  search_path_uniform vector2i_lt 0 (by decide)

/-! ## The scaling of a path -/

theorem scale_loop_length (b b2 gx gy : Int) (path : List vector2i) :
    (scale_loop b b2 gx gy path).length = path.length := by
  induction path with
  | nil => rfl
  | cons v vs ih => simp only [scale_loop, List.length_cons, ih]

theorem scale_loop_get (b b2 gx gy : Int) (path : List vector2i) :
    ∀ i : Nat, (scale_loop b b2 gx gy path)[i]? = (path[i]?).map (scale_cell b b2 gx gy) := by
  induction path with
  | nil => intro i; simp [scale_loop]
  | cons v vs ih =>
    intro i
    cases i with
    | zero => simp [scale_loop]
    | succ j => simpa [scale_loop] using ih j

theorem scale_cell_inj (b b2 gx gy : Int) (hb : b ≠ 0) (u v : vector2i)
    (h : scale_cell b b2 gx gy u = scale_cell b b2 gx gy v) : u = v := by
  obtain ⟨ux, uy⟩ := u
  obtain ⟨vx, vy⟩ := v
  simp only [scale_cell, vector2i.mk.injEq] at h ⊢
  obtain ⟨h1, h2⟩ := h
  constructor
  · have : ux * b = vx * b := by omega
    exact mul_right_cancel₀ hb this
  · have : uy * b = vy * b := by omega
    exact mul_right_cancel₀ hb this

/-- C21 (Path scaling).  For every path, every grid origin `(gx, gy)` and every
cell size `b` other than 0, `scale_path_pixels` leaves as many waypoints as it
found, the waypoint at each index being the image
`(gx + b/2 + x*b, gy + b/2 + y*b)` of the waypoint `(x, y)` found there, with
`b/2` the truncated half of `b`; and distinct cells have distinct images. -/
theorem scale_path_pixels_spec (b gx gy : Int) (path : List vector2i) (hb : b ≠ 0) :
    (scale_path_pixels b gx gy path).length = path.length ∧
    (∀ i : Nat, (scale_path_pixels b gx gy path)[i]? =
      (path[i]?).map (fun v => (⟨gx + Int.tdiv b 2 + v.x * b,
        gy + Int.tdiv b 2 + v.y * b⟩ : vector2i))) ∧
    (∀ u v : vector2i, u ≠ v →
      (⟨gx + Int.tdiv b 2 + u.x * b, gy + Int.tdiv b 2 + u.y * b⟩ : vector2i) ≠
        ⟨gx + Int.tdiv b 2 + v.x * b, gy + Int.tdiv b 2 + v.y * b⟩) ∧
    (0 < b → Int.tdiv b 2 = b / 2) := by
  refine ⟨scale_loop_length _ _ _ _ _, ?_, ?_, ?_⟩
  · intro i
    exact scale_loop_get _ _ _ _ _ i
  · intro u v huv h
    exact huv (scale_cell_inj b (Int.tdiv b 2) gx gy hb u v h)
  · intro hpos
    exact Int.tdiv_eq_ediv (le_of_lt hpos) (by decide)

/-- An instance: cells of 20 pixels, the origin (100, 50), a path of three
waypoints. -/
theorem scale_path_pixels_spec_witness :
    (scale_path_pixels 20 100 50 [⟨0, 0⟩, ⟨1, 0⟩, ⟨1, 1⟩]).length =
      ([⟨0, 0⟩, ⟨1, 0⟩, ⟨1, 1⟩] : List vector2i).length ∧
    (∀ i : Nat, (scale_path_pixels 20 100 50 [⟨0, 0⟩, ⟨1, 0⟩, ⟨1, 1⟩])[i]? =
      (([⟨0, 0⟩, ⟨1, 0⟩, ⟨1, 1⟩] : List vector2i)[i]?).map
        (fun v => (⟨100 + Int.tdiv 20 2 + v.x * 20, 50 + Int.tdiv 20 2 + v.y * 20⟩ : vector2i))) ∧
    (∀ u v : vector2i, u ≠ v →
      (⟨100 + Int.tdiv 20 2 + u.x * 20, 50 + Int.tdiv 20 2 + u.y * 20⟩ : vector2i) ≠
        ⟨100 + Int.tdiv 20 2 + v.x * 20, 50 + Int.tdiv 20 2 + v.y * 20⟩) ∧
    ((0 : Int) < 20 → Int.tdiv 20 2 = 20 / 2) :=
  scale_path_pixels_spec 20 100 50 [⟨0, 0⟩, ⟨1, 0⟩, ⟨1, 1⟩] (by decide)

end nrg

namespace ObjectLine

/-! ## `ObjectLine`: the correction direction -/

/-- C23 (ObjectLine correction direction).  For every state of the object and
every object centre, `do_require_correction` sets the state to
`REQUIRE_CORRECTION_READY_MOVE` and picks a direction on the axis orthogonal
to the primary direction: with a `RIGHT` or `LEFT` primary it is `DOWN`
exactly when the centre's y is strictly less than the baseline and `UP`
otherwise; with a `DOWN` or `UP` primary it is `RIGHT` exactly when the
centre's x is strictly less than the baseline and `LEFT` otherwise.  Nothing
else of the object changes, and a tick with fresh and valid boxes in the state
`REQUIRE_CORRECTION` is this handler. -/
theorem object_line_correction_dir :
    ∀ (inp : tick_input) (s : object_line),
      (do_require_correction inp s).m_state = State.REQUIRE_CORRECTION_READY_MOVE ∧
      ((s.m_dir = nrg.dir.RIGHT ∨ s.m_dir = nrg.dir.LEFT) →
        ((do_require_correction inp s).m_correction_dir = nrg.dir.DOWN ↔
          inp.object_center_y < s.m_base) ∧
        ((do_require_correction inp s).m_correction_dir = nrg.dir.UP ↔
          ¬ inp.object_center_y < s.m_base)) ∧
      ((s.m_dir = nrg.dir.DOWN ∨ s.m_dir = nrg.dir.UP) →
        ((do_require_correction inp s).m_correction_dir = nrg.dir.RIGHT ↔
          inp.object_center_x < s.m_base) ∧
        ((do_require_correction inp s).m_correction_dir = nrg.dir.LEFT ↔
          ¬ inp.object_center_x < s.m_base)) ∧
      do_require_correction inp s =
        { s with m_correction_dir := (do_require_correction inp s).m_correction_dir
                 m_state := State.REQUIRE_CORRECTION_READY_MOVE } ∧
      ∀ (ndebug : Bool) (side : nrg.dir → nrg.dir),
        fresh_valid inp = true → s.m_state = State.REQUIRE_CORRECTION →
          movement_loop ndebug side inp s = some (do_require_correction inp s) := by
  intro inp s
  refine ⟨rfl, ?_, ?_, rfl, ?_⟩
  · intro hd
    rcases hd with hd | hd <;>
    · simp only [do_require_correction, hd]
      by_cases hlt : inp.object_center_y < s.m_base <;> simp [hlt]
  · intro hd
    rcases hd with hd | hd <;>
    · simp only [do_require_correction, hd]
      by_cases hlt : inp.object_center_x < s.m_base <;> simp [hlt]
  · intro ndebug side hf hs
    rw [object_line_tick_fresh ndebug side inp s hf, hs]

end ObjectLine

namespace nrg

/-! ## The returned path as a walk of the grid -/

theorem walk_cells (T : array2d) (rest : List vector2i) :
    ∀ u, List.Chain' (fun a b => walk_step T a b = true) (u :: rest) →
      ∀ c ∈ rest, in_bounds T c = true ∧ cell_cost T c ≠ TERRAIN_WALL := by
  induction rest with
  | nil =>
    intro u _ c hc
    cases hc
  | cons v r ih =>
    intro u hch c hc
    rw [List.chain'_cons] at hch
    obtain ⟨hstep, hch1⟩ := hch
    rcases List.mem_cons.mp hc with h | h
    · subst h
      exact (walk_step_spec T u c hstep).2
    · exact ih v hch1 c h

theorem adjacent_unit (a b : vector2i) (h : adjacent a b = true) :
    (|b.x - a.x| = 1 ∧ b.y = a.y) ∨ (b.x = a.x ∧ |b.y - a.y| = 1) := by
  simp only [adjacent, Bool.or_eq_true, Bool.and_eq_true, decide_eq_true_eq] at h
  have e1 := abs_cases (b.x - a.x)
  have e2 := abs_cases (b.y - a.y)
  rcases h with ((h | h) | h) | h
  · left; constructor <;> omega
  · left; constructor <;> omega
  · right; constructor <;> omega
  · right; constructor <;> omega

/-- C24 (Returned path is a valid grid walk).  On a terrain whose non-wall
costs are non-negative, for every in-bounds start and every destination that
can be reached from it, `search_path` returns (with enough fuel) a path in
which every two consecutive cells differ by exactly 1 in exactly one
coordinate, every cell is in bounds, and every cell after the first is not a
wall. -/
theorem search_path_grid_walk (lt : vector2i → vector2i → Bool) (T : array2d)
    (start dest : vector2i) (hT : costs_nonneg T) (hs : in_bounds T start = true)
    (hr : reachable T start dest) :
    ∃ fuel p,
      (∀ k, fuel ≤ k → search_path lt k T start dest [] = search_result.found p) ∧
      List.Chain' (fun a b => (|b.x - a.x| = 1 ∧ b.y = a.y) ∨ (b.x = a.x ∧ |b.y - a.y| = 1)) p ∧
      (∀ c ∈ p, 0 ≤ c.x ∧ c.x < T.x ∧ 0 ≤ c.y ∧ c.y < T.y) ∧
      (∀ c ∈ p.tail, T.get c.x c.y ≠ TERRAIN_WALL) := by
  obtain ⟨fuel, p, _, hrun, ⟨h1, _, h3⟩, _⟩ := search_path_found lt T start dest hT hr
  refine ⟨fuel, p, hrun, ?_, ?_, ?_⟩
  · exact List.Chain'.imp (fun a b hab => adjacent_unit a b (walk_step_spec T a b hab).1) h3
  · cases p with
    | nil => simp at h1
    | cons s rest =>
      simp only [List.head?_cons, Option.some.injEq] at h1
      subst h1
      have hb : ∀ c, in_bounds T c = true → 0 ≤ c.x ∧ c.x < T.x ∧ 0 ≤ c.y ∧ c.y < T.y := by
        intro c hc
        simp only [in_bounds, is_valid, Bool.and_eq_true, decide_eq_true_eq] at hc
        omega
      intro c hc
      rcases List.mem_cons.mp hc with h | h
      · subst h
        exact hb _ hs
      · exact hb _ (walk_cells T rest _ h3 c h).1
  · cases p with
    | nil => simp
    | cons s rest =>
      intro c hc
      exact (walk_cells T rest s h3 c hc).2

/-- An instance: the 2 x 2 terrain of unit costs, from (0,0) to (1,1). -/
theorem search_path_grid_walk_witness :
    ∃ fuel p,
      (∀ k, fuel ≤ k →
        search_path vector2i_lt k terrain_unit ⟨0, 0⟩ ⟨1, 1⟩ [] = search_result.found p) ∧
      List.Chain' (fun a b => (|b.x - a.x| = 1 ∧ b.y = a.y) ∨ (b.x = a.x ∧ |b.y - a.y| = 1)) p ∧
      (∀ c ∈ p, 0 ≤ c.x ∧ c.x < terrain_unit.x ∧ 0 ≤ c.y ∧ c.y < terrain_unit.y) ∧
      (∀ c ∈ p.tail, terrain_unit.get c.x c.y ≠ TERRAIN_WALL) :=
  search_path_grid_walk vector2i_lt terrain_unit ⟨0, 0⟩ ⟨1, 1⟩ terrain_unit_costs_nonneg
    (by decide) terrain_unit_reachable

/-! ## The loop of `search_path` ends -/

/-- C26 (Search loop termination).  On every terrain whose non-wall costs are
non-negative, for every start, every destination (reachable or not) and every
tie-break ordering, the open-set loop of `search_path` ends: some amount of
fuel, and every larger one, lets it run to its end, in one and the same state,
whose recorded costs are non-negative.  One relaxation changes the open set
only when the neighbour had no recorded cost or gets a strictly smaller one. -/
theorem search_loop_terminates (lt : vector2i → vector2i → Bool) (T : array2d)
    (start dest : vector2i) (hT : costs_nonneg T) :
    (∃ fuel st1, (∀ k, fuel ≤ k → search_loop lt T dest k (search_init start) = some st1) ∧
      ∀ v c, st1.cost v = some c → 0 ≤ c) ∧
    ∀ (st : search_state) (cur next : vector2i) (c : Int), st.cost cur = some c →
      (relax T dest cur st next).open_set ≠ st.open_set →
        st.cost next = none ∨ ∃ cn, st.cost next = some cn ∧ c + T.get next.x next.y < cn := by
  constructor
  · obtain ⟨fuel, st1, hrun, st0, hI0, _, _, hcost, _⟩ :=
      search_loop_ends lt T start dest hT _ (search_init start) rfl
        (search_init_inv T start) (search_init_settled T start dest)
    refine ⟨fuel, st1, hrun, ?_⟩
    intro v c hv
    rw [hcost] at hv
    exact hI0.cost_nonneg v c hv
  · intro st cur next c hc hne
    rcases relax_cases T dest cur next st c hc with ⟨he, _⟩ | ⟨_, _, hn⟩
    · rw [he] at hne
      exact absurd rfl hne
    · exact hn

/-- An instance: the 2 x 2 terrain of unit costs, with a destination outside
the terrain. -/
theorem search_loop_terminates_witness :
    (∃ fuel st1, (∀ k, fuel ≤ k →
        search_loop vector2i_lt terrain_unit ⟨5, 5⟩ k (search_init ⟨0, 0⟩) = some st1) ∧
      ∀ v c, st1.cost v = some c → 0 ≤ c) ∧
    ∀ (st : search_state) (cur next : vector2i) (c : Int), st.cost cur = some c →
      (relax terrain_unit ⟨5, 5⟩ cur st next).open_set ≠ st.open_set →
        st.cost next = none ∨
          ∃ cn, st.cost next = some cn ∧ c + terrain_unit.get next.x next.y < cn :=
  search_loop_terminates vector2i_lt terrain_unit ⟨0, 0⟩ ⟨5, 5⟩ terrain_unit_costs_nonneg

/-! ## The parent links have no cycle -/

theorem depth_start (parent : vector2i → Option vector2i) (start : vector2i) (n : Nat)
    (h : Depth parent start start n) : n = 0 := by
  cases h with
  | zero => rfl
  | step hv _ _ => exact absurd rfl hv

theorem depth_unique (parent : vector2i → Option vector2i) (start v : vector2i) (n : Nat)
    (h : Depth parent start v n) : ∀ m, Depth parent start v m → m = n := by
  induction h with
  | zero =>
    intro m hm
    exact depth_start parent start m hm
  | @step v1 p1 n1 hv hp _ ih =>
    intro m hm
    cases hm with
    | zero => exact absurd rfl hv
    | @step _ p2 n2 _ hp2 hd2 =>
      rw [hp] at hp2
      cases hp2
      rw [ih n2 hd2]

theorem depth_of_anc (parent : vector2i → Option vector2i) (start v : vector2i)
    (h : Anc parent start start v) : ∃ n, Depth parent start v n := by
  induction h with
  | refl => exact ⟨0, Depth.zero⟩
  | @step v1 p1 hv hp _ ih =>
    obtain ⟨n, hn⟩ := ih
    exact ⟨n + 1, Depth.step hv hp hn⟩

/-- Following the links from a cell that lies `d` links from `start`: after `n`
links the walk is `d - n` links from `start`, or has met `start` and stays
there. -/
theorem follow_depth (parent : vector2i → Option vector2i) (start : vector2i)
    (hs : parent start = some start) (n : Nat) :
    ∀ v d w, Depth parent start v d → follow parent n v = some w →
      (n ≤ d → Depth parent start w (d - n)) ∧ (d < n → w = start) := by
  induction n with
  | zero =>
    intro v d w hd hf
    simp only [follow, Option.some.injEq] at hf
    subst hf
    exact ⟨fun _ => hd, fun h => absurd h (Nat.not_lt_zero d)⟩
  | succ m ih =>
    intro v d w hd hf
    cases hd with
    | zero =>
      simp only [follow, hs] at hf
      obtain ⟨h1, h2⟩ := ih start 0 w Depth.zero hf
      refine ⟨fun h => absurd h (by omega), fun _ => ?_⟩
      by_cases hm : m = 0
      · subst hm
        simp only [follow, Option.some.injEq] at hf
        exact hf.symm
      · exact h2 (by omega)
    | @step _ p d1 hv hp hd1 =>
      simp only [follow, hp] at hf
      obtain ⟨h1, h2⟩ := ih p d1 w hd1 hf
      constructor
      · intro hle
        have e : d1 + 1 - (m + 1) = d1 - m := by omega
        rw [e]
        exact h1 (by omega)
      · intro hlt
        exact h2 (by omega)

/-- A cell other than `start` that has a distance to `start` along the links
is not met again when the links are followed from it. -/
theorem follow_ne (parent : vector2i → Option vector2i) (start : vector2i)
    (hs : parent start = some start) (v : vector2i) (d : Nat)
    (hd : Depth parent start v d) (hv : v ≠ start) (n : Nat) (hn : 0 < n) :
    follow parent n v ≠ some v := by
  intro hf
  obtain ⟨h1, h2⟩ := follow_depth parent start hs n v d v hd hf
  by_cases hle : n ≤ d
  · have := depth_unique parent start v d hd _ (h1 hle)
    omega
  · exact hv (h2 (by omega))

/-- A walk of `backtrack` that ends has met no cell twice. -/
theorem backtrack_nodup (parent : vector2i → Option vector2i) (start : vector2i) (k : Nat) :
    ∀ cur acc q, backtrack_loop start parent k cur acc = search_result.found q →
      ∃ n l, Depth parent start cur n ∧ q = l ++ acc.reverse ∧ l.Nodup ∧
        ∀ x ∈ l, ∃ m, m ≤ n ∧ Depth parent start x m := by
  induction k with
  | zero =>
    intro cur acc q h
    simp [backtrack_loop] at h
  | succ j ih =>
    intro cur acc q h
    by_cases hc : cur = start
    · subst hc
      simp only [backtrack_loop, if_true, search_result.found.injEq] at h
      refine ⟨0, [cur], Depth.zero, ?_, List.nodup_singleton _, ?_⟩
      · rw [← h]
        simp
      · intro x hx
        simp only [List.mem_singleton] at hx
        subst hx
        exact ⟨0, le_refl _, Depth.zero⟩
    · simp only [backtrack_loop, hc, if_false] at h
      cases hp : parent cur with
      | none =>
        rw [hp] at h
        cases h
      | some p =>
        rw [hp] at h
        obtain ⟨n, l, hd, hq, hnd, hall⟩ := ih p (acc ++ [cur]) q h
        have hdc : Depth parent start cur (n + 1) := Depth.step hc hp hd
        refine ⟨n + 1, l ++ [cur], hdc, ?_, ?_, ?_⟩
        · rw [hq]
          simp
        · rw [List.nodup_append]
          refine ⟨hnd, List.nodup_singleton _, ?_⟩
          intro x hx hx1
          simp only [List.mem_singleton] at hx1
          subst hx1
          obtain ⟨m, hm, hdm⟩ := hall x hx
          have := depth_unique parent start x (n + 1) hdc m hdm
          omega
        · intro x hx
          rcases List.mem_append.mp hx with h1 | h1
          · obtain ⟨m, hm, hdm⟩ := hall x h1
            exact ⟨m, by omega, hdm⟩
          · simp only [List.mem_singleton] at h1
            subst h1
            exact ⟨n + 1, le_refl _, hdc⟩

/-- C25 (Backtrack is cycle-free).  On a terrain whose non-wall costs are
non-negative (zero included), for every destination that can be reached from
`start`: the loop of `search_path` ends, and in the parent map it leaves, no
cell other than `start` is met again when the links are followed from it (the
only cycle is the link of `start` to itself); `backtrack` ends, and the path
returned contains no cell twice. -/
theorem search_path_cycle_free (lt : vector2i → vector2i → Bool) (T : array2d)
    (start dest : vector2i) (hT : costs_nonneg T) (hr : reachable T start dest) :
    ∃ fuel st1 p,
      (∀ k, fuel ≤ k → search_loop lt T dest k (search_init start) = some st1) ∧
      st1.parent start = some start ∧
      (∀ v n, v ≠ start → 0 < n → follow st1.parent n v ≠ some v) ∧
      (∀ k, fuel ≤ k → search_path lt k T start dest [] = search_result.found p) ∧
      p.Nodup := by
  obtain ⟨fuel1, st1, hrun1, st0, hI0, _, hpar, _, _⟩ :=
    search_loop_ends lt T start dest hT _ (search_init start) rfl
      (search_init_inv T start) (search_init_settled T start dest)
  obtain ⟨fuel2, p, _, hrun2, _⟩ := search_path_found lt T start dest hT hr
  have hs : st1.parent start = some start := by
    rw [hpar]
    exact hI0.start_parent
  refine ⟨max fuel1 fuel2, st1, p, ?_, hs, ?_, ?_, ?_⟩
  · intro k hk
    exact hrun1 k (le_trans (le_max_left _ _) hk)
  · intro v n hv hn
    cases n with
    | zero => omega
    | succ m =>
      cases hp : st1.parent v with
      | none =>
        simp [follow, hp]
      | some q =>
        have hp0 : st0.parent v = some q := by
          rw [← hpar]
          exact hp
        obtain ⟨_, cv, _, hcv, _, _⟩ := hI0.link v q hp0 hv
        obtain ⟨d, hd⟩ := depth_of_anc st0.parent start v (hI0.anc v cv hcv)
        rw [← hpar] at hd
        exact follow_ne st1.parent start hs v d hd hv (m + 1) hn
  · intro k hk
    exact hrun2 k (le_trans (le_max_right _ _) hk)
  · have h := hrun2 (max fuel1 fuel2) (le_max_right _ _)
    simp only [search_path, hrun1 (max fuel1 fuel2) (le_max_left _ _), backtrack] at h
    obtain ⟨_, l, _, hq, hnd, _⟩ := backtrack_nodup st1.parent start _ dest [] p h
    rw [hq]
    simpa using hnd

/-- An instance: the 2 x 2 terrain of unit costs, from (0,0) to (1,1). -/
theorem search_path_cycle_free_witness :
    ∃ fuel st1 p,
      (∀ k, fuel ≤ k →
        search_loop vector2i_lt terrain_unit ⟨1, 1⟩ k (search_init ⟨0, 0⟩) = some st1) ∧
      st1.parent ⟨0, 0⟩ = some ⟨0, 0⟩ ∧
      (∀ v n, v ≠ (⟨0, 0⟩ : vector2i) → 0 < n → follow st1.parent n v ≠ some v) ∧
      (∀ k, fuel ≤ k →
        search_path vector2i_lt k terrain_unit ⟨0, 0⟩ ⟨1, 1⟩ [] = search_result.found p) ∧
      p.Nodup :=
  search_path_cycle_free vector2i_lt terrain_unit ⟨0, 0⟩ ⟨1, 1⟩ terrain_unit_costs_nonneg
    terrain_unit_reachable

end nrg

namespace ObjectLine

/-! ## `ObjectLine`: the transition table -/

/-- With the assertions compiled in, a finished `ObjectMove` that reports `OKAY`,
or `EXCEEDED_NORM` during the correction, fails the assertion of its handler
(objectline.cpp:118, 194, 195): the tick ends in no state. -/
theorem object_line_assert_fails (side : nrg.dir → nrg.dir)
    (inp : tick_input) (s : object_line) (hf : fresh_valid inp = true)
    (hl : handle_live s = true) (ha : stop_asserts inp s = false) :
    movement_loop false side inp s = none := by
  rw [object_line_tick_fresh false side inp s hf]
  obtain ⟨d, t, b, dn, st, cd, rm, om, ta⟩ := s
  obtain ⟨f1, f2, f3, f4, cx, cy, rd, od, os⟩ := inp
  cases st with
  | DOING_OBJECT_MOVE =>
    cases om with
    | none => simp [handle_live] at hl
    | some o =>
      cases od <;> cases os <;> simp_all [stop_asserts, do_doing_object_move]
  | DOING_CORRECTION_OBJECT_MOVE =>
    cases om with
    | none => simp [handle_live] at hl
    | some o =>
      cases od <;> cases os <;> simp_all [stop_asserts, do_doing_correction_object_move]
  | _ => simp [stop_asserts] at ha

/-- C22 (ObjectLine transition table).  On a tick with fresh and valid boxes, in
a state whose handler finds its handle non-null, with the assertions compiled
out or a stop condition that passes them (a finished `ObjectMove` does not
report `OKAY`, nor `EXCEEDED_NORM` during the correction): the tick ends in the
state the table gives, the done flag is set exactly by `AT_TARGET` in
`DOING_OBJECT_MOVE`, `REQUIRE_READY_MOVE` and `REQUIRE_CORRECTION_READY_MOVE`
make and start a `ReadyMove` towards the side of the primary and of the
correction direction, `REQUIRE_OBJECT_MOVE` makes an `ObjectMove` with the
primary direction, the target, the baseline and the deviation 10, and
`REQUIRE_CORRECTION_OBJECT_MOVE` one with the correction direction, the
baseline as target, base 0 and deviation 10000. -/
theorem object_line_transition_table (ndebug : Bool) (side : nrg.dir → nrg.dir)
    (inp : tick_input) (s : object_line) (hf : fresh_valid inp = true)
    (hl : handle_live s = true) (ha : ndebug = true ∨ stop_asserts inp s = true) :
    ∃ s1, movement_loop ndebug side inp s = some s1 ∧
      s1.m_state = table_state inp s.m_state ∧
      s1.m_done = table_done inp s ∧
      (s.m_state = State.REQUIRE_READY_MOVE →
        s1.m_ready_move = some { side_dir := side s.m_dir, started := true }) ∧
      (s.m_state = State.REQUIRE_CORRECTION_READY_MOVE →
        s1.m_ready_move = some { side_dir := side s.m_correction_dir, started := true }) ∧
      (s.m_state = State.REQUIRE_OBJECT_MOVE →
        s1.m_object_move = some { dir := s.m_dir, target := s.m_target,
                                  norm_base := s.m_base, norm_dev := 10,
                                  started := true }) ∧
      (s.m_state = State.REQUIRE_CORRECTION_OBJECT_MOVE →
        s1.m_object_move = some { dir := s.m_correction_dir, target := s.m_base,
                                  norm_base := 0, norm_dev := 10000,
                                  started := true }) := by
  rw [object_line_tick_fresh ndebug side inp s hf]
  obtain ⟨d, t, b, dn, st, cd, rm, om, ta⟩ := s
  obtain ⟨f1, f2, f3, f4, cx, cy, rd, od, os⟩ := inp
  cases st with
  | REQUIRE_READY_MOVE => simp [table_state, table_done, do_require_ready_move]
  | DOING_READY_MOVE =>
    cases rm with
    | none => simp [handle_live] at hl
    | some r => cases rd <;> simp [table_state, table_done, do_doing_ready_move]
  | REQUIRE_OBJECT_MOVE => simp [table_state, table_done, do_require_object_move]
  | DOING_OBJECT_MOVE =>
    cases om with
    | none => simp [handle_live] at hl
    | some o =>
      cases od <;> cases os <;> cases ndebug <;>
        simp_all [stop_asserts, table_state, table_done, do_doing_object_move]
  | REQUIRE_CORRECTION => simp [table_state, table_done, do_require_correction]
  | REQUIRE_CORRECTION_READY_MOVE =>
    simp [table_state, table_done, do_require_correction_ready_move]
  | DOING_CORRECTION_READY_MOVE =>
    cases rm with
    | none => simp [handle_live] at hl
    | some r => cases rd <;> simp [table_state, table_done, do_doing_correction_ready_move]
  | REQUIRE_CORRECTION_OBJECT_MOVE =>
    simp [table_state, table_done, do_require_correction_object_move]
  | DOING_CORRECTION_OBJECT_MOVE =>
    cases om with
    | none => simp [handle_live] at hl
    | some o =>
      cases od <;> cases os <;> cases ndebug <;>
        simp_all [stop_asserts, table_state, table_done, do_doing_correction_object_move]

/-- An instance: in the correction, a finished `ObjectMove` reports `AT_TARGET`
and the assertions are compiled in; the tick leads to `REQUIRE_READY_MOVE`. -/
theorem object_line_transition_table_witness :
    ∃ s1, movement_loop false (fun d => d) input_at_target state_correcting = some s1 ∧
      s1.m_state = table_state input_at_target state_correcting.m_state ∧
      s1.m_done = table_done input_at_target state_correcting ∧
      (state_correcting.m_state = State.REQUIRE_READY_MOVE →
        s1.m_ready_move =
          some { side_dir := (fun d => d) state_correcting.m_dir, started := true }) ∧
      (state_correcting.m_state = State.REQUIRE_CORRECTION_READY_MOVE →
        s1.m_ready_move =
          some { side_dir := (fun d => d) state_correcting.m_correction_dir,
                 started := true }) ∧
      (state_correcting.m_state = State.REQUIRE_OBJECT_MOVE →
        s1.m_object_move = some { dir := state_correcting.m_dir,
                                  target := state_correcting.m_target,
                                  norm_base := state_correcting.m_base, norm_dev := 10,
                                  started := true }) ∧
      (state_correcting.m_state = State.REQUIRE_CORRECTION_OBJECT_MOVE →
        s1.m_object_move = some { dir := state_correcting.m_correction_dir,
                                  target := state_correcting.m_base,
                                  norm_base := 0, norm_dev := 10000,
                                  started := true }) :=
  object_line_transition_table false (fun d => d) input_at_target state_correcting rfl rfl
    (Or.inr rfl)

end ObjectLine
